import Mathlib

/-!
# Verification of the go-test-my-db seeding pipeline

Shallow embedding of the core subsystems of the `go-test-my-db` database
seeding tool (dependency resolver, row-generation engine, seeding
orchestrator helpers) together with proofs about the embedded functions.

Conventions:
* Go maps iterated by `range` are embedded as lists; iteration order is the
  list order (Go's map order is unspecified; all properties proved here are
  order-independent in the sense that they are stated for the embedded order).
* Go's `math/rand` primitives are embedded as explicit oracle inputs: each
  draw is an element of an input stream, with the range contract of the
  primitive (`rand.IntN n < n`, `rand.Float64 ∈ [0,1)`) realised by `% n`
  resp. a rational-number parameter.
* Go `float64` values that only flow through comparisons and clamping are
  embedded as rationals (`ℚ`); no claim about floating-point rounding is
  proved through this embedding.
* Go panics and fatal errors are embedded as `Except String`.
-/

namespace GoTestMyDb

/-! ## String helpers -/

/-- ASCII lower-casing of one character (kernel-computable `Char.toLower`). -/
def asciiLower (c : Char) : Char :=
  if 65 ≤ c.toNat ∧ c.toNat ≤ 90 then Char.ofNat (c.toNat + 32) else c

/-- ASCII lower-casing of a string (kernel-computable `strings.ToLower` for
the ASCII identifiers appearing in schemas). -/
def lowerStr (s : String) : String := String.mk (s.data.map asciiLower)

/-! ## Schema data model (internal/introspect) -/

/-- `introspect.ForeignKey`. -/
structure ForeignKey where
  referencedTable : String
  referencedColumn : String
deriving DecidableEq, Repr

/-- `introspect.Column` (the fields consumed by the verified subsystems). -/
structure Column where
  name : String := ""
  dataType : String := ""
  columnType : String := ""
  isNullable : Bool := false
  isAutoInc : Bool := false
  isGenerated : Bool := false
  isPrimaryKey : Bool := false
  isUnique : Bool := false
  enumValues : List String := []
  fk : Option ForeignKey := none
deriving DecidableEq, Repr

/-- `introspect.Column.IsIntegerType`. -/
def Column.isIntegerType (c : Column) : Bool :=
  lowerStr c.dataType == "tinyint" || lowerStr c.dataType == "smallint" ||
  lowerStr c.dataType == "mediumint" || lowerStr c.dataType == "int" ||
  lowerStr c.dataType == "integer" || lowerStr c.dataType == "bigint"

/-- `introspect.UniqueIndex` (non-primary unique index). -/
structure UniqueIndex where
  name : String
  columns : List String
deriving DecidableEq, Repr

/-- `introspect.Table`. -/
structure Table where
  name : String
  columns : List Column
  uniqueIndexes : List UniqueIndex := []
deriving DecidableEq, Repr

/-! ## Runtime values

Go row values are `any`; the generator produces integers, strings, byte
slices, booleans and timestamps, and SQL `NULL` is the `nil` interface value.
`NULL` is embedded as `Option.none` at use sites; `Val` is the non-nil value
universe. -/

structure DateTime where
  year : Nat
  month : Nat
  day : Nat
  hour : Nat
  minute : Nat
  second : Nat
deriving DecidableEq, Repr

inductive Val where
  | intV (n : Int)
  | strV (s : String)
  | boolV (b : Bool)
  | bytesV (bs : List UInt8)
  | timeV (t : DateTime)
deriving DecidableEq, Repr

/-- `fmt.Sprint` as used for uniqueness-tracker keys and weighted-picker keys:
a value-to-string function.  Only its congruence (equal values give equal
keys) matters for the proofs below. -/
def Val.sprint : Val → String
  | .intV n => toString n
  | .strV s => s
  | .boolV b => if b then "true" else "false"
  | .bytesV bs => toString (bs.map (fun b => b.toNat))
  | .timeV t =>
      toString t.year ++ "-" ++ toString t.month ++ "-" ++ toString t.day ++ " " ++
      toString t.hour ++ ":" ++ toString t.minute ++ ":" ++ toString t.second

/-! ## Index deferral (seeder: `filterFKBackingIndexes`, `indexBacksFK`) -/

/-- `seeder.IndexColumn`: one column of a secondary index with optional
prefix length (`SUB_PART`). -/
structure IndexColumn where
  name : String
  subPart : Option Int := none
deriving DecidableEq, Repr

/-- `seeder.SecondaryIndex`. -/
structure SecondaryIndex where
  name : String
  unique : Bool := false
  columns : List IndexColumn
deriving DecidableEq, Repr

/-- `strings.EqualFold` restricted to the ASCII identifiers appearing in
schema names: case-insensitive equality via lower-casing. -/
def eqFold (a b : String) : Bool := lowerStr a == lowerStr b

/-- `seeder.indexBacksFK`: the FK's columns must be a leftmost prefix of the
index's columns, case-insensitively. -/
def indexBacksFK (idx : SecondaryIndex) (fkCols : List String) : Bool :=
  if idx.columns.length < fkCols.length then false
  else (idx.columns.zip fkCols).all (fun p => eqFold p.1.name p.2)

/-- The positions (into `indexes`) of the indexes that can back `cols`
(the `fkInfo.backers` computation inside `filterFKBackingIndexes`). -/
def fkBackers (indexes : List SecondaryIndex) (cols : List String) : List Nat :=
  (indexes.enum.filter (fun p => indexBacksFK p.2 cols)).map (fun p => p.1)

/-- `seeder.filterFKBackingIndexes`: returns `(droppable, kept)`.  An index is
kept exactly when some FK constraint has it as its only backing index. -/
def filterFKBackingIndexes (indexes : List SecondaryIndex)
    (fkColSets : List (List String)) : List SecondaryIndex × List SecondaryIndex :=
  if fkColSets.isEmpty then (indexes, [])
  else
    let mustKeep : List Nat :=
      fkColSets.foldl
        (fun acc cols =>
          let bs := fkBackers indexes cols
          if bs.length = 1 then acc ++ bs else acc)
        []
    let droppable := (indexes.enum.filter (fun p => ¬ p.1 ∈ mustKeep)).map (fun p => p.2)
    let kept := (indexes.enum.filter (fun p => p.1 ∈ mustKeep)).map (fun p => p.2)
    (droppable, kept)

/-- Auxiliary fold used by `filterFKBackingIndexes` to collect positions of
sole backing indexes. -/
def mustKeepFold (indexes : List SecondaryIndex) (fkColSets : List (List String))
    (acc : List Nat) : List Nat :=
  fkColSets.foldl
    (fun acc cols =>
      let bs := fkBackers indexes cols
      if bs.length = 1 then acc ++ bs else acc)
    acc

theorem mustKeepFold_mono (indexes : List SecondaryIndex)
    (fkColSets : List (List String)) (acc : List Nat) (j : Nat) (hj : j ∈ acc) :
    j ∈ mustKeepFold indexes fkColSets acc := by
  induction fkColSets generalizing acc with
  | nil => exact hj
  | cons c cs ih =>
    unfold mustKeepFold at *
    simp only [List.foldl_cons]
    apply ih
    split
    · exact List.mem_append_left _ hj
    · exact hj

theorem mem_mustKeepFold (indexes : List SecondaryIndex)
    (fkColSets : List (List String)) (acc : List Nat) (cols : List String)
    (hmem : cols ∈ fkColSets) (j : Nat) (hb : fkBackers indexes cols = [j]) :
    j ∈ mustKeepFold indexes fkColSets acc := by
  induction fkColSets generalizing acc with
  | nil => cases hmem
  | cons c cs ih =>
    unfold mustKeepFold at *
    simp only [List.foldl_cons]
    rcases List.mem_cons.mp hmem with h | h
    · subst h
      apply mustKeepFold_mono
      rw [hb]
      simp
    · exact ih _ h

/-- C6 auxiliary: unfolding of `filterFKBackingIndexes` in the non-empty case. -/
theorem filterFKBackingIndexes_eq (indexes : List SecondaryIndex)
    (fkColSets : List (List String)) (hne : fkColSets ≠ []) :
    filterFKBackingIndexes indexes fkColSets =
      ((indexes.enum.filter
          (fun p => ¬ p.1 ∈ mustKeepFold indexes fkColSets [])).map (fun p => p.2),
       (indexes.enum.filter
          (fun p => p.1 ∈ mustKeepFold indexes fkColSets [])).map (fun p => p.2)) := by
  unfold filterFKBackingIndexes mustKeepFold
  simp [List.isEmpty_iff, hne]

/-- C6 (amended): if an FK constraint has *exactly one* backing index among
the table's secondary indexes, that index is kept (never dropped), so the
constraint still has a backing index after the drop. -/
theorem filterFKBackingIndexes_sole_backer_kept
    (indexes : List SecondaryIndex) (fkColSets : List (List String))
    (cols : List String) (hmem : cols ∈ fkColSets)
    (j : Nat) (hb : fkBackers indexes cols = [j]) :
    ∃ idx, idx ∈ (filterFKBackingIndexes indexes fkColSets).2 ∧
      indexBacksFK idx cols = true := by
  have hne : fkColSets ≠ [] := by rintro rfl; cases hmem
  -- the sole backer is at position j with its index value
  have hjmem : j ∈ mustKeepFold indexes fkColSets [] :=
    mem_mustKeepFold indexes fkColSets [] cols hmem j hb
  -- extract the (position, index) pair from the singleton backers list
  have hex : ∃ idx, (j, idx) ∈ indexes.enum ∧ indexBacksFK idx cols = true := by
    unfold fkBackers at hb
    have := congrArg (fun l => j ∈ l) hb
    have hj : j ∈ (indexes.enum.filter (fun p => indexBacksFK p.2 cols)).map
        (fun p => p.1) := by rw [hb]; simp
    rcases List.mem_map.mp hj with ⟨p, hp, hfst⟩
    rcases List.mem_filter.mp hp with ⟨hpe, hpred⟩
    refine ⟨p.2, ?_, by simpa using hpred⟩
    have : p = (j, p.2) := by
      cases p
      simp at hfst ⊢
      omega
    rwa [this] at hpe
  rcases hex with ⟨idx, hpe, hback⟩
  refine ⟨idx, ?_, hback⟩
  rw [filterFKBackingIndexes_eq indexes fkColSets hne]
  simp only [List.mem_map]
  refine ⟨(j, idx), ?_, rfl⟩
  rw [List.mem_filter]
  exact ⟨hpe, by simpa using hjmem⟩

/-- A single-column secondary index on `companyId`. -/
def idxCompanyId : SecondaryIndex := ⟨"idx_companyId", false, [⟨"companyId", none⟩]⟩

/-- A composite secondary index on `(companyId, status)`; its leading column
also backs an FK on `companyId`. -/
def idxCompanyIdStatus : SecondaryIndex :=
  ⟨"idx_companyId_status", false, [⟨"companyId", none⟩, ⟨"status", none⟩]⟩

/-- C6 counterexample: with two indexes both backing the FK on `companyId`,
`filterFKBackingIndexes` marks *both* droppable, so after the drop the FK —
which did have a backing secondary index — has none left among the kept
indexes.  (This matches the repository's own test of the two-backer case.) -/
theorem c6_filterFKBackingIndexes_counterexample :
    indexBacksFK idxCompanyId ["companyId"] = true ∧
    indexBacksFK idxCompanyIdStatus ["companyId"] = true ∧
    (filterFKBackingIndexes [idxCompanyId, idxCompanyIdStatus] [["companyId"]]).2 = [] := by
  refine ⟨by decide, by decide, by decide⟩

/-- C6 witness: the amended sole-backer guarantee at a concrete input. -/
theorem c6_sole_backer_witness :
    ∃ idx, idx ∈ (filterFKBackingIndexes [idxCompanyId] [["companyId"]]).2 ∧
      indexBacksFK idx ["companyId"] = true :=
  filterFKBackingIndexes_sole_backer_kept [idxCompanyId] [["companyId"]]
    ["companyId"] (by simp) 0 (by decide)

/-! ## Row-count planner (cmd/test.go: `computeRowCounts`) -/

/-- The inputs of `computeRowCounts`: the per-table parent lists
(`relations.Parents`, absent key = `[]`), the per-table config override
(`cfg.Tables[name].Rows`, absent = `0`), the base count, the multiplier
range, the cap, and the `rand.IntN` draws (call counter ↦ raw draw; the
`% n` below realises `rand.IntN`'s range contract). -/
structure RowCountCtx where
  parents : String → List String
  overrideRows : String → Int
  baseRows : Int
  minC : Int
  maxC : Int
  maxRowsCap : Int
  rng : Nat → Nat

/-- First-match lookup in an association list (Go map read; the planner's
map is written once per key, so first-match equals the Go map). -/
def mapGet (m : List (String × Int)) (k : String) : Option Int :=
  match m with
  | [] => none
  | p :: rest => if p.1 = k then some p.2 else mapGet rest k

/-- The "find the parent with the most rows" fold of `computeRowCounts`:
parents without a planned entry are skipped. -/
def maxParentPlanned (ctx : RowCountCtx) (m : List (String × Int)) (t : String) : Int :=
  (ctx.parents t).foldl
    (fun acc p =>
      match mapGet m p with
      | some pr => if pr > acc then pr else acc
      | none => acc) 0

/-- One iteration of the `computeRowCounts` loop: the planned count for
table `t` given the already-planned map `m` and the rand-call counter `k`.
Returns the count and the updated counter. -/
def crcStep (ctx : RowCountCtx) (m : List (String × Int)) (k : Nat) (t : String) :
    Int × Nat :=
  if ctx.overrideRows t > 0 then (ctx.overrideRows t, k)
  else if ctx.parents t = [] then (ctx.baseRows, k)
  else
    let maxParentRows := maxParentPlanned ctx m t
    let md : Int × Nat :=
      if ctx.maxC > ctx.minC then
        (ctx.minC + ((ctx.rng k) % (ctx.maxC - ctx.minC + 1).toNat : Nat), k + 1)
      else (ctx.minC, k)
    let computed := maxParentRows * md.1
    (if computed > ctx.maxRowsCap then ctx.maxRowsCap else computed, md.2)

/-- The `computeRowCounts` loop over the resolved order, threading the
planned map and the rand-call counter. -/
def crcAux (ctx : RowCountCtx) : List String → List (String × Int) → Nat →
    List (String × Int) × Nat
  | [], m, k => (m, k)
  | t :: rest, m, k =>
      let vk := crcStep ctx m k t
      crcAux ctx rest (m ++ [(t, vk.1)]) vk.2

/-- `computeRowCounts` (cmd/test.go): the planned row-count map. -/
def computeRowCounts (ctx : RowCountCtx) (order : List String) :
    List (String × Int) :=
  (crcAux ctx order [] 0).1

theorem crcAux_append (ctx : RowCountCtx) (l1 l2 : List String)
    (m : List (String × Int)) (k : Nat) :
    crcAux ctx (l1 ++ l2) m k =
      crcAux ctx l2 (crcAux ctx l1 m k).1 (crcAux ctx l1 m k).2 := by
  induction l1 generalizing m k with
  | nil => simp [crcAux]
  | cons t rest ih => simp [crcAux, ih]

theorem crcAux_fst_prefix (ctx : RowCountCtx) (l : List String)
    (m : List (String × Int)) (k : Nat) :
    ∃ d, (crcAux ctx l m k).1 = m ++ d ∧ d.map Prod.fst = l := by
  induction l generalizing m k with
  | nil => exact ⟨[], by simp [crcAux]⟩
  | cons t rest ih =>
    rcases ih (m ++ [(t, (crcStep ctx m k t).1)]) (crcStep ctx m k t).2 with ⟨d, hd, hk⟩
    exact ⟨(t, (crcStep ctx m k t).1) :: d, by simpa [crcAux] using hd, by simp [hk]⟩

theorem mapGet_append_left {m d : List (String × Int)} {t : String} {v : Int}
    (h : mapGet m t = some v) : mapGet (m ++ d) t = some v := by
  induction m with
  | nil => simp [mapGet] at h
  | cons p rest ih =>
    rw [mapGet] at h
    rw [List.cons_append, mapGet]
    by_cases hc : p.1 = t
    · rw [if_pos hc] at h ⊢; exact h
    · rw [if_neg hc] at h ⊢; exact ih h

theorem mapGet_append_right {m d : List (String × Int)} {t : String}
    (h : mapGet m t = none) : mapGet (m ++ d) t = mapGet d t := by
  induction m with
  | nil => simp [mapGet]
  | cons p rest ih =>
    rw [mapGet] at h
    rw [List.cons_append, mapGet]
    by_cases hc : p.1 = t
    · rw [if_pos hc] at h; cases h
    · rw [if_neg hc] at h ⊢; exact ih h

theorem mapGet_eq_none_of_not_mem {m : List (String × Int)} {t : String}
    (h : ¬ t ∈ m.map Prod.fst) : mapGet m t = none := by
  induction m with
  | nil => rfl
  | cons p rest ih =>
    simp only [List.map_cons, List.mem_cons] at h
    push_neg at h
    rw [mapGet]
    rw [if_neg (fun he => h.1 he.symm)]
    exact ih h.2

/-- The value planned for the table at position `i` is exactly the value the
loop body computes from the already-planned prefix map. -/
theorem computeRowCounts_lookup (ctx : RowCountCtx) (order : List String)
    (hnd : order.Nodup) (i : Nat) (hi : i < order.length) :
    mapGet (computeRowCounts ctx order) order[i] =
      some (crcStep ctx (crcAux ctx (order.take i) [] 0).1
        (crcAux ctx (order.take i) [] 0).2 order[i]).1 := by
  have hsplit : order = order.take i ++ order[i] :: order.drop (i + 1) := by
    conv_lhs => rw [← List.take_append_drop i order]
    congr 1
    exact List.drop_eq_getElem_cons hi
  set t := order[i] with ht
  set pre := order.take i with hpre
  set post := order.drop (i + 1) with hpost
  -- t does not occur in the prefix
  have htpre : ¬ t ∈ pre := by
    intro hmem
    rcases List.mem_take_iff_getElem.mp (by simpa [hpre] using hmem) with ⟨j, hj, hje⟩
    have hji : j < i := lt_of_lt_of_le hj inf_le_left
    have hne : j ≠ i := by omega
    exact hne ((List.Nodup.getElem_inj_iff hnd).mp hje)
  -- run the loop over the decomposition
  unfold computeRowCounts
  rw [hsplit, crcAux_append]
  simp only [crcAux]
  rcases crcAux_fst_prefix ctx pre [] 0 with ⟨d, hd, hdk⟩
  rcases crcAux_fst_prefix ctx post
      ((crcAux ctx pre [] 0).1 ++ [(t, (crcStep ctx (crcAux ctx pre [] 0).1
        (crcAux ctx pre [] 0).2 t).1)])
      (crcStep ctx (crcAux ctx pre [] 0).1 (crcAux ctx pre [] 0).2 t).2
    with ⟨d2, hd2, hd2k⟩
  rw [hd2]
  have hnone : mapGet (crcAux ctx pre [] 0).1 t = none := by
    apply mapGet_eq_none_of_not_mem
    rw [hd]
    simpa [hdk] using htpre
  rw [List.append_assoc]
  rw [mapGet_append_right hnone]
  simp [mapGet]

/-- C8: `computeRowCounts` assigns, in processing order: a positive
per-table override verbatim; otherwise the base count to tables without
in-set parents; otherwise the largest already-planned parent count times a
multiplier drawn from `[minC, maxC]`, capped at `maxRowsCap`. -/
theorem computeRowCounts_spec (ctx : RowCountCtx) (order : List String)
    (hnd : order.Nodup) (hcm : ctx.minC ≤ ctx.maxC) (i : Nat) (hi : i < order.length) :
    (ctx.overrideRows order[i] > 0 →
       mapGet (computeRowCounts ctx order) order[i] = some (ctx.overrideRows order[i])) ∧
    (¬ ctx.overrideRows order[i] > 0 → ctx.parents order[i] = [] →
       mapGet (computeRowCounts ctx order) order[i] = some ctx.baseRows) ∧
    (¬ ctx.overrideRows order[i] > 0 → ctx.parents order[i] ≠ [] →
       ∃ mult : Int, ctx.minC ≤ mult ∧ mult ≤ ctx.maxC ∧
         mapGet (computeRowCounts ctx order) order[i] =
           some (min ctx.maxRowsCap
             (maxParentPlanned ctx (crcAux ctx (order.take i) [] 0).1 order[i] * mult))) := by
  have h := computeRowCounts_lookup ctx order hnd i hi
  refine ⟨?_, ?_, ?_⟩
  · intro hov
    rw [h]
    unfold crcStep
    rw [if_pos hov]
  · intro hov hroot
    rw [h]
    unfold crcStep
    rw [if_neg hov, if_pos hroot]
  · intro hov hchild
    set m := (crcAux ctx (order.take i) [] 0).1
    set k := (crcAux ctx (order.take i) [] 0).2
    rw [h]
    unfold crcStep
    rw [if_neg hov, if_neg hchild]
    by_cases hlt : ctx.maxC > ctx.minC
    · refine ⟨ctx.minC + ((ctx.rng k) % (ctx.maxC - ctx.minC + 1).toNat : Nat), ?_, ?_, ?_⟩
      · have : (0 : Int) ≤ ((ctx.rng k) % (ctx.maxC - ctx.minC + 1).toNat : Nat) :=
          Int.natCast_nonneg _
        omega
      · have hn : ((ctx.maxC - ctx.minC + 1).toNat : Int) = ctx.maxC - ctx.minC + 1 := by
          omega
        have hmod : (ctx.rng k) % (ctx.maxC - ctx.minC + 1).toNat <
            (ctx.maxC - ctx.minC + 1).toNat := by
          apply Nat.mod_lt
          omega
        have : ((ctx.rng k % (ctx.maxC - ctx.minC + 1).toNat : Nat) : Int) <
            ((ctx.maxC - ctx.minC + 1).toNat : Int) := by
          exact_mod_cast hmod
        omega
      · simp only [if_pos hlt]
        congr 1
        rw [min_def]
        split <;> rename_i hle <;> split <;> rename_i hgt <;> omega
    · refine ⟨ctx.minC, le_refl _, hcm, ?_⟩
      simp only [if_neg hlt]
      congr 1
      rw [min_def]
      split <;> rename_i hle <;> split <;> rename_i hgt <;> omega

/-- Concrete planner inputs for the C8 witness: `b` is a child of root `a`,
and `c` carries a positive override. -/
def ctxC8 : RowCountCtx where
  parents := fun s => if s = "b" then ["a"] else []
  overrideRows := fun s => if s = "c" then 5 else 0
  baseRows := 10
  minC := 2
  maxC := 4
  maxRowsCap := 100
  rng := fun _ => 1

/-- C8 witness: the child-table case of `computeRowCounts_spec` evaluated at
a concrete order. -/
theorem computeRowCounts_spec_witness :
    ∃ mult : Int, ctxC8.minC ≤ mult ∧ mult ≤ ctxC8.maxC ∧
      mapGet (computeRowCounts ctxC8 ["a", "b", "c"]) "b" =
        some (min ctxC8.maxRowsCap
          (maxParentPlanned ctxC8 (crcAux ctxC8 (["a", "b", "c"].take 1) [] 0).1 "b" * mult)) :=
  (computeRowCounts_spec ctxC8 ["a", "b", "c"] (by decide) (by decide) 1 (by decide)).2.2
    (by decide) (by decide)

/-! ## Streaming bulk-load writer (seeder: `csvWriter.WriteRow`,
`appendMySQLValue`, `appendEscapedString`, `appendEscapedBytes`)

The Go code works on byte buffers; the embedding works on character lists.
This is faithful because the five escaped bytes (TAB, LF, CR, backslash,
NUL) are ASCII and never occur as continuation bytes of a multi-byte UTF-8
character, so byte-wise and character-wise escaping agree.  A `[]byte`
value is embedded as its list of bytes, each emitted as the character with
that code point. -/

/-- Zero-padding to two digits (the `04`, `02`, … components of the Go time
layout `2006-01-02 15:04:05`). -/
def pad2 (n : Nat) : String := if n < 10 then "0" ++ toString n else toString n

/-- Zero-padding to four digits (the `2006` component of the layout). -/
def pad4 (n : Nat) : String :=
  if n < 10 then "000" ++ toString n
  else if n < 100 then "00" ++ toString n
  else if n < 1000 then "0" ++ toString n
  else toString n

/-- `time.Time.Format("2006-01-02 15:04:05")`. -/
def DateTime.format (t : DateTime) : String :=
  pad4 t.year ++ "-" ++ pad2 t.month ++ "-" ++ pad2 t.day ++ " " ++
  pad2 t.hour ++ ":" ++ pad2 t.minute ++ ":" ++ pad2 t.second

/-- The escaping switch of `appendEscapedString`: TAB, LF, CR, backslash and
NUL become their backslash escapes, everything else passes through. -/
def escapeChar (c : Char) : List Char :=
  if c = '\t' then ['\\', 't']
  else if c = '\n' then ['\\', 'n']
  else if c = '\r' then ['\\', 'r']
  else if c = '\\' then ['\\', '\\']
  else if c.toNat = 0 then ['\\', '0']
  else [c]

/-- The escaping switch of `appendEscapedBytes` (byte-valued). -/
def escapeByte (b : UInt8) : List Char :=
  if b = 9 then ['\\', 't']
  else if b = 10 then ['\\', 'n']
  else if b = 13 then ['\\', 'r']
  else if b = 92 then ['\\', '\\']
  else if b = 0 then ['\\', '0']
  else [Char.ofNat b.toNat]

/-- `seeder.appendEscapedString`. -/
def appendEscapedString (buf : List Char) (s : String) : List Char :=
  s.data.foldl (fun buf c => buf ++ escapeChar c) buf

/-- `seeder.appendEscapedBytes`. -/
def appendEscapedBytes (buf : List Char) (bs : List UInt8) : List Char :=
  bs.foldl (fun buf b => buf ++ escapeByte b) buf

/-- `seeder.appendMySQLValue`: `nil → \N`, strings/bytes escaped, integers in
decimal, booleans as `1`/`0`, timestamps formatted then escaped. -/
def appendMySQLValue (buf : List Char) : Option Val → List Char
  | none => buf ++ ['\\', 'N']
  | some (.strV s) => appendEscapedString buf s
  | some (.bytesV bs) => appendEscapedBytes buf bs
  | some (.intV n) => buf ++ (toString n).data
  | some (.boolV b) => buf ++ (if b then ['1'] else ['0'])
  | some (.timeV t) => appendEscapedString buf (DateTime.format t)

/-- `csvWriter.WriteRow`: tab between consecutive fields, newline at the
end. -/
def writeRow (row : List (Option Val)) : List Char :=
  (row.enum.foldl
    (fun buf p => appendMySQLValue (if p.1 > 0 then buf ++ ['\t'] else buf) p.2) []) ++
  ['\n']

/-- Specification-side field rendering: what the claim says each field looks
like. -/
def fieldChars : Option Val → List Char
  | none => ['\\', 'N']
  | some (.strV s) => s.data.flatMap escapeChar
  | some (.bytesV bs) => bs.flatMap escapeByte
  | some (.intV n) => (toString n).data
  | some (.boolV b) => if b then ['1'] else ['0']
  | some (.timeV t) => (DateTime.format t).data.flatMap escapeChar

/-- Specification-side framing: fields joined by single tabs. -/
def joinTab : List (List Char) → List Char
  | [] => []
  | f :: fs => f ++ fs.flatMap (fun g => '\t' :: g)

theorem appendEscapedString_eq (buf : List Char) (s : String) :
    appendEscapedString buf s = buf ++ s.data.flatMap escapeChar := by
  unfold appendEscapedString
  induction s.data generalizing buf with
  | nil => simp
  | cons c cs ih => simp [ih]

theorem appendEscapedBytes_eq (buf : List Char) (bs : List UInt8) :
    appendEscapedBytes buf bs = buf ++ bs.flatMap escapeByte := by
  unfold appendEscapedBytes
  induction bs generalizing buf with
  | nil => simp
  | cons b rest ih => simp [ih]

theorem appendMySQLValue_eq (buf : List Char) (v : Option Val) :
    appendMySQLValue buf v = buf ++ fieldChars v := by
  cases v with
  | none => rfl
  | some w =>
    cases w <;>
      simp [appendMySQLValue, fieldChars, appendEscapedString_eq, appendEscapedBytes_eq]

theorem writeRow_tail (rest : List (Option Val)) (k : Nat) (hk : 0 < k)
    (buf : List Char) :
    (List.enumFrom k rest).foldl
        (fun buf p => appendMySQLValue (if p.1 > 0 then buf ++ ['\t'] else buf) p.2) buf =
      buf ++ rest.flatMap (fun v => '\t' :: fieldChars v) := by
  induction rest generalizing k buf with
  | nil => simp
  | cons v rest ih =>
    simp only [List.enumFrom, List.foldl_cons, List.flatMap_cons]
    rw [if_pos hk, appendMySQLValue_eq]
    rw [ih (k + 1) (Nat.succ_pos k)]
    simp

/-- C9: the streaming bulk-load writer emits one line per row — the fields
separated by single tabs and terminated by a newline — where `nil` renders
as `\N`, every TAB/LF/CR/backslash/NUL occurring in a string or byte-slice
value is replaced by its backslash escape, and timestamps are rendered in
`YYYY-MM-DD HH:MM:SS` form (then escaped like a string). -/
theorem writeRow_spec (row : List (Option Val)) :
    writeRow row = joinTab (row.map fieldChars) ++ ['\n'] := by
  unfold writeRow
  congr 1
  cases row with
  | nil => rfl
  | cons v rest =>
    show (List.enumFrom 0 (v :: rest)).foldl _ [] = _
    simp only [List.enumFrom, List.foldl_cons]
    rw [show (if (0 : Nat) > 0 then ([] : List Char) ++ ['\t'] else []) = [] by simp]
    rw [appendMySQLValue_eq, writeRow_tail rest 1 Nat.one_pos]
    simp [joinTab, List.flatMap_map]





/-! ## Value picker (generator/distribution.go)

`float64` arithmetic is embedded over `ℚ`; `math.Pow` is an external
collaborator and is passed in as an oracle `powf` (exponent, base ↦ power).
`rand.Perm n` is passed in as the permutation it returned (the contract —
a permutation of `0..n-1` — appears as hypotheses).  One `Pick` call
consumes one `PickDraw`. -/

/-- `config.DistributionConfig`. -/
structure DistributionConfig where
  type : String := ""
  s : ℚ := 0
  mean : ℚ := 0
  stdDev : ℚ := 0
  weights : List (String × ℚ) := []

/-- One draw of each `math/rand` primitive a picker may consume. -/
structure PickDraw where
  intDraw : Nat := 0
  floatDraw : ℚ := 0
  normDraw : ℚ := 0

/-- First-match lookup in the weights map. -/
def assocQ (m : List (String × ℚ)) (k : String) : Option ℚ :=
  match m with
  | [] => none
  | p :: rest => if p.1 = k then some p.2 else assocQ rest k

/-- Running cumulative sums (the `total += w; cdf[i] = total` loop). -/
def cumsumFrom (acc : ℚ) : List ℚ → List ℚ
  | [] => []
  | w :: rest => (acc + w) :: cumsumFrom (acc + w) rest

def cumsum (l : List ℚ) : List ℚ := cumsumFrom 0 l

/-- `sort.SearchFloat64s`: smallest index whose entry is `≥ r`, or the
length when there is none (lower-bound search). -/
def searchLowerBound : List ℚ → ℚ → Nat
  | [], _ => 0
  | c :: rest, r => if r ≤ c then 0 else 1 + searchLowerBound rest r

/-- `generator.buildZipfPicker`'s CDF: weights `1/(rank+1)^s`, cumulated and
normalized.  `powf s b` stands for `math.Pow(b, s)`. -/
def zipfCdf (n : Nat) (s : ℚ) (powf : ℚ → Nat → ℚ) : List ℚ :=
  let sAdj := if s ≤ 0 then 1 else s
  let ws := (List.range n).map (fun i => 1 / powf sAdj (i + 1))
  let total := ws.foldl (· + ·) 0
  (cumsum ws).map (fun c => c / total)

/-- `generator.buildZipfPicker`'s pick: inverse-CDF rank, clamped, sent
through the random permutation. -/
def zipfPick (n : Nat) (s : ℚ) (powf : ℚ → Nat → ℚ) (perm : List Nat) (r : ℚ) : Nat :=
  let rank := searchLowerBound (zipfCdf n s powf) r
  let rank := if rank ≥ n then n - 1 else rank
  perm.getD rank 0

/-- Go `float64 → int` conversion: truncation toward zero. -/
def truncQ (q : ℚ) : Int := if 0 ≤ q then ⌊q⌋ else -⌊-q⌋

/-- `generator.buildNormalPicker`'s pick: Gaussian draw scaled by
`stddev*n` around `mean*n`, truncated and clamped to `[0, n-1]`. -/
def normalPick (n : Nat) (mean stdDev : ℚ) (nd : ℚ) : Nat :=
  let mean := if mean = 0 then (1 : ℚ)/2 else mean
  let sd := if stdDev = 0 then (15 : ℚ)/100 else stdDev
  let v := nd * sd * (n : ℚ) + mean * (n : ℚ)
  let idx : Int := truncQ v
  let idx := if idx < 0 then 0 else idx
  let idx := if idx ≥ (n : Int) then (n : Int) - 1 else idx
  idx.toNat

/-- `generator.buildWeightedPicker`'s CDF: explicit weights keyed by
`fmt.Sprint` of the value, default `1`, cumulated and normalized. -/
def weightedCdf (values : List Val) (weights : List (String × ℚ)) : List ℚ :=
  let w := values.map (fun v =>
    match assocQ weights v.sprint with
    | some wt => wt
    | none => 1)
  let total := w.foldl (· + ·) 0
  (cumsum w).map (fun c => c / total)

/-- `generator.buildWeightedPicker`'s pick: inverse-CDF index, clamped. -/
def weightedPick (values : List Val) (weights : List (String × ℚ)) (r : ℚ) : Nat :=
  let idx := searchLowerBound (weightedCdf values weights) r
  if idx ≥ values.length then values.length - 1 else idx

/-- The index a `ValuePicker.Pick` call samples, by distribution type
(`nil`/unknown/empty type = uniform). -/
def pickIndex (values : List Val) (dist : Option DistributionConfig)
    (powf : ℚ → Nat → ℚ) (perm : List Nat) (d : PickDraw) : Nat :=
  match dist with
  | none => d.intDraw % values.length
  | some dc =>
      if dc.type = "zipf" then zipfPick values.length dc.s powf perm d.floatDraw
      else if dc.type = "normal" then normalPick values.length dc.mean dc.stdDev d.normDraw
      else if dc.type = "weighted" then weightedPick values dc.weights d.floatDraw
      else d.intDraw % values.length

/-- `generator.NewValuePicker`'s precondition check: the Go code panics on an
empty value list. -/
def NewValuePicker (values : List Val) (_dist : Option DistributionConfig) :
    Except String Unit :=
  if values.length = 0 then .error "NewValuePicker: empty values slice" else .ok ()

/-- `ValuePicker.Pick`: the value at the sampled index. -/
def valuePickerPick (values : List Val) (dist : Option DistributionConfig)
    (powf : ℚ → Nat → ℚ) (perm : List Nat) (d : PickDraw) : Val :=
  values.getD (pickIndex values dist powf perm d) (.intV 0)

theorem searchLowerBound_le (cdf : List ℚ) (r : ℚ) :
    searchLowerBound cdf r ≤ cdf.length := by
  induction cdf with
  | nil => simp [searchLowerBound]
  | cons c rest ih =>
    rw [searchLowerBound]
    split
    · simp
    · simpa [Nat.add_comm] using Nat.add_le_add_right ih 1

theorem cumsumFrom_length (acc : ℚ) (l : List ℚ) :
    (cumsumFrom acc l).length = l.length := by
  induction l generalizing acc with
  | nil => rfl
  | cons w rest ih => simp [cumsumFrom, ih]

theorem weightedCdf_length (values : List Val) (weights : List (String × ℚ)) :
    (weightedCdf values weights).length = values.length := by
  unfold weightedCdf cumsum
  simp [cumsumFrom_length]

/-- C10: `NewValuePicker` rejects an empty value list, and for every
non-empty list, every distribution configuration and every random draw, the
sampled index is in bounds and `Pick` returns an element of the list.
(`perm` is the permutation `rand.Perm` returned for the zipf case.) -/
theorem valuePicker_spec (values : List Val) (dist : Option DistributionConfig)
    (powf : ℚ → Nat → ℚ) (perm : List Nat) (d : PickDraw)
    (hne : values ≠ [])
    (hplen : perm.length = values.length)
    (hpelem : ∀ x ∈ perm, x < values.length) :
    NewValuePicker [] dist = .error "NewValuePicker: empty values slice" ∧
    NewValuePicker values dist = .ok () ∧
    pickIndex values dist powf perm d < values.length ∧
    valuePickerPick values dist powf perm d ∈ values := by
  have hn : 0 < values.length := List.length_pos.mpr hne
  have hidx : pickIndex values dist powf perm d < values.length := by
    unfold pickIndex
    match dist with
    | none => exact Nat.mod_lt _ hn
    | some dc =>
      simp only
      split
      · -- zipf
        unfold zipfPick
        simp only
        set rank := searchLowerBound (zipfCdf values.length dc.s powf) d.floatDraw
        set rank' := if rank ≥ values.length then values.length - 1 else rank
        have hrank' : rank' < values.length := by
          by_cases hge : rank ≥ values.length
          · simp only [rank', if_pos hge]; omega
          · simp only [rank', if_neg hge]; omega
        have : rank' < perm.length := by rw [hplen]; exact hrank'
        rw [List.getD_eq_getElem _ _ this]
        exact hpelem _ (List.getElem_mem this)
      · split
        · -- normal
          unfold normalPick
          simp only
          split <;> rename_i h1 <;> [skip; skip] <;> split <;> rename_i h2 <;> omega
        · split
          · -- weighted
            unfold weightedPick
            simp only
            split <;> rename_i h <;> omega
          · exact Nat.mod_lt _ hn
  refine ⟨rfl, ?_, hidx, ?_⟩
  · unfold NewValuePicker
    rw [if_neg (by omega)]
  · unfold valuePickerPick
    rw [List.getD_eq_getElem _ _ hidx]
    exact List.getElem_mem hidx

/-- C10 witness: the picker safety theorem at a concrete zipf
configuration. -/
theorem valuePicker_spec_witness :
    NewValuePicker [] (some { type := "zipf", s := 1 }) =
      .error "NewValuePicker: empty values slice" ∧
    NewValuePicker [.intV 1, .intV 2] (some { type := "zipf", s := 1 }) = .ok () ∧
    pickIndex [.intV 1, .intV 2] (some { type := "zipf", s := 1 })
      (fun _ b => (b : ℚ)) [1, 0] {} < 2 ∧
    valuePickerPick [.intV 1, .intV 2] (some { type := "zipf", s := 1 })
      (fun _ b => (b : ℚ)) [1, 0] {} ∈ [Val.intV 1, Val.intV 2] :=
  valuePicker_spec [.intV 1, .intV 2] (some { type := "zipf", s := 1 })
    (fun _ b => (b : ℚ)) [1, 0] {} (by decide) (by decide) (by decide)

/-! ## Single-column uniqueness enforcement (generator/unique.go:
`initUniqueTracking`, `wrapSingleUnique`; seeder.go: `seedTable`'s
`pkStartValues`)

A base generator is embedded as the stream of values it would produce
(`orig : Nat → Option Val`, call index ↦ value). -/

/-- `maxUniqueRetries` (generator/unique.go). -/
def maxUniqueRetries : Nat := 100

/-- `uniqueTracker.tryAdd`: `nil` always passes and is not recorded; other
values are keyed by `fmt.Sprint` and recorded on first sight. -/
def tryAdd (seen : List String) (v : Option Val) : Bool × List String :=
  match v with
  | none => (true, seen)
  | some w =>
      if seen.contains w.sprint then (false, seen)
      else (true, seen ++ [w.sprint])

/-- The retry loop of `wrapSingleUnique`'s tracker branch: pull up to `fuel`
values from the base generator, returning the first unseen one, or the
exhaustion panic.  State: seen keys and the base generator's call count. -/
def retryGen (msg : String) (orig : Nat → Option Val) :
    Nat → List String × Nat → Except String (Option Val × (List String × Nat))
  | 0, _ => .error msg
  | fuel + 1, (seen, k) =>
      let v := orig k
      let r := tryAdd seen v
      if r.1 then .ok (v, (r.2, k + 1))
      else retryGen msg orig fuel (r.2, k + 1)

/-- `seedTable` (seeder.go): the `pkStartValues` map handed to
`NewRowGenerator` — one entry per non-auto-increment integer *primary key*
column.  `startOf` stands for `fetchMaxPK(...) + 1`. -/
def pkStartValues (t : Table) (startOf : String → Int) : List (String × Int) :=
  t.columns.filterMap (fun c =>
    if c.isPrimaryKey && !c.isAutoInc && c.isIntegerType then
      some (c.name, startOf c.name)
    else none)

/-- The generator shape a column ends up with after `initUniqueTracking`. -/
inductive UniqueGenKind where
  | seqGen (start : Int)
  | retry
  | plain
deriving DecidableEq, Repr

/-- `initUniqueTracking` + `wrapSingleUnique`: which generator a column gets.
Columns failing the `IsUnique && !IsPrimaryKey && !IsAutoInc` filter keep
their base generator; eligible integer non-FK columns get the sequential
counter only when `rg.sequences` (built from `pkStartValues`) has an entry
for them, and the retry wrapper otherwise. -/
def singleUniqueKind (t : Table) (startOf : String → Int) (c : Column) :
    UniqueGenKind :=
  if !c.isUnique || c.isPrimaryKey || c.isAutoInc then .plain
  else if c.isIntegerType && c.fk == none then
    match mapGet (pkStartValues t startOf) c.name with
    | some start => .seqGen start
    | none => .retry
  else .retry

/-- The unique, non-PK, non-FK integer column of the C4 failing input. -/
def codeColumn : Column := { name := "code", dataType := "int", isUnique := true }

/-- The C4 failing input: a table whose only column is a single-column
unique, non-primary-key, non-foreign-key integer column. -/
def codeTable : Table := { name := "t", columns := [codeColumn] }

/-- C4 (code bug): for a single-column unique, non-PK, non-FK integer
column, `pkStartValues` contains no entry (it only covers integer primary
keys), so `wrapSingleUnique`'s sequential-counter special case never fires
and the column gets the 100-attempt retry wrapper — contradicting the
function's own doc comment and the spec.  Concretely: with a base generator
that repeats the value `7`, the wrapped generator returns `7` once and then
fails with the retry-exhaustion error, which a sequential counter never
does. -/
theorem c4_sequential_counter_bypassed :
    pkStartValues codeTable (fun _ => 1) = [] ∧
    singleUniqueKind codeTable (fun _ => 1) codeColumn = .retry ∧
    retryGen "unique constraint: exhausted 100 retries for column t.code"
        (fun _ => some (.intV 7)) maxUniqueRetries ([], 0) =
      .ok (some (.intV 7), (["7"], 1)) ∧
    retryGen "unique constraint: exhausted 100 retries for column t.code"
        (fun _ => some (.intV 7)) maxUniqueRetries (["7"], 1) =
      .error "unique constraint: exhausted 100 retries for column t.code" := by
  refine ⟨by decide, by decide, rfl, rfl⟩

/-! ## Per-column generator construction (generator/fkcorrelation.go:
`buildGenerator`, `wrapNullable`, `nameBasedGenerator`)

A column generator is embedded as a function over a draw source
(`Nat → GenDraw`, call position ↦ draw) threading the position; each
`math/rand`/faker call consumes one position.  Faker and template outputs
are external and enter as the `fake` oracle field of a draw. -/

/-- One position's worth of external randomness for a column generator. -/
structure GenDraw where
  floatDraw : ℚ := 0
  pickDraw : PickDraw := {}
  fake : Val := .strV ""

/-- A column value generator: draw source and position in, value and new
position out. -/
def ColGen : Type := (Nat → GenDraw) → Nat → Option Val × Nat

/-- `generator.isStringType`. -/
def isStringType (dt : String) : Bool :=
  lowerStr dt == "varchar" || lowerStr dt == "char" || lowerStr dt == "text" ||
  lowerStr dt == "tinytext" || lowerStr dt == "mediumtext" || lowerStr dt == "longtext"

/-- `generator.isNumericType`. -/
def isNumericType (dt : String) : Bool :=
  lowerStr dt == "tinyint" || lowerStr dt == "smallint" || lowerStr dt == "mediumint" ||
  lowerStr dt == "int" || lowerStr dt == "integer" || lowerStr dt == "bigint" ||
  lowerStr dt == "float" || lowerStr dt == "double" || lowerStr dt == "decimal" ||
  lowerStr dt == "numeric"

/-- `generator.isDateType`. -/
def isDateType (dt : String) : Bool :=
  lowerStr dt == "date" || lowerStr dt == "datetime" || lowerStr dt == "timestamp"

/-- Substring scan: does `sub` occur as a contiguous run of `l`? -/
def isInfixB : List Char → List Char → Bool
  | sub, [] => sub.isEmpty
  | sub, c :: rest => sub.isPrefixOf (c :: rest) || isInfixB sub rest

/-- `strings.Contains`. -/
def strContains (s sub : String) : Bool := isInfixB sub.data s.data

/-- `strings.HasSuffix`. -/
def strHasSuffix (s suf : String) : Bool := List.isSuffixOf suf.data s.data

/-- `strings.HasPrefix`. -/
def strHasPrefix (s pre : String) : Bool := List.isPrefixOf pre.data s.data

/-- Whether `generator.nameBasedGenerator` returns a generator for this
column (the full pattern table of the source; the value bodies are faker
calls and are embedded as `fake` oracle draws). -/
def nameBasedMatches (c : Column) : Bool :=
  let name := lowerStr c.name
  let str := isStringType c.dataType
  let num := isNumericType c.dataType
  let date := isDateType c.dataType
  (str && name == "uuid") ||
  (str && (name == "email" || strHasSuffix name "_email")) ||
  (str && (strContains name "first_name" || strContains name "firstname")) ||
  (str && (strContains name "last_name" || strContains name "lastname")) ||
  (str && (name == "name" || strHasSuffix name "_name" || strHasPrefix name "name_")) ||
  (str && strContains name "phone") ||
  (str && (strContains name "username" || name == "login")) ||
  (str && strContains name "password") ||
  (str && (name == "address" || name == "street" || strContains name "address_line" ||
           strContains name "street_address")) ||
  (str && name == "city") ||
  (str && (name == "state" || name == "province")) ||
  (str && (strContains name "zip" || strContains name "postal")) ||
  (str && (name == "country" || name == "country_code")) ||
  (str && (strContains name "url" || strContains name "website" ||
           strContains name "homepage")) ||
  (str && (name == "ip" || strContains name "ip_address" || name == "ip_addr")) ||
  (str && (strContains name "company" || name == "organization" || name == "org")) ||
  (str && (name == "title" || name == "job_title")) ||
  (str && (name == "description" || name == "bio" || name == "summary" ||
           name == "about")) ||
  (date && (strContains name "created_at" || strContains name "updated_at" ||
            strContains name "deleted_at")) ||
  (date && (name == "date_of_birth" || name == "dob" || name == "birthday" ||
            name == "birthdate")) ||
  (num && (strContains name "price" || strContains name "amount" ||
           strContains name "cost" || name == "total" || name == "subtotal")) ||
  (num && (name == "latitude" || name == "lat")) ||
  (num && (name == "longitude" || name == "lng" || name == "lon")) ||
  (str && (name == "currency" || name == "currency_code")) ||
  (str && (name == "color" || name == "colour")) ||
  (str && (name == "avatar" || name == "image_url" || name == "photo_url"))

/-- `generator.wrapNullable`: nullable non-PK columns additionally return
NULL when the `rand.Float64` draw is below `0.1`. -/
def wrapNullable (c : Column) (g : ColGen) : ColGen :=
  if c.isNullable && !c.isPrimaryKey then
    fun src pos =>
      if (src pos).floatDraw < 1/10 then (none, pos + 1)
      else g src (pos + 1)
  else g

/-- `generator.buildGenerator`: the first-match priority chain.  The FK
branch (available parent values) and the sequential-PK branch return their
generator *unwrapped*; the enum, template, name-heuristic and type-fallback
branches are wrapped in `wrapNullable`.  Faker/template/type-fallback value
bodies are external calls embedded as `fake` oracle draws; the sequential
counter's value is covered by the unique.go embedding and appears here only
as its non-NULL result. -/
def buildGenerator (c : Column) (fkVals : List Val) (dist : Option DistributionConfig)
    (tmpl : Option String) (seqs : List (String × Int))
    (powf : ℚ → Nat → ℚ) (perm : List Nat) : ColGen :=
  if c.fk.isSome && fkVals.length > 0 then
    fun src pos => (some (valuePickerPick fkVals dist powf perm (src pos).pickDraw), pos + 1)
  else if c.isPrimaryKey && !c.isAutoInc && c.isIntegerType &&
      (mapGet seqs c.name).isSome then
    fun _ pos => (some (.intV ((mapGet seqs c.name).getD 0)), pos)
  else if c.enumValues.length > 0 then
    wrapNullable c (fun src pos =>
      (some (valuePickerPick (c.enumValues.map .strV) dist powf perm (src pos).pickDraw),
       pos + 1))
  else if tmpl.isSome then
    wrapNullable c (fun src pos => (some (src pos).fake, pos + 1))
  else if nameBasedMatches c then
    wrapNullable c (fun src pos => (some (src pos).fake, pos + 1))
  else
    wrapNullable c (fun src pos => (some (src pos).fake, pos + 1))

/-- The concrete nullable FK column of the C5 counterexample, with two
parent values available. -/
def nullableFKColumn : Column :=
  { name := "companyId", dataType := "int", isNullable := true,
    fk := some ⟨"company", "id"⟩ }

/-- C5 counterexample: a nullable, non-primary-key *foreign-key* column with
available parent values is not NULL-wrapped — no outcome of the random
source makes its generated value NULL, contradicting the claim that every
nullable non-PK column (including FK columns) returns NULL with
probability 0.1. -/
theorem c5_nullable_fk_counterexample :
    ¬ ∃ (src : Nat → GenDraw) (pos : Nat),
      (buildGenerator nullableFKColumn [.intV 1, .intV 2] none none []
        (fun _ b => (b : ℚ)) [] src pos).1 = none := by
  rintro ⟨src, pos, h⟩
  unfold buildGenerator at h
  simp only [nullableFKColumn] at h
  cases h

/-- C5 (amended): every nullable, non-primary-key column that does not hit
the FK-with-available-parent-values branch is NULL-wrapped: its generator
returns NULL exactly when the `rand.Float64` draw at the call position is
below 0.1, and in particular some outcome of the random source produces
NULL.  (A nullable FK column with available parent values is returned
unwrapped and never generates NULL, per the counterexample.) -/
theorem buildGenerator_nullable_wrapped (c : Column) (fkVals : List Val)
    (dist : Option DistributionConfig) (tmpl : Option String)
    (seqs : List (String × Int)) (powf : ℚ → Nat → ℚ) (perm : List Nat)
    (hnul : c.isNullable = true) (hpk : c.isPrimaryKey = false)
    (hnofk : ¬ (c.fk.isSome ∧ fkVals.length > 0)) :
    (∀ (src : Nat → GenDraw) (pos : Nat),
      (src pos).floatDraw < 1/10 →
        buildGenerator c fkVals dist tmpl seqs powf perm src pos = (none, pos + 1)) ∧
    (∃ (src : Nat → GenDraw) (pos : Nat),
      (buildGenerator c fkVals dist tmpl seqs powf perm src pos).1 = none) := by
  have hfkb : (c.fk.isSome && decide (fkVals.length > 0)) = false := by
    rcases h : c.fk.isSome <;> rcases h2 : decide (fkVals.length > 0) <;> simp_all
  have hwrap : ∀ g src pos, (src pos).floatDraw < 1/10 →
      wrapNullable c g src pos = (none, pos + 1) := by
    intro g src pos hlt
    unfold wrapNullable
    rw [if_pos (by rw [hnul, hpk]; rfl)]
    rw [if_pos hlt]
  have hpkb : (c.isPrimaryKey && !c.isAutoInc && c.isIntegerType &&
      (mapGet seqs c.name).isSome) = false := by
    rw [hpk]
    simp
  constructor
  · intro src pos hlt
    unfold buildGenerator
    rw [if_neg (by rw [hfkb]; exact Bool.false_ne_true), if_neg (by rw [hpkb]; exact Bool.false_ne_true)]
    split
    · exact hwrap _ src pos hlt
    · split
      · exact hwrap _ src pos hlt
      · split
        · exact hwrap _ src pos hlt
        · exact hwrap _ src pos hlt
  · refine ⟨fun _ => { floatDraw := 0 }, 0, ?_⟩
    have h0 : ((fun _ => ({ floatDraw := 0 } : GenDraw)) 0).floatDraw < 1/10 := by
      norm_num
    unfold buildGenerator
    rw [if_neg (by rw [hfkb]; exact Bool.false_ne_true), if_neg (by rw [hpkb]; exact Bool.false_ne_true)]
    split
    · rw [hwrap _ _ 0 h0]
    · split
      · rw [hwrap _ _ 0 h0]
      · split
        · rw [hwrap _ _ 0 h0]
        · rw [hwrap _ _ 0 h0]

/-- C5 witness: a nullable, non-PK `status` column without FK is
NULL-wrapped; the all-zero draw source produces NULL. -/
theorem buildGenerator_nullable_wrapped_witness :
    (∀ (src : Nat → GenDraw) (pos : Nat),
      (src pos).floatDraw < 1/10 →
        buildGenerator { name := "status", dataType := "varchar", isNullable := true }
          [] none none [] (fun _ b => (b : ℚ)) [] src pos = (none, pos + 1)) ∧
    (∃ (src : Nat → GenDraw) (pos : Nat),
      (buildGenerator { name := "status", dataType := "varchar", isNullable := true }
        [] none none [] (fun _ b => (b : ℚ)) [] src pos).1 = none) :=
  buildGenerator_nullable_wrapped
    { name := "status", dataType := "varchar", isNullable := true }
    [] none none [] (fun _ b => (b : ℚ)) [] rfl rfl (by simp)

/-! ## Composite uniqueness (generator/unique.go: `compositeUniqueTracker`;
generator/fkcorrelation.go: `GenerateRow`)

The per-row generator vector is abstracted into a row producer
`rowGen : ρ → List (Option Val) × ρ` over generator state `ρ`; the tracker
logic is embedded verbatim. -/

/-- `generator.compositeUniqueTracker`. -/
structure CompositeUniqueTracker where
  colIndices : List Nat
  seen : List String
deriving Repr

/-- The tracked column values of a row (entry `none` = SQL NULL; Go indexes
`row[idx]`, out-of-range embedded as NULL). -/
def trackedVals (cols : List Nat) (row : List (Option Val)) : List (Option Val) :=
  cols.map (fun idx => row.getD idx none)

/-- The `parts` accumulation of `check`/`record`: `none` as soon as a
tracked column is NULL, else the `fmt.Sprint` parts. -/
def partsOf : List (Option Val) → Option (List String)
  | [] => some []
  | none :: _ => none
  | some v :: rest => (partsOf rest).map (v.sprint :: ·)

/-- The composite key of a row: NULL-containing tuples have no key; others
are joined with the `\x00` separator. -/
def tupleKey (cols : List Nat) (row : List (Option Val)) : Option String :=
  (partsOf (trackedVals cols row)).map (fun parts => String.intercalate "\x00" parts)

/-- `compositeUniqueTracker.check`: NULL in any tracked column passes;
otherwise the key must be unseen. -/
def ctCheck (ct : CompositeUniqueTracker) (row : List (Option Val)) : Bool :=
  match tupleKey ct.colIndices row with
  | none => true
  | some key => !ct.seen.contains key

/-- `compositeUniqueTracker.record`: rows with NULLs are not tracked. -/
def ctRecord (ct : CompositeUniqueTracker) (row : List (Option Val)) :
    CompositeUniqueTracker :=
  match tupleKey ct.colIndices row with
  | none => ct
  | some key => { ct with seen := ct.seen ++ [key] }

/-- `RowGenerator.checkCompositeUniques`. -/
def checkAll (trs : List CompositeUniqueTracker) (row : List (Option Val)) : Bool :=
  trs.all (fun ct => ctCheck ct row)

/-- `RowGenerator.recordCompositeUniques`. -/
def recordAll (trs : List CompositeUniqueTracker) (row : List (Option Val)) :
    List CompositeUniqueTracker :=
  trs.map (fun ct => ctRecord ct row)

/-- `RowGenerator.GenerateRow`: build a candidate row, accept it unchecked
when there are no composite trackers, otherwise accept-and-record it when
all trackers pass, retrying up to the fuel (`maxUniqueRetries`) and
panicking on exhaustion. -/
def generateRow {ρ : Type} (msg : String) (rowGen : ρ → List (Option Val) × ρ) :
    Nat → List CompositeUniqueTracker → ρ →
      Except String (List (Option Val) × List CompositeUniqueTracker × ρ)
  | 0, _, _ => .error msg
  | fuel + 1, trs, st =>
      let rs := rowGen st
      if trs.isEmpty then .ok (rs.1, trs, rs.2)
      else if checkAll trs rs.1 then .ok (rs.1, recordAll trs rs.1, rs.2)
      else generateRow msg rowGen fuel trs rs.2

/-- One seeding run: `n` consecutive `GenerateRow` calls. -/
def generateRows {ρ : Type} (msg : String) (rowGen : ρ → List (Option Val) × ρ) :
    Nat → List CompositeUniqueTracker → ρ →
      Except String (List (List (Option Val)) × List CompositeUniqueTracker × ρ)
  | 0, trs, st => .ok ([], trs, st)
  | n + 1, trs, st =>
      match generateRow msg rowGen maxUniqueRetries trs st with
      | .error e => .error e
      | .ok (row, trs', st') =>
          match generateRows msg rowGen n trs' st' with
          | .error e => .error e
          | .ok (rows, trs'', st'') => .ok (row :: rows, trs'', st'')

/-- The candidate row the generators would produce at retry offset `m` from
state `st`. -/
def candidateRow {ρ : Type} (rowGen : ρ → List (Option Val) × ρ) (st : ρ) : Nat →
    List (Option Val)
  | 0 => (rowGen st).1
  | m + 1 => candidateRow rowGen (rowGen st).2 m

theorem ctRecord_colIndices (ct : CompositeUniqueTracker) (row : List (Option Val)) :
    (ctRecord ct row).colIndices = ct.colIndices := by
  unfold ctRecord
  split <;> rfl

theorem ctRecord_seen_mono (ct : CompositeUniqueTracker) (row : List (Option Val))
    (k : String) (hk : k ∈ ct.seen) : k ∈ (ctRecord ct row).seen := by
  unfold ctRecord
  split
  · exact hk
  · exact List.mem_append_left _ hk

theorem ctRecord_seen_of_key (ct : CompositeUniqueTracker) (row : List (Option Val))
    (k : String) (hk : tupleKey ct.colIndices row = some k) :
    (ctRecord ct row).seen = ct.seen ++ [k] := by
  unfold ctRecord
  split
  · rename_i h; rw [h] at hk; cases hk
  · rename_i k' h; rw [h] at hk; cases hk; rfl

theorem ctCheck_fresh (ct : CompositeUniqueTracker) (row : List (Option Val))
    (hchk : ctCheck ct row = true) (k : String)
    (hk : tupleKey ct.colIndices row = some k) : ¬ k ∈ ct.seen := by
  unfold ctCheck at hchk
  rw [hk] at hchk
  simp only [Bool.not_eq_true'] at hchk
  intro hmem
  simp [hmem] at hchk

theorem partsOf_tracked_none (cols : List Nat) (row : List (Option Val))
    (idx : Nat) (hidx : idx ∈ cols) (hval : row.getD idx none = none) :
    partsOf (trackedVals cols row) = none := by
  induction cols with
  | nil => cases hidx
  | cons c cs ih =>
    unfold trackedVals at *
    rw [List.map_cons]
    rcases List.mem_cons.mp hidx with h | h
    · subst h
      rw [hval, partsOf]
    · cases hcv : row.getD c none with
      | none => rw [partsOf]
      | some v =>
        rw [partsOf, ih h]
        rfl

/-- NULL semantics of the tracker: a NULL among the tracked columns always
passes the check and is never recorded. -/
theorem ct_null_passes (ct : CompositeUniqueTracker) (row : List (Option Val))
    (hnull : ∃ idx ∈ ct.colIndices, row.getD idx none = none) :
    ctCheck ct row = true ∧ ctRecord ct row = ct := by
  have hkey : tupleKey ct.colIndices row = none := by
    rcases hnull with ⟨idx, hidx, hval⟩
    unfold tupleKey
    rw [partsOf_tracked_none ct.colIndices row idx hidx hval]
    rfl
  constructor
  · unfold ctCheck
    rw [hkey]
  · unfold ctRecord
    rw [hkey]

theorem partsOf_all_some (vals : List (Option Val))
    (h : ∀ v ∈ vals, v.isSome) : ∃ parts, partsOf vals = some parts := by
  induction vals with
  | nil => exact ⟨[], rfl⟩
  | cons v rest ih =>
    cases v with
    | none => simpa using h none (List.mem_cons_self _ _)
    | some w =>
      rcases ih (fun v hv => h v (List.mem_cons_of_mem _ hv)) with ⟨parts, hp⟩
      exact ⟨w.sprint :: parts, by rw [partsOf, hp]; rfl⟩

/-- A fully-non-NULL tuple has a key, and the key is a function of the
tuple. -/
theorem tupleKey_of_all_some (cols : List Nat) (row : List (Option Val))
    (h : ∀ v ∈ trackedVals cols row, v.isSome) :
    ∃ k, tupleKey cols row = some k := by
  rcases partsOf_all_some _ h with ⟨parts, hp⟩
  exact ⟨String.intercalate "\x00" parts, by unfold tupleKey; rw [hp]; rfl⟩

theorem tupleKey_congr (cols : List Nat) (r1 r2 : List (Option Val))
    (h : trackedVals cols r1 = trackedVals cols r2) :
    tupleKey cols r1 = tupleKey cols r2 := by
  unfold tupleKey
  rw [h]

theorem checkAll_mem (trs : List CompositeUniqueTracker) (row : List (Option Val))
    (h : checkAll trs row = true) (ct : CompositeUniqueTracker) (hct : ct ∈ trs) :
    ctCheck ct row = true := by
  unfold checkAll at h
  exact List.all_eq_true.mp h ct hct

/-- `GenerateRow` acceptance: an accepted row was either unchecked (no
trackers) or passed all trackers and was recorded. -/
theorem generateRow_ok {ρ : Type} (msg : String)
    (rowGen : ρ → List (Option Val) × ρ) (fuel : Nat)
    (trs : List CompositeUniqueTracker) (st : ρ)
    (row : List (Option Val)) (trs₂ : List CompositeUniqueTracker) (st₂ : ρ)
    (h : generateRow msg rowGen fuel trs st = .ok (row, trs₂, st₂)) :
    (trs = [] ∧ trs₂ = []) ∨
    (checkAll trs row = true ∧ trs₂ = recordAll trs row) := by
  induction fuel generalizing st with
  | zero => cases h
  | succ fuel ih =>
    rw [generateRow] at h
    by_cases he : trs.isEmpty
    · rw [if_pos he] at h
      injection h with h1
      injection h1 with hrow h2
      injection h2 with htrs hst
      left
      exact ⟨List.isEmpty_iff.mp he, htrs ▸ List.isEmpty_iff.mp he⟩
    · rw [if_neg he] at h
      by_cases hc : checkAll trs (rowGen st).1
      · rw [if_pos hc] at h
        injection h with h1
        injection h1 with hrow h2
        injection h2 with htrs hst
        right
        subst hrow
        exact ⟨hc, htrs.symm⟩
      · rw [if_neg hc] at h
        exact ih _ h

/-- C3 exhaustion: when every one of the `fuel` consecutive candidate rows
collides, `GenerateRow` fails with the retry-exhaustion error. -/
theorem generateRow_exhaustion {ρ : Type} (msg : String)
    (rowGen : ρ → List (Option Val) × ρ) (fuel : Nat)
    (trs : List CompositeUniqueTracker) (st : ρ)
    (hne : trs ≠ [])
    (hall : ∀ m, m < fuel → checkAll trs (candidateRow rowGen st m) = false) :
    generateRow msg rowGen fuel trs st = .error msg := by
  induction fuel generalizing st with
  | zero => rfl
  | succ fuel ih =>
    rw [generateRow]
    rw [if_neg (by simpa [List.isEmpty_iff] using hne)]
    have h0 : checkAll trs (rowGen st).1 = false := hall 0 (Nat.succ_pos _)
    rw [if_neg (by simp [h0])]
    exact ih (rowGen st).2 (fun m hm => hall (m + 1) (Nat.succ_lt_succ hm))

theorem forall2_trans {α β γ : Type} {R : α → β → Prop} {S : β → γ → Prop}
    {T : α → γ → Prop} (hcomp : ∀ a b c, R a b → S b c → T a c) :
    ∀ {l1 : List α} {l2 : List β} {l3 : List γ},
      List.Forall₂ R l1 l2 → List.Forall₂ S l2 l3 → List.Forall₂ T l1 l3 := by
  intro l1 l2 l3 h12 h23
  induction h12 generalizing l3 with
  | nil =>
    cases h23
    exact List.Forall₂.nil
  | cons hab hrest ih =>
    cases h23 with
    | cons hbc hrest2 =>
      exact List.Forall₂.cons (hcomp _ _ _ hab hbc) (ih hrest2)

theorem forall2_mem_left {α β : Type} {R : α → β → Prop} {l1 : List α}
    {l2 : List β} (h : List.Forall₂ R l1 l2) {a : α} (ha : a ∈ l1) :
    ∃ b ∈ l2, R a b := by
  induction h with
  | nil => cases ha
  | cons hab hrest ih =>
    rcases List.mem_cons.mp ha with h | h
    · subst h
      exact ⟨_, List.mem_cons_self _ _, hab⟩
    · rcases ih h with ⟨b, hb, hr⟩
      exact ⟨b, List.mem_cons_of_mem _ hb, hr⟩

theorem recordAll_forall2 (trs : List CompositeUniqueTracker)
    (row : List (Option Val)) (hc : checkAll trs row = true) :
    List.Forall₂ (fun ct ct₁ => ctCheck ct row = true ∧ ct₁ = ctRecord ct row)
      trs (recordAll trs row) := by
  unfold recordAll
  induction trs with
  | nil => exact List.Forall₂.nil
  | cons ct rest ih =>
    unfold checkAll at hc
    rw [List.all_cons] at hc
    rcases Bool.and_eq_true_iff.mp hc with ⟨h1, h2⟩
    exact List.Forall₂.cons ⟨h1, rfl⟩ (ih h2)

/-- The run invariant: each tracker's column set is preserved, its seen set
only grows, and every returned row whose tuple on that tracker is fully
non-NULL has a key that was fresh at the start of the run and recorded by
its end. -/
theorem generateRows_inv {ρ : Type} (msg : String)
    (rowGen : ρ → List (Option Val) × ρ) (n : Nat)
    (trs : List CompositeUniqueTracker) (st : ρ)
    (rows : List (List (Option Val))) (trs' : List CompositeUniqueTracker) (st' : ρ)
    (h : generateRows msg rowGen n trs st = .ok (rows, trs', st')) :
    List.Forall₂ (fun ct ct' =>
      ct'.colIndices = ct.colIndices ∧
      (∀ k ∈ ct.seen, k ∈ ct'.seen) ∧
      (∀ r ∈ rows, ∀ k, tupleKey ct.colIndices r = some k →
        ¬ k ∈ ct.seen ∧ k ∈ ct'.seen)) trs trs' := by
  induction n generalizing trs st rows with
  | zero =>
    rw [generateRows] at h
    injection h with h1
    injection h1 with hrows h2
    injection h2 with htrs hst
    subst hrows
    subst htrs
    exact List.forall₂_same.mpr (fun ct _ => ⟨rfl, fun k hk => hk, fun r hr => by cases hr⟩)
  | succ n ih =>
    rw [generateRows] at h
    cases hgr : generateRow msg rowGen maxUniqueRetries trs st with
    | error e => rw [hgr] at h; cases h
    | ok v =>
      obtain ⟨row, trs₁, st₁⟩ := v
      rw [hgr] at h
      dsimp only at h
      cases hrest : generateRows msg rowGen n trs₁ st₁ with
      | error e => rw [hrest] at h; cases h
      | ok w =>
        obtain ⟨rows₂, trs₂, st₂⟩ := w
        rw [hrest] at h
        dsimp only at h
        injection h with h1
        injection h1 with hrows h2
        injection h2 with htrs hst
        subst hrows
        subst htrs
        subst hst
        have hihf := ih trs₁ st₁ rows₂ hrest
        rcases generateRow_ok msg rowGen maxUniqueRetries trs st row trs₁ st₁ hgr with
          ⟨he, he₁⟩ | ⟨hchk, hrec⟩
        · subst he
          subst he₁
          cases hihf
          exact List.Forall₂.nil
        · subst hrec
          have hmap := recordAll_forall2 trs row hchk
          refine forall2_trans ?_ hmap hihf
          rintro ct ct₁ ct' ⟨hcchk, rfl⟩ ⟨hci, hmono, hkeys⟩
          have hci' : ct'.colIndices = ct.colIndices := by
            rw [hci, ctRecord_colIndices]
          refine ⟨hci', ?_, ?_⟩
          · intro k hk
            exact hmono k (ctRecord_seen_mono ct row k hk)
          · intro r hr k hk
            rcases List.mem_cons.mp hr with hr0 | hrrest
            · subst hr0
              constructor
              · exact ctCheck_fresh ct r hcchk k hk
              · apply hmono
                rw [ctRecord_seen_of_key ct r k hk]
                simp
            · have hk₁ : tupleKey (ctRecord ct row).colIndices r = some k := by
                rw [ctRecord_colIndices]
                exact hk
              rcases hkeys r hrrest k hk₁ with ⟨hfresh, hrec'⟩
              refine ⟨?_, hrec'⟩
              intro hmem
              exact hfresh (ctRecord_seen_mono ct row k hmem)

/-- No two rows accepted in one run share a key on any tracker of the run. -/
theorem generateRows_pairwise {ρ : Type} (msg : String)
    (rowGen : ρ → List (Option Val) × ρ) (n : Nat)
    (trs : List CompositeUniqueTracker) (st : ρ)
    (rows : List (List (Option Val))) (trs' : List CompositeUniqueTracker) (st' : ρ)
    (h : generateRows msg rowGen n trs st = .ok (rows, trs', st'))
    (ct : CompositeUniqueTracker) (hct : ct ∈ trs) :
    ∀ i j, (hi : i < rows.length) → (hj : j < rows.length) → i < j →
      ∀ k, tupleKey ct.colIndices (rows.get ⟨i, hi⟩) = some k →
        tupleKey ct.colIndices (rows.get ⟨j, hj⟩) ≠ some k := by
  induction n generalizing trs st rows ct with
  | zero =>
    rw [generateRows] at h
    injection h with h1
    injection h1 with hrows h2
    subst hrows
    intro i j hi
    cases hi
  | succ n ih =>
    rw [generateRows] at h
    cases hgr : generateRow msg rowGen maxUniqueRetries trs st with
    | error e => rw [hgr] at h; cases h
    | ok v =>
      obtain ⟨row, trs₁, st₁⟩ := v
      rw [hgr] at h
      dsimp only at h
      cases hrest : generateRows msg rowGen n trs₁ st₁ with
      | error e => rw [hrest] at h; cases h
      | ok w =>
        obtain ⟨rows₂, trs₂, st₂⟩ := w
        rw [hrest] at h
        dsimp only at h
        injection h with h1
        injection h1 with hrows h2
        injection h2 with htrs hst
        subst hrows
        subst htrs
        subst hst
        rcases generateRow_ok msg rowGen maxUniqueRetries trs st row trs₁ st₁ hgr with
          ⟨he, he₁⟩ | ⟨hchk, hrec⟩
        · subst he
          cases hct
        · subst hrec
          have hct₁ : ctRecord ct row ∈ recordAll trs row := by
            unfold recordAll
            exact List.mem_map_of_mem _ hct
          intro i j hi hj hij k hki hkj
          match i, j with
          | 0, j' + 1 =>
            have hkrow : tupleKey ct.colIndices row = some k := hki
            have hj2 : j' < rows₂.length := by simpa using hj
            have hkj' : tupleKey (ctRecord ct row).colIndices (rows₂.get ⟨j', hj2⟩) =
                some k := by
              rw [ctRecord_colIndices]
              simpa using hkj
            have hInv := generateRows_inv msg rowGen n (recordAll trs row) st₁
              rows₂ trs₂ st₂ hrest
            rcases forall2_mem_left hInv hct₁ with ⟨ct', _, _, _, hkeys⟩
            rcases hkeys (rows₂.get ⟨j', hj2⟩) (List.get_mem rows₂ j' hj2) k hkj' with ⟨hfresh, _⟩
            apply hfresh
            rw [ctRecord_seen_of_key ct row k hkrow]
            simp
          | i' + 1, j' + 1 =>
            have hi2 : i' < rows₂.length := by simpa using hi
            have hj2 : j' < rows₂.length := by simpa using hj
            have hki' : tupleKey (ctRecord ct row).colIndices (rows₂.get ⟨i', hi2⟩) =
                some k := by
              rw [ctRecord_colIndices]
              simpa using hki
            have hkj' : tupleKey (ctRecord ct row).colIndices (rows₂.get ⟨j', hj2⟩) =
                some k := by
              rw [ctRecord_colIndices]
              simpa using hkj
            exact ih (recordAll trs row) st₁ rows₂ hrest (ctRecord ct row) hct₁
              i' j' hi2 hj2 (by omega) k hki' hkj'

/-- C3: within one run, (1) no two accepted rows have equal fully-non-NULL
tuples on any composite-unique tracker; (2) a NULL among a tracker's columns
always passes that tracker and is not recorded; (3) 100 consecutive
colliding candidates make `GenerateRow` fail with the retry-exhaustion
error rather than return a duplicate. -/
theorem compositeUnique_spec {ρ : Type} (msg : String)
    (rowGen : ρ → List (Option Val) × ρ) (n : Nat)
    (trs : List CompositeUniqueTracker) (st : ρ)
    (rows : List (List (Option Val))) (trs' : List CompositeUniqueTracker) (st' : ρ)
    (h : generateRows msg rowGen n trs st = .ok (rows, trs', st'))
    (ct : CompositeUniqueTracker) (hct : ct ∈ trs) :
    (∀ i j, (hi : i < rows.length) → (hj : j < rows.length) → i < j →
       (∀ v ∈ trackedVals ct.colIndices (rows.get ⟨i, hi⟩), v.isSome) →
       trackedVals ct.colIndices (rows.get ⟨i, hi⟩) ≠ trackedVals ct.colIndices (rows.get ⟨j, hj⟩)) ∧
    (∀ (ct₂ : CompositeUniqueTracker) (row : List (Option Val)),
       (∃ idx ∈ ct₂.colIndices, row.getD idx none = none) →
       ctCheck ct₂ row = true ∧ ctRecord ct₂ row = ct₂) ∧
    (∀ (st₀ : ρ), trs ≠ [] →
       (∀ m, m < maxUniqueRetries → checkAll trs (candidateRow rowGen st₀ m) = false) →
       generateRow msg rowGen maxUniqueRetries trs st₀ = .error msg) := by
  refine ⟨?_, ct_null_passes, fun st₀ => generateRow_exhaustion msg rowGen _ trs st₀⟩
  intro i j hi hj hij hsome heq
  rcases tupleKey_of_all_some ct.colIndices (rows.get ⟨i, hi⟩) hsome with ⟨k, hk⟩
  have hkj : tupleKey ct.colIndices (rows.get ⟨j, hj⟩) = some k := by
    rw [← tupleKey_congr ct.colIndices (rows.get ⟨i, hi⟩) (rows.get ⟨j, hj⟩) heq]
    exact hk
  exact generateRows_pairwise msg rowGen n trs st rows trs' st' h ct hct
    i j hi hj hij k hk hkj

/-- Trackers of the C3 witness run: one composite tracker over column 0. -/
def c3Trs : List CompositeUniqueTracker := [⟨[0], []⟩]

/-- Row producer of the C3 witness run: the `s`-th candidate row is
`[some (intV s)]`. -/
def c3RowGen : Nat → List (Option Val) × Nat := fun st => ([some (.intV st)], st + 1)

/-- Rows of the C3 witness run. -/
def c3Rows : List (List (Option Val)) := [[some (.intV 0)], [some (.intV 1)]]

/-- C3 witness: the composite uniqueness theorem at a concrete two-row run. -/
theorem compositeUnique_spec_witness :
    (∀ i j, (hi : i < c3Rows.length) → (hj : j < c3Rows.length) → i < j →
       (∀ v ∈ trackedVals (⟨[0], []⟩ : CompositeUniqueTracker).colIndices
          (c3Rows.get ⟨i, hi⟩), v.isSome) →
       trackedVals (⟨[0], []⟩ : CompositeUniqueTracker).colIndices (c3Rows.get ⟨i, hi⟩) ≠
         trackedVals (⟨[0], []⟩ : CompositeUniqueTracker).colIndices (c3Rows.get ⟨j, hj⟩)) ∧
    (∀ (ct₂ : CompositeUniqueTracker) (row : List (Option Val)),
       (∃ idx ∈ ct₂.colIndices, row.getD idx none = none) →
       ctCheck ct₂ row = true ∧ ctRecord ct₂ row = ct₂) ∧
    (∀ (st₀ : Nat), c3Trs ≠ [] →
       (∀ m, m < maxUniqueRetries → checkAll c3Trs (candidateRow c3RowGen st₀ m) = false) →
       generateRow "retries exhausted" c3RowGen maxUniqueRetries c3Trs st₀ =
         .error "retries exhausted") :=
  compositeUnique_spec "retries exhausted" c3RowGen 2 c3Trs 0 c3Rows
    [⟨[0], ["0", "1"]⟩] 2 rfl ⟨[0], []⟩ (by simp [c3Trs])

/-! ## Cross-table FK correlation (generator/fkcorrelation.go:
`FKLookup`, `applyFKCorrelations`)

Go maps are embedded as association lists with write-over semantics
(`assocSet` replaces in place, `assocGet` finds the first match).  The
per-group mutable `current` map is threaded explicitly as `CorrSt`
(driver column ↦ its group's current map). -/

/-- `generator.FKLookup`. -/
structure FKLookup where
  derivedColumn : String
  driverColumn : String
  mapping : List (Val × Val)

/-- Go map read (first match). -/
def assocGet {A : Type} (m : List (String × A)) (k : String) : Option A :=
  match m with
  | [] => none
  | p :: rest => if p.1 = k then some p.2 else assocGet rest k

/-- Go map write (replace in place or append). -/
def assocSet {A : Type} (m : List (String × A)) (k : String) (v : A) :
    List (String × A) :=
  match m with
  | [] => [(k, v)]
  | p :: rest => if p.1 = k then (k, v) :: rest else p :: assocSet rest k v

/-- `Mapping[dv]` lookup (the FK lookup map read). -/
def mapFind (m : List (Val × Val)) (k : Val) : Option Val :=
  match m with
  | [] => none
  | p :: rest => if p.1 = k then some p.2 else mapFind rest k

/-- The grouping loop of `applyFKCorrelations`: `groupsByDriver` (driver ↦
derived ↦ mapping) and `derivedToDriver`. -/
def buildGroups (fkLookups : List FKLookup) :
    List (String × List (String × List (Val × Val))) × List (String × String) :=
  fkLookups.foldl
    (fun acc fl =>
      let lookups := (assocGet acc.1 fl.driverColumn).getD []
      (assocSet acc.1 fl.driverColumn (assocSet lookups fl.derivedColumn fl.mapping),
       assocSet acc.2 fl.derivedColumn fl.driverColumn))
    ([], [])

/-- The group role a column's generator is rewritten to. -/
inductive CorrRole where
  | trigger (driver : String) (colName : String)
  | reader (driver : String) (colName : String)
  | plain
deriving Repr

/-- The role-assignment loop of `applyFKCorrelations`: the first column of a
group (in table order) becomes its trigger, later members read the shared
state, non-group columns keep their generator. -/
def rolesAux (gbd : List (String × List (String × List (Val × Val))))
    (dtd : List (String × String)) : List Column → List String → List CorrRole
  | [], _ => []
  | col :: rest, triggered =>
      let grpDriver : Option String :=
        if (assocGet gbd col.name).isSome then some col.name
        else match assocGet dtd col.name with
          | some dn => if (assocGet gbd dn).isSome then some dn else none
          | none => none
      match grpDriver with
      | none => .plain :: rolesAux gbd dtd rest triggered
      | some dr =>
          if triggered.contains dr then
            .reader dr col.name :: rolesAux gbd dtd rest triggered
          else
            .trigger dr col.name :: rolesAux gbd dtd rest (triggered ++ [dr])

/-- The shared per-group row state: driver column ↦ the group's `current`
map (column ↦ generated value, `none` = nil). -/
def CorrSt : Type := List (String × List (String × Option Val))

/-- `mapping[dv]` with Go nil semantics: a nil driver value or a missing
key derives nil. -/
def mapDv (dv : Option Val) (mp : List (Val × Val)) : Option Val :=
  match dv with
  | some v => mapFind mp v
  | none => none

/-- The trigger body of `applyFKCorrelations`: run the driver generator,
store its value under the driver column, derive every dependent column
through its mapping (missing driver key ↦ nil). -/
def triggerCur (d : String) (lookups : List (String × List (Val × Val)))
    (prev : List (String × Option Val)) (dv : Option Val) :
    List (String × Option Val) :=
  lookups.foldl
    (fun cur p => assocSet cur p.1 (mapDv dv p.2))
    (assocSet prev d dv)

/-- The original generator captured for a driver column (the first loop of
`applyFKCorrelations`). -/
def findGen (columns : List Column) (gens : List ColGen) (d : String) : Option ColGen :=
  ((columns.zip gens).find? (fun p => p.1.name = d)).map (fun p => p.2)

/-- A post-correlation column generator: draw source, position, shared group
state in; value, new position, new state out. -/
def CGen : Type := (Nat → GenDraw) → Nat → CorrSt → Option Val × Nat × CorrSt

/-- A non-group generator ignores the shared state. -/
def liftGen (g : ColGen) : CGen := fun src pos cst =>
  let r := g src pos
  (r.1, r.2, cst)

/-- The generator a column's role translates to. -/
def roleGen (gbd : List (String × List (String × List (Val × Val))))
    (driverGen : String → Option ColGen) (role : CorrRole) (base : ColGen) : CGen :=
  match role with
  | .plain => liftGen base
  | .trigger d cn => fun src pos cst =>
      let dg := (driverGen d).getD (fun _ p => (none, p))
      let r := dg src pos
      let lookups := (assocGet gbd d).getD []
      let cur := triggerCur d lookups ((assocGet cst d).getD []) r.1
      ((assocGet cur cn).getD none, r.2, assocSet cst d cur)
  | .reader d cn => fun _ pos cst =>
      ((assocGet ((assocGet cst d).getD []) cn).getD none, pos, cst)

/-- `applyFKCorrelations`: leave the generators alone when there are no
lookups, otherwise rewrite each column's generator according to its role. -/
def applyFKCorrelations (columns : List Column) (gens : List ColGen)
    (fkLookups : List FKLookup) : List CGen :=
  if fkLookups.isEmpty then gens.map liftGen
  else
    let g := buildGroups fkLookups
    let roles := rolesAux g.1 g.2 columns []
    (roles.zip gens).map (fun p => roleGen g.1 (findGen columns gens) p.1 p.2)

/-- Running the rewritten generator vector in column order (`GenerateRow`). -/
def runGens : List CGen → (Nat → GenDraw) → Nat → CorrSt →
    List (Option Val) × Nat × CorrSt
  | [], _, pos, cst => ([], pos, cst)
  | g :: rest, src, pos, cst =>
      let r := g src pos cst
      let rs := runGens rest src r.2.1 r.2.2
      (r.1 :: rs.1, rs.2)

theorem assocGet_assocSet_self {A : Type} (m : List (String × A)) (k : String)
    (v : A) : assocGet (assocSet m k v) k = some v := by
  induction m with
  | nil => simp [assocSet, assocGet]
  | cons p rest ih =>
    rw [assocSet]
    by_cases h : p.1 = k
    · rw [if_pos h, assocGet, if_pos rfl]
    · rw [if_neg h, assocGet, if_neg h]
      exact ih

theorem assocGet_assocSet_ne {A : Type} (m : List (String × A)) (k : String)
    (v : A) (k' : String) (h : k' ≠ k) :
    assocGet (assocSet m k v) k' = assocGet m k' := by
  have h' : ¬ (k = k') := fun he => h he.symm
  induction m with
  | nil => simp [assocSet, assocGet, h']
  | cons p rest ih =>
    obtain ⟨pk, pv⟩ := p
    by_cases hp : pk = k
    · subst hp
      simp [assocSet, assocGet, h']
    · by_cases hq : pk = k'
      · simp [assocSet, assocGet, hp, hq, h]
      · simp [assocSet, assocGet, hp, hq, ih]

theorem mem_keys_assocSet {A : Type} (m : List (String × A)) (k : String) (v : A)
    (x : String) :
    x ∈ (assocSet m k v).map Prod.fst ↔ x ∈ m.map Prod.fst ∨ x = k := by
  induction m with
  | nil => simp [assocSet, eq_comm]
  | cons p rest ih =>
    obtain ⟨pk, pv⟩ := p
    by_cases hp : pk = k
    · subst hp
      rw [assocSet, if_pos rfl]
      simp only [List.map_cons, List.mem_cons]
      tauto
    · rw [assocSet, if_neg hp]
      simp only [List.map_cons, List.mem_cons]
      rw [ih]
      tauto

theorem assocGet_isSome_iff {A : Type} (m : List (String × A)) (k : String) :
    (assocGet m k).isSome ↔ k ∈ m.map Prod.fst := by
  induction m with
  | nil => simp [assocGet]
  | cons p rest ih =>
    obtain ⟨pk, pv⟩ := p
    by_cases h : pk = k
    · simp [assocGet, h]
    · simp only [assocGet, if_neg h, List.map_cons, List.mem_cons]
      rw [ih]
      constructor
      · exact Or.inr
      · rintro (he | hm)
        · exact absurd he.symm h
        · exact hm

theorem assocGet_mem {A : Type} (m : List (String × A)) (k : String) (v : A)
    (h : assocGet m k = some v) : (k, v) ∈ m := by
  induction m with
  | nil => cases h
  | cons p rest ih =>
    obtain ⟨pk, pv⟩ := p
    rw [assocGet] at h
    by_cases hp : pk = k
    · rw [if_pos hp] at h
      injection h with hv
      subst hp
      subst hv
      exact List.mem_cons_self _ _
    · rw [if_neg hp] at h
      exact List.mem_cons_of_mem _ (ih h)

/-- A generic write-fold over a pair list with a value transform: the result
at a key present in the pair list (with distinct keys) is the transformed
stored value. -/
theorem assocGet_foldSet_not_mem {A B : Type} (f : B → A) (l : List (String × B))
    (init : List (String × A)) (c : String) (hc : ¬ c ∈ l.map Prod.fst) :
    assocGet (l.foldl (fun cur p => assocSet cur p.1 (f p.2)) init) c =
      assocGet init c := by
  induction l generalizing init with
  | nil => rfl
  | cons p rest ih =>
    simp only [List.map_cons, List.mem_cons] at hc
    push_neg at hc
    rw [List.foldl_cons, ih _ hc.2, assocGet_assocSet_ne _ _ _ _ (fun h => hc.1 h)]

theorem assocGet_foldSet_mem {A B : Type} (f : B → A) (l : List (String × B))
    (init : List (String × A)) (c : String) (mp : B)
    (hnd : (l.map Prod.fst).Nodup) (hmem : (c, mp) ∈ l) :
    assocGet (l.foldl (fun cur p => assocSet cur p.1 (f p.2)) init) c =
      some (f mp) := by
  induction l generalizing init with
  | nil => cases hmem
  | cons p rest ih =>
    rw [List.map_cons, List.nodup_cons] at hnd
    rcases List.mem_cons.mp hmem with h | h
    · subst h
      rw [List.foldl_cons, assocGet_foldSet_not_mem f rest _ c hnd.1,
        assocGet_assocSet_self]
    · have : p.1 ≠ c := by
        intro he
        exact hnd.1 (he ▸ (List.mem_map.mpr ⟨(c, mp), h, rfl⟩))
      rw [List.foldl_cons]
      exact ih _ hnd.2 h

/-- The `g.lookups` accumulation restricted to one driver. -/
def lookupsOfFrom (lk : List (String × List (Val × Val))) (fls : List FKLookup) :
    List (String × List (Val × Val)) :=
  fls.foldl (fun l fl => assocSet l fl.derivedColumn fl.mapping) lk

/-- The `derivedToDriver` accumulation. -/
def dtdFrom (m : List (String × String)) (fls : List FKLookup) :
    List (String × String) :=
  fls.foldl (fun m fl => assocSet m fl.derivedColumn fl.driverColumn) m

theorem bgFold_single (d : String) :
    ∀ (fls : List FKLookup), (∀ fl ∈ fls, fl.driverColumn = d) →
    ∀ (lk : List (String × List (Val × Val))) (dtd₀ : List (String × String)),
      fls.foldl
        (fun acc fl =>
          let lookups := (assocGet acc.1 fl.driverColumn).getD []
          (assocSet acc.1 fl.driverColumn (assocSet lookups fl.derivedColumn fl.mapping),
           assocSet acc.2 fl.derivedColumn fl.driverColumn))
        ([(d, lk)], dtd₀) =
      ([(d, lookupsOfFrom lk fls)], dtdFrom dtd₀ fls) := by
  intro fls
  induction fls with
  | nil => intro _ lk dtd₀; rfl
  | cons fl rest ih =>
    intro hdrv lk dtd₀
    have hd : fl.driverColumn = d := hdrv fl (List.mem_cons_self _ _)
    rw [List.foldl_cons]
    simp only [hd]
    rw [show assocGet [(d, lk)] d = some lk by rw [assocGet, if_pos rfl]]
    simp only [Option.getD_some]
    rw [show assocSet [(d, lk)] d (assocSet lk fl.derivedColumn fl.mapping) =
        [(d, assocSet lk fl.derivedColumn fl.mapping)] by
      rw [assocSet, if_pos rfl]]
    rw [ih (fun g hg => hdrv g (List.mem_cons_of_mem _ hg))]
    rw [show dtdFrom dtd₀ (fl :: rest) =
        dtdFrom (assocSet dtd₀ fl.derivedColumn fl.driverColumn) rest from rfl]
    rw [hd]
    rfl

theorem buildGroups_single (d : String) (fls : List FKLookup)
    (hdrv : ∀ fl ∈ fls, fl.driverColumn = d) (hne : fls ≠ []) :
    buildGroups fls = ([(d, lookupsOfFrom [] fls)], dtdFrom [] fls) := by
  cases fls with
  | nil => cases hne rfl
  | cons fl rest =>
    have hd : fl.driverColumn = d := hdrv fl (List.mem_cons_self _ _)
    unfold buildGroups
    rw [List.foldl_cons]
    simp only [hd]
    rw [show (assocGet ([] : List (String × List (String × List (Val × Val)))) d) = none
      from rfl]
    simp only [Option.getD_none]
    rw [show assocSet ([] : List (String × List (String × List (Val × Val)))) d
        (assocSet [] fl.derivedColumn fl.mapping) =
        [(d, assocSet [] fl.derivedColumn fl.mapping)] from rfl]
    rw [bgFold_single d rest (fun g hg => hdrv g (List.mem_cons_of_mem _ hg))]
    rw [show lookupsOfFrom [] (fl :: rest) =
        lookupsOfFrom (assocSet [] fl.derivedColumn fl.mapping) rest from rfl]
    rw [show dtdFrom [] (fl :: rest) =
        dtdFrom (assocSet [] fl.derivedColumn fl.driverColumn) rest from rfl]
    rw [hd]

/-- `lookupsOfFrom` as a pair-level write-fold (for the generic lemmas). -/
theorem lookupsOfFrom_eq_foldSet (lk : List (String × List (Val × Val)))
    (fls : List FKLookup) :
    lookupsOfFrom lk fls =
      (fls.map (fun fl => (fl.derivedColumn, fl.mapping))).foldl
        (fun cur p => assocSet cur p.1 (id p.2)) lk := by
  rw [List.foldl_map]
  rfl

theorem assocGet_lookupsOf_mem (fls : List FKLookup)
    (hnd : (fls.map (fun fl => fl.derivedColumn)).Nodup)
    (fl : FKLookup) (hfl : fl ∈ fls) :
    assocGet (lookupsOfFrom [] fls) fl.derivedColumn = some fl.mapping := by
  rw [lookupsOfFrom_eq_foldSet]
  apply assocGet_foldSet_mem
  · simpa [Function.comp] using hnd
  · exact List.mem_map.mpr ⟨fl, hfl, rfl⟩

theorem assocGet_lookupsOf_not_mem (fls : List FKLookup) (x : String)
    (hx : ¬ x ∈ fls.map (fun fl => fl.derivedColumn)) :
    assocGet (lookupsOfFrom [] fls) x = none := by
  rw [lookupsOfFrom_eq_foldSet]
  rw [assocGet_foldSet_not_mem]
  · rfl
  · simpa [Function.comp] using hx

theorem nodup_keys_assocSet {A : Type} (m : List (String × A)) (k : String) (v : A)
    (h : (m.map Prod.fst).Nodup) : ((assocSet m k v).map Prod.fst).Nodup := by
  induction m with
  | nil => simp [assocSet]
  | cons p rest ih =>
    obtain ⟨pk, pv⟩ := p
    rw [List.map_cons, List.nodup_cons] at h
    by_cases hp : pk = k
    · subst hp
      rw [assocSet, if_pos rfl, List.map_cons, List.nodup_cons]
      exact h
    · rw [assocSet, if_neg hp, List.map_cons, List.nodup_cons]
      constructor
      · intro hmem
        rcases (mem_keys_assocSet rest k v pk).mp hmem with hm | he
        · exact h.1 hm
        · exact hp he
      · exact ih h.2

theorem nodup_keys_lookupsOf (fls : List FKLookup) :
    ((lookupsOfFrom [] fls).map Prod.fst).Nodup := by
  suffices hgen : ∀ (fls : List FKLookup) (lk : List (String × List (Val × Val))),
      (lk.map Prod.fst).Nodup → ((lookupsOfFrom lk fls).map Prod.fst).Nodup by
    exact hgen fls [] (by simp)
  intro fls
  induction fls with
  | nil => intro lk h; exact h
  | cons fl rest ih =>
    intro lk h
    exact ih _ (nodup_keys_assocSet lk fl.derivedColumn fl.mapping h)

theorem mem_assocSet {A : Type} (m : List (String × A)) (k : String) (v : A)
    (p : String × A) (h : p ∈ assocSet m k v) : p ∈ m ∨ p = (k, v) := by
  induction m with
  | nil => exact Or.inr (by simpa [assocSet] using h)
  | cons q rest ih =>
    obtain ⟨qk, qv⟩ := q
    by_cases hq : qk = k
    · subst hq
      rw [assocSet, if_pos rfl] at h
      rcases List.mem_cons.mp h with h | h
      · exact Or.inr h
      · exact Or.inl (List.mem_cons_of_mem _ h)
    · rw [assocSet, if_neg hq] at h
      rcases List.mem_cons.mp h with h | h
      · exact Or.inl (List.mem_cons.mpr (Or.inl h))
      · rcases ih h with h | h
        · exact Or.inl (List.mem_cons_of_mem _ h)
        · exact Or.inr h

theorem dtdFrom_val (d : String) :
    ∀ (fls : List FKLookup) (m : List (String × String)),
      (∀ q ∈ m, q.2 = d) → (∀ fl ∈ fls, fl.driverColumn = d) →
      ∀ p ∈ dtdFrom m fls, p.2 = d := by
  intro fls
  induction fls with
  | nil => intro m hm _ p hp; exact hm p hp
  | cons fl rest ih =>
    intro m hm hdrv p hp
    refine ih (assocSet m fl.derivedColumn fl.driverColumn) ?_
      (fun g hg => hdrv g (List.mem_cons_of_mem _ hg)) p hp
    intro q hq
    rcases mem_assocSet m _ _ q hq with h | h
    · exact hm q h
    · rw [h]
      exact hdrv fl (List.mem_cons_self _ _)

theorem mem_keys_dtdFrom :
    ∀ (fls : List FKLookup) (m : List (String × String)) (x : String),
      x ∈ (dtdFrom m fls).map Prod.fst ↔
        x ∈ m.map Prod.fst ∨ x ∈ fls.map (fun fl => fl.derivedColumn) := by
  intro fls
  induction fls with
  | nil => intro m x; simp [dtdFrom]
  | cons fl rest ih =>
    intro m x
    rw [show dtdFrom m (fl :: rest) =
      dtdFrom (assocSet m fl.derivedColumn fl.driverColumn) rest from rfl]
    rw [ih, mem_keys_assocSet]
    simp only [List.map_cons, List.mem_cons]
    tauto

theorem triggerCur_at_driver (d : String) (LK : List (String × List (Val × Val)))
    (prev : List (String × Option Val)) (dv : Option Val)
    (hd : ¬ d ∈ LK.map Prod.fst) :
    assocGet (triggerCur d LK prev dv) d = some dv := by
  unfold triggerCur
  rw [assocGet_foldSet_not_mem (mapDv dv) LK _ d hd, assocGet_assocSet_self]

theorem triggerCur_at_derived (d : String) (LK : List (String × List (Val × Val)))
    (prev : List (String × Option Val)) (dv : Option Val)
    (c : String) (mp : List (Val × Val))
    (hnd : (LK.map Prod.fst).Nodup) (hmem : (c, mp) ∈ LK) :
    assocGet (triggerCur d LK prev dv) c = some (mapDv dv mp) := by
  unfold triggerCur
  exact assocGet_foldSet_mem (mapDv dv) LK _ c mp hnd hmem

/-- After the group's trigger has run (shared state holds `cur` for driver
`d`), every remaining column generator leaves the shared state untouched and
every remaining group column reads its value out of `cur`. -/
theorem runGens_post (d : String) (LK : List (String × List (Val × Val)))
    (dtd : List (String × String)) (dgen : String → Option ColGen)
    (hdtdval : ∀ x y, assocGet dtd x = some y → y = d) :
    ∀ (cols : List Column) (gens' : List ColGen), gens'.length = cols.length →
    ∀ (src : Nat → GenDraw) (pos : Nat) (cst : CorrSt)
      (cur : List (String × Option Val)), assocGet cst d = some cur →
      (runGens (((rolesAux [(d, LK)] dtd cols [d]).zip gens').map
          (fun p => roleGen [(d, LK)] dgen p.1 p.2)) src pos cst).2.2 = cst ∧
      List.Forall₂ (fun (col : Column) (out : Option Val) =>
          (col.name = d ∨ (assocGet dtd col.name).isSome) →
          out = (assocGet cur col.name).getD none)
        cols
        (runGens (((rolesAux [(d, LK)] dtd cols [d]).zip gens').map
          (fun p => roleGen [(d, LK)] dgen p.1 p.2)) src pos cst).1 := by
  intro cols
  induction cols with
  | nil =>
    intro gens' hlen src pos cst cur hcst
    rw [rolesAux]
    exact ⟨rfl, List.Forall₂.nil⟩
  | cons col rest ih =>
    intro gens' hlen src pos cst cur hcst
    cases gens' with
    | nil => cases hlen
    | cons g grest =>
      have hlen' : grest.length = rest.length := by simpa using hlen
      by_cases hname : col.name = d
      · -- driver column: reader role
        have hrole : rolesAux [(d, LK)] dtd (col :: rest) [d] =
            .reader col.name col.name :: rolesAux [(d, LK)] dtd rest [d] := by
          rw [rolesAux]
          have h1 : assocGet [(d, LK)] col.name = some LK := by
            rw [assocGet, if_pos hname.symm]
          rw [h1]
          simp only [Option.isSome_some, if_true]
          rw [if_pos (by rw [hname]; simp)]
        rw [hrole]
        rw [List.zip_cons_cons, List.map_cons, runGens]
        have hval : (roleGen [(d, LK)] dgen (.reader col.name col.name) g src pos cst) =
            ((assocGet cur col.name).getD none, pos, cst) := by
          show ((assocGet ((assocGet cst col.name).getD []) col.name).getD none,
            pos, cst) = _
          rw [hname, hcst]
          rfl
        rw [hval]
        rcases ih grest hlen' src pos cst cur hcst with ⟨hst, hfa⟩
        exact ⟨hst, List.Forall₂.cons (fun _ => rfl) hfa⟩
      · cases hdt0 : assocGet dtd col.name with
        | some dn =>
          -- derived column: reader role
          have hdt : assocGet dtd col.name = some d := by
            rw [hdt0, hdtdval _ _ hdt0]
          have hrole : rolesAux [(d, LK)] dtd (col :: rest) [d] =
              .reader d col.name :: rolesAux [(d, LK)] dtd rest [d] := by
            rw [rolesAux]
            have h1 : assocGet [(d, LK)] col.name = none := by
              rw [assocGet, if_neg (fun he => hname he.symm)]
              rfl
            rw [h1]
            simp only [Option.isSome_none, Bool.false_eq_true, if_false]
            rw [hdt]
            dsimp only
            have h2 : assocGet [(d, LK)] d = some LK := by
              rw [assocGet, if_pos rfl]
            rw [h2]
            simp only [Option.isSome_some, if_true]
            rw [if_pos (by simp)]
          rw [hrole]
          rw [List.zip_cons_cons, List.map_cons, runGens]
          have hval : (roleGen [(d, LK)] dgen (.reader d col.name) g src pos cst) =
              ((assocGet cur col.name).getD none, pos, cst) := by
            show ((assocGet ((assocGet cst d).getD []) col.name).getD none,
              pos, cst) = _
            rw [hcst]
            rfl
          rw [hval]
          rcases ih grest hlen' src pos cst cur hcst with ⟨hst, hfa⟩
          exact ⟨hst, List.Forall₂.cons (fun _ => rfl) hfa⟩
        | none =>
          -- non-group column: plain role
          have hrole : rolesAux [(d, LK)] dtd (col :: rest) [d] =
              .plain :: rolesAux [(d, LK)] dtd rest [d] := by
            rw [rolesAux]
            have h1 : assocGet [(d, LK)] col.name = none := by
              rw [assocGet, if_neg (fun he => hname he.symm)]
              rfl
            rw [h1]
            simp only [Option.isSome_none, Bool.false_eq_true, if_false]
            rw [hdt0]
          rw [hrole]
          rw [List.zip_cons_cons, List.map_cons, runGens]
          have hval : (roleGen [(d, LK)] dgen .plain g src pos cst) =
              ((g src pos).1, (g src pos).2, cst) := rfl
          rw [hval]
          rcases ih grest hlen' src (g src pos).2 cst cur hcst with ⟨hst, hfa⟩
          refine ⟨hst, List.Forall₂.cons ?_ hfa⟩
          intro hgrp
          rcases hgrp with h | h
          · exact absurd h hname
          · rw [hdt0] at h
            cases h

/-- Full-row run: the first group column (wherever it sits in table order)
triggers generation for the group, and every group column's output is read
from the trigger-built `current` map. -/
theorem runGens_full (d : String) (LK : List (String × List (Val × Val)))
    (dtd : List (String × String)) (dgen : String → Option ColGen)
    (hdtdval : ∀ x y, assocGet dtd x = some y → y = d) :
    ∀ (cols : List Column) (gens' : List ColGen), gens'.length = cols.length →
    ∀ (src : Nat → GenDraw) (pos : Nat) (cst : CorrSt),
      (∃ col ∈ cols, col.name = d ∨ (assocGet dtd col.name).isSome) →
      ∃ (prev : List (String × Option Val)) (dv : Option Val),
        List.Forall₂ (fun (col : Column) (out : Option Val) =>
          (col.name = d ∨ (assocGet dtd col.name).isSome) →
          out = (assocGet (triggerCur d LK prev dv) col.name).getD none)
          cols
          (runGens (((rolesAux [(d, LK)] dtd cols []).zip gens').map
            (fun p => roleGen [(d, LK)] dgen p.1 p.2)) src pos cst).1 := by
  intro cols
  induction cols with
  | nil =>
    intro gens' hlen src pos cst hex
    rcases hex with ⟨c, hc, _⟩
    cases hc
  | cons col rest ih =>
    intro gens' hlen src pos cst hex
    cases gens' with
    | nil => cases hlen
    | cons g grest =>
      have hlen' : grest.length = rest.length := by simpa using hlen
      by_cases hname : col.name = d
      · -- the driver column is the first group column: it is the trigger
        have hrole : rolesAux [(d, LK)] dtd (col :: rest) [] =
            .trigger col.name col.name :: rolesAux [(d, LK)] dtd rest [col.name] := by
          rw [rolesAux]
          have h1 : assocGet [(d, LK)] col.name = some LK := by
            rw [assocGet, if_pos hname.symm]
          rw [h1]
          simp only [Option.isSome_some, if_true]
          rw [if_neg (by simp)]
          rfl
        rw [hname] at hrole
        rw [hrole, List.zip_cons_cons, List.map_cons, runGens]
        have h1 : assocGet [(d, LK)] d = some LK := by
          rw [assocGet, if_pos rfl]
        set dg := (dgen d).getD (fun _ p => (none, p)) with hdg
        set dv := (dg src pos).1 with hdv
        set prev := (assocGet cst d).getD [] with hprev
        set cur₀ := triggerCur d LK prev dv with hcur
        have hval : (roleGen [(d, LK)] dgen (.trigger d d) g src pos cst) =
            ((assocGet cur₀ d).getD none, (dg src pos).2, assocSet cst d cur₀) := by
          show ((assocGet (triggerCur d ((assocGet [(d, LK)] d).getD [])
              ((assocGet cst d).getD []) ((dg src pos).1)) d).getD none,
            (dg src pos).2, assocSet cst d (triggerCur d ((assocGet [(d, LK)] d).getD [])
              ((assocGet cst d).getD []) ((dg src pos).1))) = _
          rw [h1]
          rfl
        rw [hval]
        have hcst' : assocGet (assocSet cst d cur₀) d = some cur₀ :=
          assocGet_assocSet_self _ _ _
        rcases runGens_post d LK dtd dgen hdtdval rest grest hlen' src
          (dg src pos).2 (assocSet cst d cur₀) cur₀ hcst' with ⟨_, hfa⟩
        refine ⟨prev, dv, List.Forall₂.cons ?_ ?_⟩
        · intro _
          rw [hname]
        · exact hfa
      · cases hdt0 : assocGet dtd col.name with
        | some dn =>
          -- a derived column is the first group column: it is the trigger
          have hdt : assocGet dtd col.name = some d := by
            rw [hdt0, hdtdval _ _ hdt0]
          have hrole : rolesAux [(d, LK)] dtd (col :: rest) [] =
              .trigger d col.name :: rolesAux [(d, LK)] dtd rest [d] := by
            rw [rolesAux]
            have h1 : assocGet [(d, LK)] col.name = none := by
              rw [assocGet, if_neg (fun he => hname he.symm)]
              rfl
            rw [h1]
            simp only [Option.isSome_none, Bool.false_eq_true, if_false]
            rw [hdt]
            dsimp only
            have h2 : assocGet [(d, LK)] d = some LK := by
              rw [assocGet, if_pos rfl]
            rw [h2]
            simp only [Option.isSome_some, if_true]
            rw [if_neg (by simp)]
            rfl
          rw [hrole, List.zip_cons_cons, List.map_cons, runGens]
          have h1 : assocGet [(d, LK)] d = some LK := by
            rw [assocGet, if_pos rfl]
          set dg := (dgen d).getD (fun _ p => (none, p)) with hdg
          set dv := (dg src pos).1 with hdv
          set prev := (assocGet cst d).getD [] with hprev
          set cur₀ := triggerCur d LK prev dv with hcur
          have hval : (roleGen [(d, LK)] dgen (.trigger d col.name) g src pos cst) =
              ((assocGet cur₀ col.name).getD none, (dg src pos).2,
                assocSet cst d cur₀) := by
            show ((assocGet (triggerCur d ((assocGet [(d, LK)] d).getD [])
                ((assocGet cst d).getD []) ((dg src pos).1)) col.name).getD none,
              (dg src pos).2, assocSet cst d (triggerCur d ((assocGet [(d, LK)] d).getD [])
                ((assocGet cst d).getD []) ((dg src pos).1))) = _
            rw [h1]
            rfl
          rw [hval]
          have hcst' : assocGet (assocSet cst d cur₀) d = some cur₀ :=
            assocGet_assocSet_self _ _ _
          rcases runGens_post d LK dtd dgen hdtdval rest grest hlen' src
            (dg src pos).2 (assocSet cst d cur₀) cur₀ hcst' with ⟨_, hfa⟩
          exact ⟨prev, dv, List.Forall₂.cons (fun _ => rfl) hfa⟩
        | none =>
          -- a non-group column before the trigger
          have hrole : rolesAux [(d, LK)] dtd (col :: rest) [] =
              .plain :: rolesAux [(d, LK)] dtd rest [] := by
            rw [rolesAux]
            have h1 : assocGet [(d, LK)] col.name = none := by
              rw [assocGet, if_neg (fun he => hname he.symm)]
              rfl
            rw [h1]
            simp only [Option.isSome_none, Bool.false_eq_true, if_false]
            rw [hdt0]
          have hex' : ∃ c ∈ rest, c.name = d ∨ (assocGet dtd c.name).isSome := by
            rcases hex with ⟨c, hc, hcg⟩
            rcases List.mem_cons.mp hc with h | h
            · subst h
              rcases hcg with h | h
              · exact absurd h hname
              · rw [hdt0] at h
                cases h
            · exact ⟨c, h, hcg⟩
          rw [hrole, List.zip_cons_cons, List.map_cons, runGens]
          rcases ih grest hlen' src (g src pos).2 cst hex' with ⟨prev, dv, hfa⟩
          refine ⟨prev, dv, List.Forall₂.cons ?_ hfa⟩
          intro hgrp
          rcases hgrp with h | h
          · exact absurd h hname
          · rw [hdt0] at h
            cases h

/-- C2: for a table with one driver FK column and derived FK columns
related through the driver's parent, every generated row keeps each derived
column equal to the driver-to-derived mapping applied to the row's own
driver value (a driver value without an entry derives nil) — regardless of
whether the driver or a derived column is declared first in table order. -/
theorem applyFKCorrelations_spec
    (columns : List Column) (gens : List ColGen) (fls : List FKLookup) (d : String)
    (src : Nat → GenDraw) (pos : Nat) (cst : CorrSt)
    (hdrv : ∀ fl ∈ fls, fl.driverColumn = d)
    (hndd : (fls.map (fun fl => fl.derivedColumn)).Nodup)
    (hdnd : ¬ d ∈ fls.map (fun fl => fl.derivedColumn))
    (hne : fls ≠ [])
    (hlen : gens.length = columns.length)
    (fl : FKLookup) (hfl : fl ∈ fls)
    (iD iC : Nat) (hiD : iD < columns.length) (hiC : iC < columns.length)
    (hnD : columns[iD].name = d) (hnC : columns[iC].name = fl.derivedColumn) :
    ((runGens (applyFKCorrelations columns gens fls) src pos cst).1).getD iC none =
      (((runGens (applyFKCorrelations columns gens fls) src pos cst).1).getD iD
        none).bind (mapFind fl.mapping) := by
  have hbg := buildGroups_single d fls hdrv hne
  have happ : applyFKCorrelations columns gens fls =
      ((rolesAux [(d, lookupsOfFrom [] fls)] (dtdFrom [] fls) columns []).zip gens).map
        (fun p => roleGen [(d, lookupsOfFrom [] fls)]
          (findGen columns gens) p.1 p.2) := by
    unfold applyFKCorrelations
    rw [if_neg (by simpa [List.isEmpty_iff] using hne)]
    rw [hbg]
  set LK := lookupsOfFrom [] fls with hLK
  set dtd := dtdFrom [] fls with hdtd
  have hdtdval : ∀ x y, assocGet dtd x = some y → y = d := by
    intro x y hxy
    exact dtdFrom_val d fls [] (fun q hq => by cases hq) hdrv (x, y) (assocGet_mem _ _ _ hxy)
  have hex : ∃ col ∈ columns, col.name = d ∨ (assocGet dtd col.name).isSome :=
    ⟨columns[iD], List.getElem_mem hiD, Or.inl hnD⟩
  rcases runGens_full d LK dtd (findGen columns gens) hdtdval columns gens hlen
    src pos cst hex with ⟨prev, dv, hfa⟩
  rw [happ]
  set row := (runGens ((rolesAux [(d, LK)] dtd columns []).zip gens |>.map
    (fun p => roleGen [(d, LK)] (findGen columns gens) p.1 p.2)) src pos cst).1 with hrow
  have hrl : row.length = columns.length := (List.Forall₂.length_eq hfa).symm
  have hiDr : iD < row.length := by rw [hrl]; exact hiD
  have hiCr : iC < row.length := by rw [hrl]; exact hiC
  -- keys of LK avoid the driver, and the derived column is a key of dtd
  have hdLK : ¬ d ∈ LK.map Prod.fst := by
    intro hmem
    have := (assocGet_isSome_iff LK d).mpr hmem
    rw [hLK, assocGet_lookupsOf_not_mem fls d hdnd] at this
    cases this
  have hCdtd : (assocGet dtd columns[iC].name).isSome := by
    rw [hnC]
    apply (assocGet_isSome_iff _ _).mpr
    rw [hdtd]
    apply (mem_keys_dtdFrom fls [] _).mpr
    exact Or.inr (List.mem_map.mpr ⟨fl, hfl, rfl⟩)
  -- read both positions out of the Forall₂
  have hD := hfa.get hiD hiDr
  have hC := hfa.get hiC hiCr
  simp only [List.get_eq_getElem] at hD hC
  have hDval : row[iD] = dv := by
    rw [hD (Or.inl hnD), hnD, triggerCur_at_driver d LK prev dv hdLK]
    rfl
  have hCval : row[iC] = mapDv dv fl.mapping := by
    have hmemLK : (fl.derivedColumn, fl.mapping) ∈ LK :=
      assocGet_mem _ _ _ (by rw [hLK]; exact assocGet_lookupsOf_mem fls hndd fl hfl)
    rw [hC (Or.inr hCdtd), hnC,
      triggerCur_at_derived d LK prev dv fl.derivedColumn fl.mapping
        (by rw [hLK]; exact nodup_keys_lookupsOf fls) hmemLK]
    rfl
  rw [List.getD_eq_getElem _ _ hiCr, List.getD_eq_getElem _ _ hiDr, hCval, hDval]
  cases dv <;> rfl

/-- The C2 witness lookup: `child.companyId` is derived from
`child.voucherId` through the voucher's own company reference. -/
def c2Fl : FKLookup :=
  ⟨"companyId", "voucherId", [(.intV 10, .intV 1), (.intV 20, .intV 2)]⟩

/-- The C2 witness columns, with the *derived* column declared first. -/
def c2Columns : List Column :=
  [{ name := "companyId", dataType := "int", fk := some ⟨"company", "id"⟩ },
   { name := "voucherId", dataType := "int", fk := some ⟨"voucher", "id"⟩ }]

/-- The C2 witness base generators (FK pickers abstracted to their output
streams). -/
def c2Gens : List ColGen :=
  [fun _ pos => (some (.intV 1), pos + 1), fun _ pos => (some (.intV 10), pos + 1)]

/-- C2 witness: the correlation theorem at the repository's own test
scenario, derived column first. -/
theorem applyFKCorrelations_spec_witness :
    ((runGens (applyFKCorrelations c2Columns c2Gens [c2Fl]) (fun _ => {}) 0 []).1).getD
        0 none =
      (((runGens (applyFKCorrelations c2Columns c2Gens [c2Fl]) (fun _ => {}) 0
        []).1).getD 1 none).bind (mapFind c2Fl.mapping) :=
  applyFKCorrelations_spec c2Columns c2Gens [c2Fl] "voucherId" (fun _ => {}) 0 []
    (by intro fl hfl; rw [List.mem_singleton] at hfl; subst hfl; rfl)
    (by simp [c2Fl]) (by simp [c2Fl]) (by simp) rfl
    c2Fl (List.mem_singleton.mpr rfl)
    1 0 (by decide) (by decide) rfl rfl

/-! ## Dependency resolver (internal/depgraph: `Resolve`, `detectCycle`)

Go maps iterated by `range` become lists in insertion order.  The
fixed-point closure loop gets fuel bounded by the number of known tables;
Kahn's queue loop gets fuel bounded by nodes plus edges; the DFS gets fuel
bounded by the number of nodes — each bound is proved sufficient below. -/

/-- `tables[name]` lookup. -/
def findTable (ts : List Table) (n : String) : Option Table :=
  ts.find? (fun t => t.name == n)

/-- One pass of the auto-include loop: scan every table's FK columns and
append referenced tables that are known but not yet in the set. -/
def closureOnce (all : List Table) (ts : List Table) : List Table :=
  ts.foldl
    (fun acc t =>
      t.columns.foldl
        (fun acc c =>
          match c.fk with
          | none => acc
          | some fk =>
              if fk.referencedTable = t.name then acc
              else if (findTable acc fk.referencedTable).isSome then acc
              else
                match findTable all fk.referencedTable with
                | some parent => acc ++ [parent]
                | none => acc)
        acc)
    ts

/-- The `for changed` fixed-point loop. -/
def closeFix (all : List Table) : Nat → List Table → List Table
  | 0, ts => ts
  | fuel + 1, ts =>
      let ts' := closureOnce all ts
      if ts'.length = ts.length then ts else closeFix all fuel ts'

/-- The closed table set produced by the auto-include loop. -/
def closedTables (requested all : List Table) : List Table :=
  closeFix all (all.length + 1) requested

/-- The auto-included names: the closure appends, so they are exactly the
names past the requested prefix. -/
def autoIncludedOf (requested all : List Table) : List String :=
  ((closedTables requested all).drop requested.length).map (fun t => t.name)

/-- The parent→child edge list of the closed set: one edge per FK column,
skipping self-references and references leaving the set. -/
def edgeList (S : List Table) : List (String × String) :=
  S.flatMap (fun t =>
    t.columns.filterMap (fun c =>
      match c.fk with
      | none => none
      | some fk =>
          if fk.referencedTable = t.name then none
          else if (findTable S fk.referencedTable).isSome then
            some (fk.referencedTable, t.name)
          else none))

/-- `inDegree` of a node. -/
def inDeg (S : List Table) (n : String) : Nat :=
  ((edgeList S).filter (fun e => e.2 = n)).length

/-- `children` of a node. -/
def childrenOf (S : List Table) (p : String) : List String :=
  ((edgeList S).filter (fun e => e.1 = p)).map (fun e => e.2)

/-- Kahn's queue loop.  Degrees are `Int`-valued as in Go. -/
def kahnLoop (children : String → List String) :
    Nat → List String → (String → Int) → List String → List String
  | 0, _, _, order => order
  | _ + 1, [], _, order => order
  | fuel + 1, q :: qs, deg, order =>
      let r := (children q).foldl
        (fun (acc : (String → Int) × List String) c =>
          let d' := fun n => if n = c then acc.1 n - 1 else acc.1 n
          if d' c = 0 then (d', acc.2 ++ [c]) else (d', acc.2))
        (deg, qs)
      kahnLoop children fuel r.2 r.1 (order ++ [q])

/-- Kahn's algorithm over the closed set. -/
def kahnOrder (S : List Table) : List String :=
  let deg0 : String → Int := fun n => (inDeg S n : Int)
  let queue0 := (S.map (fun t => t.name)).filter (fun n => deg0 n = 0)
  kahnLoop (childrenOf S) (S.length + (edgeList S).length + 1) queue0 deg0 []

/-- DFS colors. -/
def white : Nat := 0

def gray : Nat := 1

def black : Nat := 2

/-- The `detectCycle` DFS state. -/
structure DfsSt where
  color : String → Nat
  parent : String → String
  cyclePath : List String

/-- Pointwise function update (Go map write). -/
def setFun {A : Type} (f : String → A) (k : String) (v : A) : String → A :=
  fun n => if n = k then v else f n

/-- The `for cur != next { cur = parent[cur] }` path reconstruction. -/
def reconstructAux (parent : String → String) :
    Nat → String → String → List String → List String
  | 0, _, _, acc => acc
  | fuel + 1, cur, next, acc =>
      if cur = next then acc
      else reconstructAux parent fuel (parent cur) next (acc ++ [parent cur])

/-- Cycle path reconstruction: walk parents from `node` back to `next`,
then reverse. -/
def reconstructCycle (parent : String → String) (fuel : Nat)
    (node next : String) : List String :=
  (reconstructAux parent fuel node next [next, node]).reverse

mutual

/-- One `dfs(node)` call of `detectCycle`: color the node gray, scan its FK
columns, and blacken it if no cycle was found. -/
def dfsVisit (S : List Table) : Nat → String → DfsSt → Bool × DfsSt
  | 0, _, st => (false, st)
  | fuel + 1, node, st =>
      let st₁ : DfsSt := { st with color := setFun st.color node gray }
      let t := (findTable S node).getD { name := node, columns := [] }
      let r := dfsCols S fuel node t.columns st₁
      if r.1 then r
      else (false, { r.2 with color := setFun r.2.color node black })
termination_by fuel _ _ => (fuel, 0)

/-- The column scan inside `dfs(node)`: skip non-FK columns,
self-references and references leaving the set; a gray target is a cycle
(reconstruct and return), a white target is visited recursively. -/
def dfsCols (S : List Table) : Nat → String → List Column → DfsSt → Bool × DfsSt
  | _, _, [], st => (false, st)
  | fuel, node, c :: cs, st =>
      match c.fk with
      | none => dfsCols S fuel node cs st
      | some fk =>
          let next := fk.referencedTable
          if next = node then dfsCols S fuel node cs st
          else if (findTable S next).isNone then dfsCols S fuel node cs st
          else if st.color next = gray then
            (true, { st with
              cyclePath := reconstructCycle st.parent (S.length + 1) node next })
          else if st.color next = white then
            let st' : DfsSt := { st with parent := setFun st.parent next node }
            let r := dfsVisit S fuel next st'
            if r.1 then r else dfsCols S fuel node cs r.2
          else dfsCols S fuel node cs st
termination_by fuel _ cs _ => (fuel, cs.length + 1)

end

/-- The `detectCycle` sweep over all tables. -/
def detectCycle (S : List Table) : List String :=
  let init : DfsSt := ⟨fun _ => white, fun _ => "", []⟩
  let r := S.foldl
    (fun (acc : Bool × DfsSt) t =>
      if acc.1 then acc
      else if acc.2.color t.name = white then dfsVisit S (S.length + 1) t.name acc.2
      else acc)
    (false, init)
  if r.1 then r.2.cyclePath else ["(unknown cycle)"]

/-- `depgraph.Resolve`: close the requested set, topologically sort it, and
report a concrete cycle on failure. -/
def Resolve (requested all : List Table) :
    Except (List String) (List String × List String) :=
  let closed := closedTables requested all
  let order := kahnOrder closed
  if order.length = closed.length then
    .ok (order, autoIncludedOf requested all)
  else
    .error (detectCycle closed)

theorem findTable_some {ts : List Table} {n : String} {t : Table}
    (h : findTable ts n = some t) : t ∈ ts ∧ t.name = n := by
  unfold findTable at h
  refine ⟨List.mem_of_find?_eq_some h, ?_⟩
  have := List.find?_some h
  simpa using this

theorem findTable_isSome_iff (ts : List Table) (n : String) :
    (findTable ts n).isSome ↔ n ∈ ts.map (fun t => t.name) := by
  constructor
  · intro h
    rcases Option.isSome_iff_exists.mp h with ⟨t, ht⟩
    rcases findTable_some ht with ⟨hmem, hname⟩
    exact List.mem_map.mpr ⟨t, hmem, hname⟩
  · intro h
    rcases List.mem_map.mp h with ⟨t, hmem, hname⟩
    unfold findTable
    rw [← Option.ne_none_iff_isSome]
    intro hn
    exact absurd hname (by simpa using List.find?_eq_none.mp hn t hmem)

theorem findTable_eq_none_iff (ts : List Table) (n : String) :
    findTable ts n = none ↔ ¬ n ∈ ts.map (fun t => t.name) := by
  rw [← findTable_isSome_iff ts n]
  cases findTable ts n <;> simp

theorem findTable_append_of_some {ts : List Table} {n : String} {t : Table}
    (d : List Table) (h : findTable ts n = some t) :
    findTable (ts ++ d) n = some t := by
  unfold findTable at *
  induction ts with
  | nil => cases h
  | cons x rest ih =>
    rw [List.cons_append, List.find?] at *
    cases hx : (x.name == n) with
    | true => rw [hx] at h; dsimp only at h ⊢; exact h
    | false => rw [hx] at h; dsimp only at h ⊢; exact ih h

/-- The inner column fold of one `closureOnce` table scan: the accumulator
only grows, every appended table is a known table referenced by one of the
scanned table's FK columns and fresh at its append time, and name
distinctness is preserved. -/
theorem innerFold_spec (all : List Table) (t : Table) :
    ∀ (cols : List Column) (acc : List Table),
      (acc.map (fun x => x.name)).Nodup →
      ∃ d, (cols.foldl
          (fun acc c =>
            match c.fk with
            | none => acc
            | some fk =>
                if fk.referencedTable = t.name then acc
                else if (findTable acc fk.referencedTable).isSome then acc
                else
                  match findTable all fk.referencedTable with
                  | some parent => acc ++ [parent]
                  | none => acc)
          acc) = acc ++ d ∧
        ((acc ++ d).map (fun x => x.name)).Nodup ∧
        ∀ x ∈ d, findTable all x.name = some x ∧
          ∃ c ∈ cols, ∃ fk, c.fk = some fk ∧ fk.referencedTable = x.name := by
  intro cols
  induction cols with
  | nil =>
    intro acc hnd
    exact ⟨[], by simp, by simpa using hnd, fun x hx => by cases hx⟩
  | cons c cs ih =>
    intro acc hnd
    rw [List.foldl_cons]
    cases hfk : c.fk with
    | none =>
      dsimp only
      rcases ih acc hnd with ⟨d, hd, hdn, hdj⟩
      refine ⟨d, by rw [← hd], hdn, ?_⟩
      intro x hx
      rcases hdj x hx with ⟨h1, c', hc', h2⟩
      exact ⟨h1, c', List.mem_cons_of_mem _ hc', h2⟩
    | some fk =>
      dsimp only
      by_cases hself : fk.referencedTable = t.name
      · rw [if_pos hself]
        rcases ih acc hnd with ⟨d, hd, hdn, hdj⟩
        refine ⟨d, hd, hdn, ?_⟩
        intro x hx
        rcases hdj x hx with ⟨h1, c', hc', h2⟩
        exact ⟨h1, c', List.mem_cons_of_mem _ hc', h2⟩
      · rw [if_neg hself]
        by_cases hpres : (findTable acc fk.referencedTable).isSome
        · rw [if_pos hpres]
          rcases ih acc hnd with ⟨d, hd, hdn, hdj⟩
          refine ⟨d, hd, hdn, ?_⟩
          intro x hx
          rcases hdj x hx with ⟨h1, c', hc', h2⟩
          exact ⟨h1, c', List.mem_cons_of_mem _ hc', h2⟩
        · rw [if_neg hpres]
          cases hall : findTable all fk.referencedTable with
          | none =>
            rcases ih acc hnd with ⟨d, hd, hdn, hdj⟩
            refine ⟨d, hd, hdn, ?_⟩
            intro x hx
            rcases hdj x hx with ⟨h1, c', hc', h2⟩
            exact ⟨h1, c', List.mem_cons_of_mem _ hc', h2⟩
          | some parent =>
            rcases findTable_some hall with ⟨hpmem, hpname⟩
            have hnd' : ((acc ++ [parent]).map (fun x => x.name)).Nodup := by
              rw [List.map_append, List.nodup_append]
              refine ⟨hnd, by simp, ?_⟩
              intro a ha hb
              simp only [List.map_cons, List.map_nil, List.mem_singleton] at hb
              subst hb
              rw [hpname] at ha
              exact hpres ((findTable_isSome_iff acc fk.referencedTable).mpr ha)
            rcases ih (acc ++ [parent]) hnd' with ⟨d, hd, hdn, hdj⟩
            refine ⟨parent :: d, by rw [hd, List.append_assoc]; rfl, ?_, ?_⟩
            · rw [show acc ++ parent :: d = (acc ++ [parent]) ++ d by
                rw [List.append_assoc]; rfl]
              exact hdn
            · intro x hx
              rcases List.mem_cons.mp hx with h | h
              · subst h
                rw [hpname]
                exact ⟨hall, c, List.mem_cons_self _ _, fk, hfk, rfl⟩
              · rcases hdj x h with ⟨h1, c', hc', h2⟩
                exact ⟨h1, c', List.mem_cons_of_mem _ hc', h2⟩

/-- A duplicate-free list included in another is no longer than it. -/
theorem nodup_subset_length {l l' : List String} (hn : l.Nodup) (h : l ⊆ l') :
    l.length ≤ l'.length :=
  calc l.length = l.toFinset.card := (List.toFinset_card_of_nodup hn).symm
    _ ≤ l'.toFinset.card := Finset.card_le_card (by
        intro x hx
        rw [List.mem_toFinset] at hx ⊢
        exact h hx)
    _ ≤ l'.length := l'.toFinset_card_le

/-- If a stronger count matches a weaker count, every weak hit is a strong
hit. -/
theorem countP_full {A : Type} {p q : A → Bool} :
    ∀ {l : List A}, (∀ a ∈ l, p a = true → q a = true) →
      l.countP p = l.countP q → ∀ a ∈ l, q a = true → p a = true := by
  intro l
  induction l with
  | nil => intro _ _ a ha; cases ha
  | cons x rest ih =>
    intro himp hcnt a ha hqa
    rw [List.countP_cons, List.countP_cons] at hcnt
    have hle : rest.countP p ≤ rest.countP q :=
      List.countP_mono_left (fun a ha => himp a (List.mem_cons_of_mem _ ha))
    by_cases hpx : p x = true
    · rw [if_pos hpx, if_pos (himp x (List.mem_cons_self _ _) hpx)] at hcnt
      have hcnt' : rest.countP p = rest.countP q := by omega
      rcases List.mem_cons.mp ha with h | h
      · subst h; exact hpx
      · exact ih (fun a ha => himp a (List.mem_cons_of_mem _ ha)) hcnt' a h hqa
    · rw [if_neg hpx] at hcnt
      rcases List.mem_cons.mp ha with h | h
      · subst h
        rw [hqa] at hcnt
        simp only [if_pos] at hcnt
        omega
      · have hcnt' : rest.countP p = rest.countP q := by
          by_cases hqx : q x = true
          · rw [if_pos hqx] at hcnt; omega
          · rw [if_neg hqx] at hcnt; omega
        exact ih (fun a ha => himp a (List.mem_cons_of_mem _ ha)) hcnt' a h hqa

/-- A strict count gap yields a weak hit that is not a strong hit. -/
theorem countP_lt_witness {A : Type} {p q : A → Bool} :
    ∀ {l : List A}, l.countP p < l.countP q →
      ∃ a ∈ l, q a = true ∧ p a = false := by
  intro l
  induction l with
  | nil =>
    intro h
    rw [List.countP_nil, List.countP_nil] at h
    exact (Nat.lt_irrefl 0 h).elim
  | cons x rest ih =>
    intro h
    rw [List.countP_cons, List.countP_cons] at h
    by_cases hpx : p x = true
    · rw [if_pos hpx] at h
      have h' : rest.countP p < rest.countP q := by
        by_cases hqx : q x = true
        · rw [if_pos hqx] at h; omega
        · rw [if_neg hqx] at h; omega
      rcases ih h' with ⟨a, ha, h1, h2⟩
      exact ⟨a, List.mem_cons_of_mem _ ha, h1, h2⟩
    · rw [if_neg hpx] at h
      by_cases hqx : q x = true
      · by_cases h' : rest.countP p < rest.countP q
        · rcases ih h' with ⟨a, ha, h1, h2⟩
          exact ⟨a, List.mem_cons_of_mem _ ha, h1, h2⟩
        · refine ⟨x, List.mem_cons_self _ _, hqx, ?_⟩
          cases hv : p x with
          | true => exact absurd hv hpx
          | false => rfl
      · rw [if_neg hqx] at h
        rcases ih (by omega) with ⟨a, ha, h1, h2⟩
        exact ⟨a, List.mem_cons_of_mem _ ha, h1, h2⟩

/-- Counting a disjunction of disjoint predicates adds the counts. -/
theorem countP_or_disjoint {A : Type} {p q : A → Bool} :
    ∀ {l : List A}, (∀ a ∈ l, ¬(p a = true ∧ q a = true)) →
      l.countP (fun a => p a || q a) = l.countP p + l.countP q := by
  intro l
  induction l with
  | nil => intro _; rw [List.countP_nil, List.countP_nil, List.countP_nil]
  | cons x rest ih =>
    intro hdis
    rw [List.countP_cons, List.countP_cons, List.countP_cons,
      ih (fun a ha => hdis a (List.mem_cons_of_mem _ ha))]
    by_cases hpx : p x = true
    · have hqx : ¬ q x = true := fun hq => hdis x (List.mem_cons_self _ _) ⟨hpx, hq⟩
      rw [if_pos (by rw [hpx]; rfl), if_pos hpx, if_neg hqx]
      omega
    · by_cases hqx : q x = true
      · rw [if_pos (by rw [hqx, Bool.or_true]), if_neg hpx, if_pos hqx]
        omega
      · rw [if_neg (by rw [Bool.or_eq_true]; tauto), if_neg hpx, if_neg hqx]
        omega

/-- Index of a freshly appended element. -/
theorem indexOf_append_self {q : String} :
    ∀ {order : List String}, q ∉ order →
      (order ++ [q]).indexOf q = order.length := by
  intro order
  induction order with
  | nil => intro _; simp
  | cons a rest ih =>
    intro h
    rw [List.cons_append,
      List.indexOf_cons_ne _ (fun he => h (by rw [← he]; exact List.mem_cons_self _ _)),
      ih (fun hm => h (List.mem_cons_of_mem _ hm))]
    rfl

/-- Transitive FK reachability from the requested set through the known
table map — the semantic contract of the auto-include closure. -/
inductive Reachable (requested all : List Table) : String → Prop where
  | base (t : Table) (ht : t ∈ requested) : Reachable requested all t.name
  | step (m : String) (t : Table) (c : Column) (fk : ForeignKey)
      (hm : Reachable requested all m) (hft : findTable all m = some t)
      (hc : c ∈ t.columns) (hfk : c.fk = some fk)
      (htgt : (findTable all fk.referencedTable).isSome) :
      Reachable requested all fk.referencedTable

/-- The outer table scan of `closureOnce`: growth, name distinctness, and a
justifying scanned table for every appended table. -/
theorem outerFold_spec (all : List Table) :
    ∀ (scan acc : List Table),
      (acc.map (fun x => x.name)).Nodup →
      ∃ d, (scan.foldl
          (fun acc t =>
            t.columns.foldl
              (fun acc c =>
                match c.fk with
                | none => acc
                | some fk =>
                    if fk.referencedTable = t.name then acc
                    else if (findTable acc fk.referencedTable).isSome then acc
                    else
                      match findTable all fk.referencedTable with
                      | some parent => acc ++ [parent]
                      | none => acc)
              acc)
          acc) = acc ++ d ∧
        ((acc ++ d).map (fun x => x.name)).Nodup ∧
        ∀ x ∈ d, findTable all x.name = some x ∧
          ∃ t ∈ scan, ∃ c ∈ t.columns, ∃ fk, c.fk = some fk ∧
            fk.referencedTable = x.name := by
  intro scan
  induction scan with
  | nil =>
    intro acc hnd
    exact ⟨[], by simp, by simpa using hnd, fun x hx => by cases hx⟩
  | cons t rest ih =>
    intro acc hnd
    rw [List.foldl_cons]
    rcases innerFold_spec all t t.columns acc hnd with ⟨d₁, hd₁, hnd₁, hj₁⟩
    rw [hd₁]
    rcases ih (acc ++ d₁) hnd₁ with ⟨d₂, hd₂, hnd₂, hj₂⟩
    refine ⟨d₁ ++ d₂, by rw [hd₂, List.append_assoc], by
      rw [← List.append_assoc]; exact hnd₂, ?_⟩
    intro x hx
    rcases List.mem_append.mp hx with h | h
    · rcases hj₁ x h with ⟨h1, c, hc, fk, hfk, hr⟩
      exact ⟨h1, t, List.mem_cons_self _ _, c, hc, fk, hfk, hr⟩
    · rcases hj₂ x h with ⟨h1, t', ht', rest'⟩
      exact ⟨h1, t', List.mem_cons_of_mem _ ht', rest'⟩

/-- The invariant of the auto-include loop: the set extends the requested
prefix, names stay distinct, every member is the known table of its name,
and every member is reachable. -/
def ClosedInv (requested all ts : List Table) : Prop :=
  (∃ d, ts = requested ++ d) ∧
  (ts.map (fun x => x.name)).Nodup ∧
  (∀ x ∈ ts, findTable all x.name = some x) ∧
  (∀ x ∈ ts, Reachable requested all x.name)

theorem closureOnce_inv {requested all ts : List Table}
    (h : ClosedInv requested all ts) :
    ClosedInv requested all (closureOnce all ts) := by
  obtain ⟨⟨d₀, hd₀⟩, hnd, hknown, hreach⟩ := h
  rcases outerFold_spec all ts ts hnd with ⟨d, hd, hnd', hj⟩
  rw [closureOnce, hd]
  refine ⟨⟨d₀ ++ d, by rw [hd₀, List.append_assoc]⟩, hnd', ?_, ?_⟩
  · intro x hx
    rcases List.mem_append.mp hx with h | h
    · exact hknown x h
    · exact (hj x h).1
  · intro x hx
    rcases List.mem_append.mp hx with h | h
    · exact hreach x h
    · rcases hj x h with ⟨h1, t, ht, c, hc, fk, hfk, hr⟩
      have := @Reachable.step requested all t.name t c fk
        (hreach t ht) (hknown t ht) hc hfk (by rw [hr, h1]; rfl)
      rwa [hr] at this

theorem closeFix_inv {requested all : List Table} :
    ∀ (fuel : Nat) (ts : List Table), ClosedInv requested all ts →
      ClosedInv requested all (closeFix all fuel ts) := by
  intro fuel
  induction fuel with
  | zero => intro ts h; exact h
  | succ fuel ih =>
    intro ts h
    rw [closeFix]
    by_cases hl : (closureOnce all ts).length = ts.length
    · rw [if_pos hl]; exact h
    · rw [if_neg hl]; exact ih _ (closureOnce_inv h)

/-- The inner fold never removes elements (no hypotheses). -/
theorem innerFold_prefix (all : List Table) (t : Table) :
    ∀ (cols : List Column) (acc : List Table),
      ∃ d, (cols.foldl
          (fun acc c =>
            match c.fk with
            | none => acc
            | some fk =>
                if fk.referencedTable = t.name then acc
                else if (findTable acc fk.referencedTable).isSome then acc
                else
                  match findTable all fk.referencedTable with
                  | some parent => acc ++ [parent]
                  | none => acc)
          acc) = acc ++ d := by
  intro cols
  induction cols with
  | nil => intro acc; exact ⟨[], by simp⟩
  | cons c cs ih =>
    intro acc
    rw [List.foldl_cons]
    cases hfk : c.fk with
    | none => exact ih acc
    | some fk =>
      dsimp only
      by_cases hself : fk.referencedTable = t.name
      · rw [if_pos hself]; exact ih acc
      · rw [if_neg hself]
        by_cases hpres : (findTable acc fk.referencedTable).isSome
        · rw [if_pos hpres]; exact ih acc
        · rw [if_neg hpres]
          cases hall : findTable all fk.referencedTable with
          | none => exact ih acc
          | some parent =>
            rcases ih (acc ++ [parent]) with ⟨d, hd⟩
            exact ⟨parent :: d, by rw [hd, List.append_assoc]; rfl⟩

/-- The outer fold never removes elements. -/
theorem outerFold_prefix (all : List Table) :
    ∀ (scan acc : List Table),
      ∃ d, (scan.foldl
          (fun acc t =>
            t.columns.foldl
              (fun acc c =>
                match c.fk with
                | none => acc
                | some fk =>
                    if fk.referencedTable = t.name then acc
                    else if (findTable acc fk.referencedTable).isSome then acc
                    else
                      match findTable all fk.referencedTable with
                      | some parent => acc ++ [parent]
                      | none => acc)
              acc)
          acc) = acc ++ d := by
  intro scan
  induction scan with
  | nil => intro acc; exact ⟨[], by simp⟩
  | cons t rest ih =>
    intro acc
    rw [List.foldl_cons]
    rcases innerFold_prefix all t t.columns acc with ⟨d₁, hd₁⟩
    rw [hd₁]
    rcases ih (acc ++ d₁) with ⟨d₂, hd₂⟩
    exact ⟨d₁ ++ d₂, by rw [hd₂, List.append_assoc]⟩

/-- If one table's column scan adds nothing, every guard failed: each valid
out-reference already had its target present. -/
theorem innerFold_nogrow (all : List Table) (t : Table) :
    ∀ (cols : List Column) (acc : List Table),
      (cols.foldl
          (fun acc c =>
            match c.fk with
            | none => acc
            | some fk =>
                if fk.referencedTable = t.name then acc
                else if (findTable acc fk.referencedTable).isSome then acc
                else
                  match findTable all fk.referencedTable with
                  | some parent => acc ++ [parent]
                  | none => acc)
          acc) = acc →
      ∀ c ∈ cols, ∀ fk, c.fk = some fk → fk.referencedTable ≠ t.name →
        (findTable all fk.referencedTable).isSome →
        (findTable acc fk.referencedTable).isSome := by
  intro cols
  induction cols with
  | nil => intro acc _ c hc; cases hc
  | cons c cs ih =>
    intro acc heq c' hc' fk hfk hself htgt
    rw [List.foldl_cons] at heq
    rcases List.mem_cons.mp hc' with h | h
    · subst h
      rw [hfk] at heq
      dsimp only at heq
      rw [if_neg hself] at heq
      by_cases hpres : (findTable acc fk.referencedTable).isSome
      · exact hpres
      · rw [if_neg hpres] at heq
        cases hall : findTable all fk.referencedTable with
        | none => rw [hall] at htgt; cases htgt
        | some parent =>
          rw [hall] at heq
          rcases innerFold_prefix all t cs (acc ++ [parent]) with ⟨d, hd⟩
          rw [hd] at heq
          have := congrArg List.length heq
          simp [List.length_append] at this
    · cases hcfk : c.fk with
      | none =>
        rw [hcfk] at heq
        exact ih acc heq c' h fk hfk hself htgt
      | some fk₀ =>
        rw [hcfk] at heq
        dsimp only at heq
        by_cases hself₀ : fk₀.referencedTable = t.name
        · rw [if_pos hself₀] at heq
          exact ih acc heq c' h fk hfk hself htgt
        · rw [if_neg hself₀] at heq
          by_cases hpres₀ : (findTable acc fk₀.referencedTable).isSome
          · rw [if_pos hpres₀] at heq
            exact ih acc heq c' h fk hfk hself htgt
          · rw [if_neg hpres₀] at heq
            cases hall₀ : findTable all fk₀.referencedTable with
            | none =>
              rw [hall₀] at heq
              exact ih acc heq c' h fk hfk hself htgt
            | some parent =>
              rw [hall₀] at heq
              rcases innerFold_prefix all t cs (acc ++ [parent]) with ⟨d, hd⟩
              rw [hd] at heq
              have := congrArg List.length heq
              simp [List.length_append] at this

/-- If the whole pass adds nothing, no scanned table's scan added
anything. -/
theorem outerFold_nogrow (all : List Table) :
    ∀ (scan acc : List Table),
      (scan.foldl
          (fun acc t =>
            t.columns.foldl
              (fun acc c =>
                match c.fk with
                | none => acc
                | some fk =>
                    if fk.referencedTable = t.name then acc
                    else if (findTable acc fk.referencedTable).isSome then acc
                    else
                      match findTable all fk.referencedTable with
                      | some parent => acc ++ [parent]
                      | none => acc)
              acc)
          acc) = acc →
      ∀ t ∈ scan,
        (t.columns.foldl
            (fun acc c =>
              match c.fk with
              | none => acc
              | some fk =>
                  if fk.referencedTable = t.name then acc
                  else if (findTable acc fk.referencedTable).isSome then acc
                  else
                    match findTable all fk.referencedTable with
                    | some parent => acc ++ [parent]
                    | none => acc)
            acc) = acc := by
  intro scan
  induction scan with
  | nil => intro acc _ t ht; cases ht
  | cons t₀ rest ih =>
    intro acc heq t ht
    rw [List.foldl_cons] at heq
    rcases innerFold_prefix all t₀ t₀.columns acc with ⟨d₁, hd₁⟩
    rw [hd₁] at heq
    have heq2 := heq
    rcases outerFold_prefix all rest (acc ++ d₁) with ⟨d₂, hd₂⟩
    rw [hd₂] at heq2
    have hlen := congrArg List.length heq2
    simp [List.length_append] at hlen
    have hd₁nil : d₁ = [] := hlen.1
    rcases List.mem_cons.mp ht with h | h
    · subst h
      rw [hd₁nil] at hd₁
      simpa using hd₁
    · rw [hd₁nil, List.append_nil] at heq
      exact ih acc heq t h

/-- A length-stable pass is the identity. -/
theorem closureOnce_stable {all ts : List Table}
    (h : (closureOnce all ts).length = ts.length) : closureOnce all ts = ts := by
  rcases outerFold_prefix all ts ts with ⟨d, hd⟩
  rw [closureOnce] at *
  rw [hd] at h ⊢
  rw [List.length_append] at h
  have : d = [] := List.eq_nil_of_length_eq_zero (by omega)
  rw [this, List.append_nil]

/-- The fixed-point property of the closed set: every valid out-reference
of a member has its target in the set. -/
def ClosureFixed (all ts : List Table) : Prop :=
  ∀ t ∈ ts, ∀ c ∈ t.columns, ∀ fk, c.fk = some fk →
    fk.referencedTable ≠ t.name → (findTable all fk.referencedTable).isSome →
    fk.referencedTable ∈ ts.map (fun x => x.name)

theorem closureOnce_eq_fixed {all ts : List Table}
    (h : closureOnce all ts = ts) : ClosureFixed all ts := by
  intro t ht c hc fk hfk hself htgt
  rw [closureOnce] at h
  have hin := outerFold_nogrow all ts ts h t ht
  have := innerFold_nogrow all t t.columns ts hin c hc fk hfk hself htgt
  exact (findTable_isSome_iff ts fk.referencedTable).mp this

theorem closeFix_fixed {requested all : List Table} :
    ∀ (fuel : Nat) (ts : List Table), ClosedInv requested all ts →
      all.length < ts.length + fuel →
      ClosureFixed all (closeFix all fuel ts) := by
  intro fuel
  induction fuel with
  | zero =>
    intro ts h hfuel
    obtain ⟨_, hnd, hknown, _⟩ := h
    have hsub : (ts.map (fun x => x.name)) ⊆ (all.map (fun x => x.name)) := by
      intro n hn
      rcases List.mem_map.mp hn with ⟨x, hx, hxn⟩
      subst hxn
      rcases findTable_some (hknown x hx) with ⟨hmem, _⟩
      exact List.mem_map.mpr ⟨x, hmem, rfl⟩
    have := nodup_subset_length hnd hsub
    simp only [List.length_map] at this
    omega
  | succ fuel ih =>
    intro ts h hfuel
    rw [closeFix]
    by_cases hl : (closureOnce all ts).length = ts.length
    · rw [if_pos hl]
      exact closureOnce_eq_fixed (closureOnce_stable hl)
    · rw [if_neg hl]
      refine ih _ (closureOnce_inv h) ?_
      rcases outerFold_prefix all ts ts with ⟨d, hd⟩
      rw [closureOnce] at hl ⊢
      rw [hd] at hl ⊢
      rw [List.length_append] at hl ⊢
      have : d ≠ [] := fun hnil => hl (by rw [hnil]; simp)
      have : 1 ≤ d.length := by
        cases d with
        | nil => exact absurd rfl this
        | cons _ _ => simp
      omega

theorem closedTables_inv {requested all : List Table}
    (hreqnd : (requested.map (fun x => x.name)).Nodup)
    (hreqsub : ∀ t ∈ requested, findTable all t.name = some t) :
    ClosedInv requested all (closedTables requested all) :=
  closeFix_inv _ _ ⟨⟨[], by simp⟩, hreqnd, hreqsub, fun t ht => .base t ht⟩

theorem closedTables_fixed {requested all : List Table}
    (hreqnd : (requested.map (fun x => x.name)).Nodup)
    (hreqsub : ∀ t ∈ requested, findTable all t.name = some t) :
    ClosureFixed all (closedTables requested all) :=
  closeFix_fixed _ _ ⟨⟨[], by simp⟩, hreqnd, hreqsub, fun t ht => .base t ht⟩
    (by omega)

/-- Every reachable name lands in the closed set. -/
theorem reach_complete {requested all : List Table}
    (hreqnd : (requested.map (fun x => x.name)).Nodup)
    (hreqsub : ∀ t ∈ requested, findTable all t.name = some t) :
    ∀ n, Reachable requested all n →
      n ∈ (closedTables requested all).map (fun x => x.name) := by
  obtain ⟨⟨D, hD⟩, hnd, hknown, hreach⟩ := closedTables_inv hreqnd hreqsub
  have hfix := closedTables_fixed hreqnd hreqsub
  intro n hn
  induction hn with
  | base t ht =>
    exact List.mem_map.mpr ⟨t, by rw [hD]; exact List.mem_append_left _ ht, rfl⟩
  | step m t c fk hm hft hc hfk htgt ih =>
    rcases List.mem_map.mp ih with ⟨x, hx, hxn⟩
    have hxk := hknown x hx
    rw [hxn, hft] at hxk
    have hxt : x = t := by injection hxk with h; exact h.symm
    subst hxt
    by_cases hself : fk.referencedTable = x.name
    · rw [hself, hxn]; exact ih
    · exact hfix x hx c hc fk hfk hself htgt

/-- The auto-included list is exactly the reachable-but-not-requested
names. -/
theorem autoIncluded_iff {requested all : List Table}
    (hreqnd : (requested.map (fun x => x.name)).Nodup)
    (hreqsub : ∀ t ∈ requested, findTable all t.name = some t) :
    ∀ n, n ∈ autoIncludedOf requested all ↔
      Reachable requested all n ∧ ¬ n ∈ requested.map (fun x => x.name) := by
  obtain ⟨⟨D, hD⟩, hnd, hknown, hreach⟩ := closedTables_inv hreqnd hreqsub
  have hdrop : (closedTables requested all).drop requested.length = D := by
    rw [hD]; exact List.drop_left _ _
  have hsplit : (closedTables requested all).map (fun x => x.name) =
      requested.map (fun x => x.name) ++ D.map (fun x => x.name) := by
    rw [hD, List.map_append]
  have hdisj := hsplit ▸ hnd
  rw [List.nodup_append] at hdisj
  intro n
  rw [autoIncludedOf, hdrop]
  constructor
  · intro hn
    rcases List.mem_map.mp hn with ⟨x, hx, hxn⟩
    refine ⟨hxn ▸ hreach x (by rw [hD]; exact List.mem_append_right _ hx), ?_⟩
    intro hr
    exact hdisj.2.2 hr (hxn ▸ List.mem_map.mpr ⟨x, hx, rfl⟩)
  · rintro ⟨hr, hnr⟩
    have := reach_complete hreqnd hreqsub n hr
    rw [hsplit] at this
    rcases List.mem_append.mp this with h | h
    · exact absurd h hnr
    · exact h

/-- Membership characterization of the FK edge list. -/
theorem mem_edgeList {S : List Table} {p c : String} :
    (p, c) ∈ edgeList S ↔
      ∃ t ∈ S, t.name = c ∧ ∃ col ∈ t.columns, ∃ fk, col.fk = some fk ∧
        fk.referencedTable = p ∧ p ≠ c ∧ (findTable S p).isSome := by
  rw [edgeList, List.mem_flatMap]
  constructor
  · rintro ⟨t, ht, hmem⟩
    rcases List.mem_filterMap.mp hmem with ⟨col, hcol, hcv⟩
    cases hfk : col.fk with
    | none => rw [hfk] at hcv; cases hcv
    | some fk =>
      rw [hfk] at hcv
      dsimp only at hcv
      by_cases hself : fk.referencedTable = t.name
      · rw [if_pos hself] at hcv; cases hcv
      · rw [if_neg hself] at hcv
        by_cases hpres : (findTable S fk.referencedTable).isSome
        · rw [if_pos hpres] at hcv
          injection hcv with hcv
          have h1 : fk.referencedTable = p := congrArg Prod.fst hcv
          have h2 : t.name = c := congrArg Prod.snd hcv
          exact ⟨t, ht, h2, col, hcol, fk, hfk, h1, by rw [← h1, ← h2]; exact hself,
            h1 ▸ hpres⟩
        · rw [if_neg hpres] at hcv; cases hcv
  · rintro ⟨t, ht, hname, col, hcol, fk, hfk, hrt, hne, hpres⟩
    refine ⟨t, ht, List.mem_filterMap.mpr ⟨col, hcol, ?_⟩⟩
    rw [hfk]
    dsimp only
    rw [if_neg (by rw [hrt, hname]; exact hne), if_pos (by rw [hrt]; exact hpres),
      hrt, hname]

/-- Edge endpoints are names of the set. -/
theorem edgeList_endpoints {S : List Table} {p c : String}
    (h : (p, c) ∈ edgeList S) :
    p ∈ S.map (fun t => t.name) ∧ c ∈ S.map (fun t => t.name) := by
  rcases mem_edgeList.mp h with ⟨t, ht, hname, _, _, _, _, _, _, hpres⟩
  exact ⟨(findTable_isSome_iff S p).mp hpres, List.mem_map.mpr ⟨t, ht, hname⟩⟩

/-- The FK parent→child edge relation of a table set. -/
def edgeRel (S : List Table) (p c : String) : Prop := (p, c) ∈ edgeList S

/-- Edges into `n` whose source was already emitted. -/
def eCnt (S : List Table) (O : List String) (n : String) : Nat :=
  (edgeList S).countP (fun e => decide (e.2 = n) && decide (e.1 ∈ O))

/-- Edges from `q` into `n`. -/
def qCnt (S : List Table) (q n : String) : Nat :=
  (edgeList S).countP (fun e => decide (e.2 = n) && decide (e.1 = q))

theorem eCnt_nil (S : List Table) (n : String) : eCnt S [] n = 0 := by
  rw [eCnt]
  induction edgeList S with
  | nil => rfl
  | cons e rest ih => rw [List.countP_cons]; simp [ih]

theorem inDeg_eq_countP (S : List Table) (n : String) :
    inDeg S n = (edgeList S).countP (fun e => decide (e.2 = n)) := by
  rw [inDeg, List.countP_eq_length_filter]

theorem eCnt_le_inDeg (S : List Table) (O : List String) (n : String) :
    eCnt S O n ≤ inDeg S n := by
  rw [eCnt, inDeg_eq_countP]
  exact List.countP_mono_left (fun e _ h => (Bool.and_eq_true _ _ ▸ h).1)

theorem eCnt_mono (S : List Table) (O : List String) (q n : String) :
    eCnt S O n ≤ eCnt S (O ++ [q]) n := by
  rw [eCnt, eCnt]
  refine List.countP_mono_left (fun e _ h => ?_)
  simp only [Bool.and_eq_true, decide_eq_true_eq] at h ⊢
  exact ⟨h.1, List.mem_append_left _ h.2⟩

theorem eCnt_append_one (S : List Table) {O : List String} {q : String}
    (hq : q ∉ O) (n : String) :
    eCnt S (O ++ [q]) n = eCnt S O n + qCnt S q n := by
  rw [eCnt, eCnt, qCnt]
  have hcg : (edgeList S).countP
      (fun e => decide (e.2 = n) && decide (e.1 ∈ O ++ [q])) =
      (edgeList S).countP (fun e =>
        (decide (e.2 = n) && decide (e.1 ∈ O)) ||
        (decide (e.2 = n) && decide (e.1 = q))) :=
    List.countP_congr (fun e _ => by
      simp only [Bool.and_eq_true, Bool.or_eq_true, decide_eq_true_eq,
        List.mem_append, List.mem_singleton]
      tauto)
  rw [hcg]
  exact countP_or_disjoint (fun e _ hc => by
    simp only [Bool.and_eq_true, decide_eq_true_eq] at hc
    exact hq (hc.2.2 ▸ hc.1.2))

theorem childrenOf_count (S : List Table) (q n : String) :
    (childrenOf S q).count n = qCnt S q n := by
  rw [childrenOf, qCnt, List.count, List.countP_map, List.countP_filter]
  refine List.countP_congr (fun e _ => ?_)
  simp only [Function.comp_apply, Bool.and_eq_true, decide_eq_true_eq, beq_iff_eq]

/-- The child-decrement fold of one Kahn pop: final degrees drop by the
occurrence count, and the enqueued children are exactly those whose degree
crossed to zero, each exactly once. -/
theorem kahnFold_spec :
    ∀ (cs : List String) (deg : String → Int) (qs : List String),
      (∀ n, (cs.foldl
          (fun (acc : (String → Int) × List String) c =>
            let d' := fun n => if n = c then acc.1 n - 1 else acc.1 n
            if d' c = 0 then (d', acc.2 ++ [c]) else (d', acc.2))
          (deg, qs)).1 n = deg n - (cs.count n : Int)) ∧
      ∃ app, (cs.foldl
          (fun (acc : (String → Int) × List String) c =>
            let d' := fun n => if n = c then acc.1 n - 1 else acc.1 n
            if d' c = 0 then (d', acc.2 ++ [c]) else (d', acc.2))
          (deg, qs)).2 = qs ++ app ∧ app.Nodup ∧
        ∀ x, x ∈ app ↔ (1 ≤ deg x ∧ deg x ≤ (cs.count x : Int)) := by
  intro cs
  induction cs with
  | nil =>
    intro deg qs
    refine ⟨fun n => by simp, [], by simp, List.nodup_nil, fun x => ?_⟩
    simp only [List.not_mem_nil, false_iff, List.count_nil]
    intro h
    omega
  | cons c cs ih =>
    intro deg qs
    rw [List.foldl_cons]
    dsimp only
    rw [show (if c = c then deg c - 1 else deg c) = deg c - 1 from if_pos rfl]
    by_cases hz : deg c - 1 = 0
    · rw [if_pos hz]
      rcases ih (fun n => if n = c then deg n - 1 else deg n) (qs ++ [c]) with
        ⟨hdeg, app, happ, hnd, hmem⟩
      refine ⟨fun n => ?_, c :: app, ?_, ?_, fun x => ?_⟩
      · rw [hdeg n]
        by_cases hnc : n = c
        · subst hnc
          rw [List.count_cons_self, if_pos rfl]
          push_cast
          omega
        · rw [List.count_cons_of_ne hnc, if_neg hnc]
      · rw [happ, List.append_assoc]
        rfl
      · refine List.Nodup.cons (fun hc => ?_) hnd
        have := (hmem c).mp hc
        rw [if_pos rfl] at this
        omega
      · rw [List.mem_cons, hmem x]
        by_cases hxc : x = c
        · subst hxc
          rw [if_pos rfl, List.count_cons_self]
          constructor
          · intro _
            push_cast
            omega
          · intro _
            exact Or.inl rfl
        · rw [if_neg hxc, List.count_cons_of_ne hxc]
          constructor
          · rintro (h | h)
            · exact absurd h hxc
            · exact h
          · intro h
            exact Or.inr h
    · rw [if_neg hz]
      rcases ih (fun n => if n = c then deg n - 1 else deg n) qs with
        ⟨hdeg, app, happ, hnd, hmem⟩
      refine ⟨fun n => ?_, app, happ, hnd, fun x => ?_⟩
      · rw [hdeg n]
        by_cases hnc : n = c
        · subst hnc
          rw [List.count_cons_self, if_pos rfl]
          push_cast
          omega
        · rw [List.count_cons_of_ne hnc, if_neg hnc]
      · rw [hmem x]
        by_cases hxc : x = c
        · subst hxc
          rw [if_pos rfl, List.count_cons_self]
          push_cast
          omega
        · rw [if_neg hxc, List.count_cons_of_ne hxc]

/-- The topological-order contract: each emitted child comes strictly
after each of its in-set parents. -/
def TopoOk (S : List Table) (o : List String) : Prop :=
  ∀ p c, (p, c) ∈ edgeList S → c ∈ o →
    p ∈ o ∧ o.indexOf p < o.indexOf c

/-- The Kahn loop invariant. -/
def KInv (S : List Table) (queue : List String) (deg : String → Int)
    (order : List String) : Prop :=
  (∀ n, deg n = (inDeg S n : Int) - (eCnt S order n : Int)) ∧
  (order ++ queue).Nodup ∧
  (∀ x ∈ order ++ queue, x ∈ S.map (fun t => t.name)) ∧
  (∀ x ∈ order ++ queue, eCnt S order x = inDeg S x) ∧
  TopoOk S order

/-- Unprocessed nodes still wait on an unemitted parent. -/
def KFresh (S : List Table) (queue : List String) (deg : String → Int)
    (order : List String) : Prop :=
  ∀ u ∈ S.map (fun t => t.name), u ∉ order ++ queue → 1 ≤ deg u

theorem kahn_step {S : List Table} {q : String} {qs : List String}
    {deg : String → Int} {order : List String}
    (hinv : KInv S (q :: qs) deg order) (hfr : KFresh S (q :: qs) deg order) :
    KInv S ((childrenOf S q).foldl
        (fun (acc : (String → Int) × List String) c =>
          let d' := fun n => if n = c then acc.1 n - 1 else acc.1 n
          if d' c = 0 then (d', acc.2 ++ [c]) else (d', acc.2))
        (deg, qs)).2
      ((childrenOf S q).foldl
        (fun (acc : (String → Int) × List String) c =>
          let d' := fun n => if n = c then acc.1 n - 1 else acc.1 n
          if d' c = 0 then (d', acc.2 ++ [c]) else (d', acc.2))
        (deg, qs)).1 (order ++ [q]) ∧
    KFresh S ((childrenOf S q).foldl
        (fun (acc : (String → Int) × List String) c =>
          let d' := fun n => if n = c then acc.1 n - 1 else acc.1 n
          if d' c = 0 then (d', acc.2 ++ [c]) else (d', acc.2))
        (deg, qs)).2
      ((childrenOf S q).foldl
        (fun (acc : (String → Int) × List String) c =>
          let d' := fun n => if n = c then acc.1 n - 1 else acc.1 n
          if d' c = 0 then (d', acc.2 ++ [c]) else (d', acc.2))
        (deg, qs)).1 (order ++ [q]) := by
  obtain ⟨h1, h2, h3, h4, h5⟩ := hinv
  obtain ⟨hdeg, app, happ, hndapp, hmem⟩ := kahnFold_spec (childrenOf S q) deg qs
  have hqno : q ∉ order := by
    rcases List.nodup_append.mp h2 with ⟨_, _, hdisj⟩
    exact fun hq => hdisj hq (List.mem_cons_self q qs)
  have hqmem : q ∈ order ++ q :: qs :=
    List.mem_append_right _ (List.mem_cons_self _ _)
  have hdeg' : ∀ n, ((childrenOf S q).foldl
      (fun (acc : (String → Int) × List String) c =>
        let d' := fun n => if n = c then acc.1 n - 1 else acc.1 n
        if d' c = 0 then (d', acc.2 ++ [c]) else (d', acc.2))
      (deg, qs)).1 n = (inDeg S n : Int) - (eCnt S (order ++ [q]) n : Int) := by
    intro n
    rw [hdeg n, h1 n, childrenOf_count, eCnt_append_one S hqno]
    push_cast
    omega
  have hzero : ∀ x ∈ order ++ q :: qs, deg x = 0 := by
    intro x hx
    have := h4 x hx
    rw [h1 x]
    omega
  have happfresh : ∀ x ∈ app, x ∉ order ++ q :: qs := by
    intro x hx hxm
    have h1le := ((hmem x).mp hx).1
    have := hzero x hxm
    omega
  have happmemS : ∀ x ∈ app, x ∈ S.map (fun t => t.name) := by
    intro x hx
    have hcnt := (hmem x).mp hx
    have hpos : 0 < (childrenOf S q).count x := by
      have hc1 := hcnt.1
      have hc2 := hcnt.2
      omega
    have hxch : x ∈ childrenOf S q := List.count_pos_iff.mp hpos
    rw [childrenOf] at hxch
    rcases List.mem_map.mp hxch with ⟨e, he, hex⟩
    obtain ⟨p', c'⟩ := e
    have hef := List.mem_filter.mp he
    exact hex ▸ (edgeList_endpoints hef.1).2
  have holdnew : ∀ x ∈ order ++ q :: qs, x ∈ (order ++ [q]) ++ (qs ++ app) := by
    intro x hx
    rcases List.mem_append.mp hx with h | h
    · exact List.mem_append_left _ (List.mem_append_left _ h)
    · rcases List.mem_cons.mp h with h | h
      · exact List.mem_append_left _ (List.mem_append_right _ (h ▸ List.mem_singleton.mpr rfl))
      · exact List.mem_append_right _ (List.mem_append_left _ h)
  rw [happ]
  refine ⟨⟨hdeg', ?_, ?_, ?_, ?_⟩, ?_⟩
  · rw [← List.append_assoc, List.append_assoc order [q] qs, List.singleton_append]
    rw [List.nodup_append]
    refine ⟨h2, hndapp, ?_⟩
    intro a ha hb
    exact happfresh a hb ha
  · intro x hx
    rcases List.mem_append.mp hx with h | h
    · rcases List.mem_append.mp h with h | h
      · exact h3 x (List.mem_append_left _ h)
      · rw [List.mem_singleton] at h
        exact h3 x (h ▸ hqmem)
    · rcases List.mem_append.mp h with h | h
      · exact h3 x (List.mem_append_right _ (List.mem_cons_of_mem _ h))
      · exact happmemS x h
  · intro x hx
    rcases List.mem_append.mp hx with h | h
    · have hxold : x ∈ order ++ q :: qs := by
        rcases List.mem_append.mp h with h | h
        · exact List.mem_append_left _ h
        · rw [List.mem_singleton] at h
          exact h ▸ hqmem
      have := h4 x hxold
      have hm := eCnt_mono S order q x
      have hle := eCnt_le_inDeg S (order ++ [q]) x
      omega
    · rcases List.mem_append.mp h with h | h
      · have hxold : x ∈ order ++ q :: qs :=
          List.mem_append_right _ (List.mem_cons_of_mem _ h)
        have := h4 x hxold
        have hm := eCnt_mono S order q x
        have hle := eCnt_le_inDeg S (order ++ [q]) x
        omega
      · have hcnt := (hmem x).mp h
        have hfold := hdeg' x
        rw [hdeg x] at hfold
        have hle := eCnt_le_inDeg S (order ++ [q]) x
        have hc2 := hcnt.2
        omega
  · intro p c hedge hc
    rcases List.mem_append.mp hc with h | h
    · obtain ⟨hp, hidx⟩ := h5 p c hedge h
      exact ⟨List.mem_append_left _ hp, by
        rw [List.indexOf_append_of_mem hp, List.indexOf_append_of_mem h]
        exact hidx⟩
    · rw [List.mem_singleton] at h
      subst h
      have hcnteq := h4 c hqmem
      rw [eCnt, inDeg_eq_countP] at hcnteq
      have hpin : p ∈ order := by
        have := @countP_full (String × String)
          (fun e => decide (e.2 = c) && decide (e.1 ∈ order))
          (fun e => decide (e.2 = c)) (edgeList S)
          (fun e _ hh => (Bool.and_eq_true _ _ ▸ hh).1) hcnteq
          (p, c) hedge (by rw [decide_eq_true_eq])
        simp only [Bool.and_eq_true, decide_eq_true_eq] at this
        exact this.2
      exact ⟨List.mem_append_left _ hpin, by
        rw [List.indexOf_append_of_mem hpin, indexOf_append_self hqno]
        exact List.indexOf_lt_length.mpr hpin⟩
  · intro u huS hu
    have huold : u ∉ order ++ q :: qs := fun hx => hu (holdnew u hx)
    have h1le := hfr u huS huold
    have huapp : u ∉ app := fun hx =>
      hu (List.mem_append_right _ (List.mem_append_right _ hx))
    have hniff := (hmem u).not.mp huapp
    rw [hdeg u]
    by_cases hcu : deg u ≤ ((childrenOf S q).count u : Int)
    · exact absurd ⟨h1le, hcu⟩ hniff
    · omega

/-- A finite nonempty set in which every node has an in-set predecessor
contains a cycle. -/
theorem cycle_of_all_preds {R : String → String → Prop} (U : List String)
    (hne : U ≠ []) (hstep : ∀ u ∈ U, ∃ p, p ∈ U ∧ R p u) :
    ∃ n, Relation.TransGen R n n := by
  classical
  obtain ⟨f, hf⟩ : ∃ f : String → String, ∀ u ∈ U, f u ∈ U ∧ R (f u) u := by
    refine ⟨fun u => if h : u ∈ U then (hstep u h).choose else u, ?_⟩
    intro u hu
    simp only [dif_pos hu]
    exact (hstep u hu).choose_spec
  obtain ⟨u₀, hu₀⟩ : ∃ u, u ∈ U := by
    cases U with
    | nil => exact absurd rfl hne
    | cons a t => exact ⟨a, List.mem_cons_self _ _⟩
  have hiter : ∀ k, f^[k] u₀ ∈ U := by
    intro k
    induction k with
    | zero => exact hu₀
    | succ k ihk =>
      rw [Function.iterate_succ_apply']
      exact (hf _ ihk).1
  have hR : ∀ k, R (f^[k + 1] u₀) (f^[k] u₀) := by
    intro k
    rw [Function.iterate_succ_apply']
    exact (hf _ (hiter k)).2
  have hchain : ∀ k i, 1 ≤ k → Relation.TransGen R (f^[i + k] u₀) (f^[i] u₀) := by
    intro k
    induction k with
    | zero => intro i h; exact absurd h (by omega)
    | succ k ihk =>
      intro i _
      cases Nat.eq_zero_or_pos k with
      | inl h0 =>
        subst h0
        exact Relation.TransGen.single (hR i)
      | inr hpos =>
        have hstep' := ihk (i + 1) hpos
        rw [show i + 1 + k = i + (k + 1) by omega] at hstep'
        exact Relation.TransGen.tail hstep' (hR i)
  have hmap : ∀ k ∈ Finset.range (U.length + 1), f^[k] u₀ ∈ U.toFinset := by
    intro k _
    rw [List.mem_toFinset]
    exact hiter k
  have hcard : U.toFinset.card < (Finset.range (U.length + 1)).card := by
    rw [Finset.card_range]
    exact Nat.lt_succ_of_le U.toFinset_card_le
  obtain ⟨i, _, j, _, hij, hfij⟩ :=
    Finset.exists_ne_map_eq_of_card_lt_of_maps_to hcard hmap
  rcases Nat.lt_or_ge i j with h | h
  · have hc := hchain (j - i) i (by omega)
    rw [show i + (j - i) = j by omega] at hc
    rw [hfij] at hc
    exact ⟨f^[j] u₀, hc⟩
  · have hlt : j < i := by omega
    have hc := hchain (i - j) j (by omega)
    rw [show j + (i - j) = i by omega] at hc
    rw [hfij] at hc
    exact ⟨f^[j] u₀, hc⟩

theorem kahnLoop_run (S : List Table) :
    ∀ (fuel : Nat) (queue : List String) (deg : String → Int)
      (order : List String),
      KInv S queue deg order → KFresh S queue deg order →
      S.length + 1 ≤ fuel + order.length →
      (kahnLoop (childrenOf S) fuel queue deg order).Nodup ∧
      (∀ x ∈ kahnLoop (childrenOf S) fuel queue deg order,
        x ∈ S.map (fun t => t.name)) ∧
      TopoOk S (kahnLoop (childrenOf S) fuel queue deg order) ∧
      ((∀ x ∈ S.map (fun t => t.name),
          x ∈ kahnLoop (childrenOf S) fuel queue deg order) ∨
        ∃ n, Relation.TransGen (edgeRel S) n n) := by
  intro fuel
  induction fuel with
  | zero =>
    intro queue deg order hinv _ hfuel
    exfalso
    obtain ⟨_, h2, h3, _, _⟩ := hinv
    have hsub : order ⊆ S.map (fun t => t.name) :=
      fun x hx => h3 x (List.mem_append_left _ hx)
    have hnd : order.Nodup := (List.nodup_append.mp h2).1
    have := nodup_subset_length hnd hsub
    rw [List.length_map] at this
    omega
  | succ fuel ih =>
    intro queue deg order hinv hfr hfuel
    cases queue with
    | nil =>
      rw [kahnLoop]
      obtain ⟨h1, h2, h3, h4, h5⟩ := hinv
      rw [List.append_nil] at h2 h3
      refine ⟨h2, h3, h5, ?_⟩
      by_cases hall : ∀ x ∈ S.map (fun t => t.name), x ∈ order
      · exact Or.inl hall
      · push_neg at hall
        obtain ⟨u₀, hu₀S, hu₀o⟩ := hall
        right
        have hUmem : ∀ u, u ∈ (S.map (fun t => t.name)).filter
              (fun n => !(order.contains n)) ↔
            u ∈ S.map (fun t => t.name) ∧ u ∉ order := by
          intro u
          rw [List.mem_filter]
          simp
        have hUne : (S.map (fun t => t.name)).filter
            (fun n => !(order.contains n)) ≠ [] := by
          intro hnil
          have := (hUmem u₀).mpr ⟨hu₀S, hu₀o⟩
          rw [hnil] at this
          cases this
        refine cycle_of_all_preds _ hUne ?_
        intro u hu
        obtain ⟨huS, huo⟩ := (hUmem u).mp hu
        have h1u := h1 u
        have hfru := hfr u huS (by rw [List.append_nil]; exact huo)
        have hlt : eCnt S order u < inDeg S u := by omega
        rw [eCnt, inDeg_eq_countP] at hlt
        rcases countP_lt_witness hlt with ⟨e, he, hq, hp⟩
        rw [decide_eq_true_eq] at hq
        have hpno : e.1 ∉ order := by
          rw [Bool.and_eq_false_iff] at hp
          rcases hp with hp | hp
          · rw [decide_eq_false_iff_not] at hp
            exact absurd hq hp
          · rw [decide_eq_false_iff_not] at hp
            exact hp
        obtain ⟨p', c'⟩ := e
        dsimp only at hq hpno
        subst hq
        exact ⟨p', (hUmem p').mpr ⟨(edgeList_endpoints he).1, hpno⟩, he⟩
    | cons q qs =>
      rw [kahnLoop]
      obtain ⟨hstep_inv, hstep_fr⟩ := kahn_step hinv hfr
      have := ih _ _ _ hstep_inv hstep_fr (by
        rw [List.length_append]
        simp only [List.length_singleton]
        omega)
      exact this

theorem kahnOrder_run (S : List Table)
    (hS : (S.map (fun t => t.name)).Nodup) :
    (kahnOrder S).Nodup ∧
    (∀ x ∈ kahnOrder S, x ∈ S.map (fun t => t.name)) ∧
    TopoOk S (kahnOrder S) ∧
    ((∀ x ∈ S.map (fun t => t.name), x ∈ kahnOrder S) ∨
      ∃ n, Relation.TransGen (edgeRel S) n n) := by
  have h := kahnLoop_run S (S.length + (edgeList S).length + 1)
    ((S.map (fun t => t.name)).filter (fun n => decide ((inDeg S n : Int) = 0)))
    (fun n => (inDeg S n : Int)) []
    ?_ ?_ ?_
  · exact h
  · refine ⟨fun n => by rw [eCnt_nil]; push_cast; omega, ?_, ?_, ?_, ?_⟩
    · rw [List.nil_append]
      exact hS.filter _
    · intro x hx
      rw [List.nil_append, List.mem_filter] at hx
      exact hx.1
    · intro x hx
      rw [List.nil_append, List.mem_filter] at hx
      rw [eCnt_nil]
      have := hx.2
      rw [decide_eq_true_eq] at this
      omega
    · intro p c _ hc
      cases hc
  · intro u huS hu
    rw [List.nil_append] at hu
    have : ¬ (decide ((inDeg S u : Int) = 0) = true) := by
      intro hd
      exact hu (List.mem_filter.mpr ⟨huS, hd⟩)
    rw [decide_eq_true_eq] at this
    show 1 ≤ (inDeg S u : Int)
    omega
  · omega

/-- C1: on an acyclic closed FK graph, `Resolve` succeeds; the order lists
each closed-set table exactly once, each strictly after its in-set parents;
the auto-included list is exactly the reachable-but-unrequested names. -/
theorem Resolve_acyclic_correct (requested all : List Table)
    (hreqnd : (requested.map (fun x => x.name)).Nodup)
    (hreqsub : ∀ t ∈ requested, findTable all t.name = some t)
    (hacyc : ∀ n,
      ¬ Relation.TransGen (edgeRel (closedTables requested all)) n n) :
    Resolve requested all =
      .ok (kahnOrder (closedTables requested all),
        autoIncludedOf requested all) ∧
    (kahnOrder (closedTables requested all)).Nodup ∧
    (∀ n, n ∈ kahnOrder (closedTables requested all) ↔
      n ∈ (closedTables requested all).map (fun t => t.name)) ∧
    (∀ p c, (p, c) ∈ edgeList (closedTables requested all) →
      p ∈ kahnOrder (closedTables requested all) ∧
      (kahnOrder (closedTables requested all)).indexOf p <
        (kahnOrder (closedTables requested all)).indexOf c) ∧
    (∀ n, n ∈ autoIncludedOf requested all ↔
      Reachable requested all n ∧
        ¬ n ∈ requested.map (fun x => x.name)) := by
  obtain ⟨_, hS, _, _⟩ := closedTables_inv hreqnd hreqsub
  obtain ⟨hnd, hmemb, htopo, hcomp⟩ := kahnOrder_run (closedTables requested all) hS
  rcases hcomp with hcomp | ⟨n, hcyc⟩
  · have hlen : (kahnOrder (closedTables requested all)).length =
        (closedTables requested all).length := by
      have h1 := nodup_subset_length hnd hmemb
      have h2 := nodup_subset_length hS hcomp
      rw [List.length_map] at h1 h2
      omega
    refine ⟨?_, hnd, ?_, ?_, autoIncluded_iff hreqnd hreqsub⟩
    · rw [Resolve]
      rw [if_pos hlen]
    · intro n
      exact ⟨fun h => hmemb n h, fun h => hcomp n h⟩
    · intro p c hedge
      have hc : c ∈ kahnOrder (closedTables requested all) :=
        hcomp c (edgeList_endpoints hedge).2
      exact htopo p c hedge hc
  · exact absurd hcyc (hacyc n)

/-- A relation holding only on one ordered pair of distinct points has no
cycle. -/
theorem transGen_irrefl_of_single {p c : String} (hne : p ≠ c)
    {R : String → String → Prop} (hR : ∀ a b, R a b → a = p ∧ b = c) :
    ∀ n, ¬ Relation.TransGen R n n := by
  have hab : ∀ a b, Relation.TransGen R a b → a = p ∧ b = c := by
    intro a b h
    induction h with
    | single h1 => exact hR _ _ h1
    | tail _ h2 ih => exact ⟨ih.1, (hR _ _ h2).2⟩
  intro n hn
  obtain ⟨h1, h2⟩ := hab n n hn
  exact hne (h1.symm.trans h2)

/-- C1 witness schema: `employee.companyId → company.id`. -/
def c1Company : Table := { name := "company", columns := [{ name := "id" }] }

def c1Employee : Table :=
  { name := "employee",
    columns := [{ name := "id" },
      { name := "companyId",
        fk := some { referencedTable := "company", referencedColumn := "id" } }] }

/-- C1 witness: requesting only `employee` auto-includes `company` and
orders it first. -/
theorem c1_resolve_witness :
    Resolve [c1Employee] [c1Company, c1Employee] =
      .ok (["company", "employee"], ["company"]) := by
  have h := Resolve_acyclic_correct [c1Employee] [c1Company, c1Employee]
    (by decide)
    (by intro t ht; rw [List.mem_singleton] at ht; subst ht; rfl)
    (@transGen_irrefl_of_single "company" "employee" (by decide) _ (by
      intro a b hab
      rw [edgeRel] at hab
      rw [show edgeList (closedTables [c1Employee] [c1Company, c1Employee]) =
        [("company", "employee")] from rfl] at hab
      rw [List.mem_singleton] at hab
      exact ⟨congrArg Prod.fst hab, congrArg Prod.snd hab⟩))
  rw [h.1]
  rfl

/-- A reported path is a genuine cycle: closed and following child→parent
FK edges. -/
def CycleOk (S : List Table) (path : List String) : Prop :=
  2 ≤ path.length ∧ path.head? = path.getLast? ∧
  List.Chain' (fun a b => edgeRel S b a) path

/-- Colors stay in the three-value palette. -/
def ValidCol (st : DfsSt) : Prop :=
  ∀ u, st.color u = white ∨ st.color u = gray ∨ st.color u = black

/-- Finished nodes admit a finishing order dominating their referenced
targets — the inductive reason a completed DFS excludes cycles. -/
def BlackOk (S : List Table) (st : DfsSt) : Prop :=
  ∃ f : String → Nat, ∀ u, st.color u = black →
    ∀ v, edgeRel S v u → st.color v = black ∧ f v < f u

/-- How a completed (cycle-free) DFS call may change the state. -/
def StRel (st st' : DfsSt) : Prop :=
  (∀ u, st'.color u = gray ↔ st.color u = gray) ∧
  (∀ u, st.color u ≠ white → st'.parent u = st.parent u) ∧
  (∀ u, st.color u ≠ white → st'.color u ≠ white) ∧
  (∀ u, st.color u = black → st'.color u = black)

theorem StRel_refl (st : DfsSt) : StRel st st :=
  ⟨fun _ => Iff.rfl, fun _ _ => rfl, fun _ h => h, fun _ h => h⟩

theorem StRel_trans {st₁ st₂ st₃ : DfsSt}
    (h12 : StRel st₁ st₂) (h23 : StRel st₂ st₃) : StRel st₁ st₃ := by
  obtain ⟨a12, b12, c12, d12⟩ := h12
  obtain ⟨a23, b23, c23, d23⟩ := h23
  exact ⟨fun u => (a23 u).trans (a12 u),
    fun u h => (b23 u (c12 u h)).trans (b12 u h),
    fun u h => c23 u (c12 u h),
    fun u h => d23 u (d12 u h)⟩

/-- Chain transfer along a pointwise-on-members implication. -/
theorem chain'_imp_mem {P Q : String → String → Prop} :
    ∀ (l : List String), (∀ a ∈ l, ∀ b ∈ l, P a b → Q a b) →
      List.Chain' P l → List.Chain' Q l := by
  intro l
  induction l with
  | nil => intro _ _; exact List.chain'_nil
  | cons a rest ih =>
    intro himp hch
    cases rest with
    | nil => exact List.chain'_singleton a
    | cons b rest' =>
      rw [List.chain'_cons] at hch ⊢
      refine ⟨himp a (List.mem_cons_self _ _) b
        (List.mem_cons_of_mem _ (List.mem_cons_self _ _)) hch.1, ?_⟩
      exact ih (fun x hx y hy hp =>
        himp x (List.mem_cons_of_mem _ hx) y (List.mem_cons_of_mem _ hy) hp) hch.2

theorem le_foldr_max (f : String → Nat) :
    ∀ (l : List String), ∀ x ∈ l, f x ≤ l.foldr (fun n acc => max (f n) acc) 0 := by
  intro l
  induction l with
  | nil => intro x hx; cases hx
  | cons a rest ih =>
    intro x hx
    rw [List.foldr_cons]
    rcases List.mem_cons.mp hx with h | h
    · subst h
      exact le_max_left _ _
    · exact le_trans (ih x h) (le_max_right _ _)

/-- With distinct names, lookup returns each member itself. -/
theorem findTable_mem_self {S : List Table}
    (hS : (S.map (fun t => t.name)).Nodup) {t : Table} (ht : t ∈ S) :
    findTable S t.name = some t := by
  induction S with
  | nil => cases ht
  | cons x rest ih =>
    rw [List.map_cons, List.nodup_cons] at hS
    rw [findTable, List.find?]
    rcases List.mem_cons.mp ht with h | h
    · subst h
      rw [beq_self_eq_true]
    · cases hbe : (x.name == t.name) with
      | true =>
        exfalso
        rw [beq_iff_eq] at hbe
        exact hS.1 (hbe ▸ List.mem_map.mpr ⟨t, h, rfl⟩)
      | false =>
        exact ih hS.2 h

/-- An all-black coloring with a finishing order excludes cycles. -/
theorem blackOk_no_cycle {S : List Table} {st : DfsSt}
    (hb : BlackOk S st)
    (hall : ∀ u ∈ S.map (fun t => t.name), st.color u = black) :
    ∀ n, ¬ Relation.TransGen (edgeRel S) n n := by
  obtain ⟨f, hf⟩ := hb
  have aux : ∀ a b, Relation.TransGen (edgeRel S) a b →
      st.color b = black → st.color a = black ∧ f a < f b := by
    intro a b h
    induction h with
    | single h1 => intro hbb; exact (hf _ hbb _ h1)
    | tail _ h2 ih =>
      intro hbb
      obtain ⟨hmid, hlt⟩ := hf _ hbb _ h2
      obtain ⟨ha, hlt'⟩ := ih hmid
      exact ⟨ha, lt_trans hlt' hlt⟩
  intro n hn
  have hmem : n ∈ S.map (fun t => t.name) := by
    cases hn with
    | single h => exact (edgeList_endpoints h).2
    | tail _ h => exact (edgeList_endpoints h).2
  obtain ⟨_, hlt⟩ := aux n n hn (hall n hmem)
  omega

/-- A complete topological order excludes cycles. -/
theorem topo_no_cycle {S : List Table} {o : List String}
    (htopo : TopoOk S o) (hmem : ∀ x ∈ S.map (fun t => t.name), x ∈ o) :
    ∀ n, ¬ Relation.TransGen (edgeRel S) n n := by
  have aux : ∀ a b, Relation.TransGen (edgeRel S) a b → b ∈ o →
      a ∈ o ∧ o.indexOf a < o.indexOf b := by
    intro a b h
    induction h with
    | single h1 => intro hbb; exact htopo _ _ h1 hbb
    | tail _ h2 ih =>
      intro hbb
      obtain ⟨hmid, hlt⟩ := htopo _ _ h2 hbb
      obtain ⟨ha, hlt'⟩ := ih hmid
      exact ⟨ha, lt_trans hlt' hlt⟩
  intro n hn
  have hno : n ∈ o := by
    cases hn with
    | single h => exact hmem n (edgeList_endpoints h).2
    | tail _ h => exact hmem n (edgeList_endpoints h).2
  obtain ⟨_, hlt⟩ := aux n n hn hno
  omega

/-- The parent walk of the path reconstruction, resolved against the gray
chain it runs along. -/
theorem reconstructAux_run (parent : String → String) (next : String) :
    ∀ (mid : List String) (cur : String) (acc : List String) (fuel : Nat),
      List.Chain' (fun a b => parent b = a) (next :: (mid ++ [cur])) →
      next ∉ mid → cur ≠ next →
      mid.length + 2 ≤ fuel →
      reconstructAux parent fuel cur next acc = acc ++ mid.reverse ++ [next] := by
  intro mid
  induction mid using List.reverseRecOn with
  | nil =>
    intro cur acc fuel hchain _ hcn hfuel
    rw [List.nil_append] at hchain
    have hpc : parent cur = next := (List.chain'_cons.mp hchain).1
    obtain ⟨f, rfl⟩ : ∃ f, fuel = f + 2 := ⟨fuel - 2, by simp at hfuel; omega⟩
    rw [reconstructAux, if_neg hcn, hpc, reconstructAux, if_pos rfl]
    simp
  | append_singleton mid d ih =>
    intro cur acc fuel hchain hnm hcn hfuel
    have hsplit : next :: ((mid ++ [d]) ++ [cur]) =
        (next :: (mid ++ [d])) ++ [cur] := by
      rw [List.cons_append]
    rw [hsplit] at hchain
    rcases List.chain'_append.mp hchain with ⟨hchL, _, hlink⟩
    have hlast : (next :: (mid ++ [d])).getLast? = some d := by
      rw [show next :: (mid ++ [d]) = (next :: mid) ++ [d] by rw [List.cons_append]]
      exact List.getLast?_concat _
    have hpc : parent cur = d := by
      have := hlink d (by rw [hlast]; rfl) cur rfl
      exact this
    have hdne : d ≠ next := by
      intro h
      exact hnm (List.mem_append_right _ (h ▸ List.mem_singleton.mpr rfl))
    obtain ⟨f, rfl⟩ : ∃ f, fuel = f + 1 := ⟨fuel - 1, by
      rw [List.length_append] at hfuel
      omega⟩
    rw [reconstructAux, if_neg hcn, hpc]
    have := ih d (acc ++ [d]) f hchL
      (fun hm => hnm (List.mem_append_left _ hm)) hdne
      (by rw [List.length_append] at hfuel; simp at hfuel ⊢; omega)
    rw [this, List.reverse_append]
    simp [List.append_assoc]

/-- Hitting a gray target closes the gray chain into a genuine cycle. -/
theorem grayHit_cycleOk {S : List Table} {st : DfsSt} {g : List String}
    {node next : String} {t : Table} {c : Column} {fk : ForeignKey}
    (hgray : ∀ u, st.color u = gray ↔ u ∈ g ++ [node])
    (hnd : (g ++ [node]).Nodup)
    (hmem : ∀ u ∈ g ++ [node], u ∈ S.map (fun t => t.name))
    (hchain : List.Chain' (fun a b => st.parent b = a ∧ edgeRel S b a)
      (g ++ [node]))
    (hft : findTable S node = some t)
    (hc : c ∈ t.columns) (hfk : c.fk = some fk)
    (hnext : fk.referencedTable = next)
    (hne : next ≠ node)
    (hpres : (findTable S next).isNone = false)
    (hgr : st.color next = gray) :
    CycleOk S (reconstructCycle st.parent (S.length + 1) node next) := by
  have hsome : (findTable S next).isSome := by
    cases hfind : findTable S next with
    | none => rw [hfind] at hpres; cases hpres
    | some tt => rfl
  have hedge : edgeRel S next node := by
    rcases findTable_some hft with ⟨htm, htn⟩
    exact mem_edgeList.mpr ⟨t, htm, htn, c, hc, fk, hfk, hnext, hne,
      hnext ▸ hsome⟩
  have hnextg : next ∈ g := by
    have := (hgray next).mp hgr
    rcases List.mem_append.mp this with h | h
    · exact h
    · rw [List.mem_singleton] at h
      exact absurd h hne
  obtain ⟨g₁, g₂, hg⟩ := List.append_of_mem hnextg
  have hshape : g ++ [node] = g₁ ++ (next :: (g₂ ++ [node])) := by
    rw [hg, List.append_assoc, List.cons_append]
  rw [hshape] at hchain hnd hmem
  have hchainR : List.Chain' (fun a b => st.parent b = a ∧ edgeRel S b a)
      (next :: (g₂ ++ [node])) := (List.chain'_append.mp hchain).2.1
  have hndR : (next :: (g₂ ++ [node])).Nodup := (List.nodup_append.mp hnd).2.1
  have hmemR : ∀ u ∈ next :: (g₂ ++ [node]), u ∈ S.map (fun t => t.name) :=
    fun u hu => hmem u (List.mem_append_right _ hu)
  have hlen : g₂.length + 2 ≤ S.length + 1 := by
    have := nodup_subset_length hndR hmemR
    rw [List.length_map] at this
    simp only [List.length_cons, List.length_append, List.length_singleton] at this
    omega
  have hwalk := reconstructAux_run st.parent next g₂ node [next, node]
    (S.length + 1)
    (chain'_imp_mem _ (fun a _ b _ h => h.1) hchainR)
    (by
      rw [List.nodup_cons] at hndR
      exact fun hm => hndR.1 (List.mem_append_left _ hm))
    hne.symm hlen
  rw [reconstructCycle, hwalk]
  have hpath : ([next, node] ++ g₂.reverse ++ [next]).reverse =
      (next :: (g₂ ++ [node])) ++ [next] := by
    simp [List.reverse_append]
  rw [hpath]
  refine ⟨by simp, ?_, ?_⟩
  · rw [List.getLast?_concat]
    rfl
  · rw [List.chain'_append]
    refine ⟨chain'_imp_mem _ (fun a _ b _ h => h.2) hchainR,
      List.chain'_singleton _, ?_⟩
    intro x hx y hy
    have hgl : (next :: (g₂ ++ [node])).getLast? = some node := by
      rw [show next :: (g₂ ++ [node]) = (next :: g₂) ++ [node] by
        rw [List.cons_append]]
      exact List.getLast?_concat _
    rw [hgl, Option.mem_def] at hx
    rw [show ([next] : List String).head? = some next from rfl, Option.mem_def] at hy
    injection hx with hx
    injection hy with hy
    subst hx
    subst hy
    exact hedge

/-- A valid FK column of a looked-up table yields an edge. -/
theorem edgeRel_of_col {S : List Table} {t : Table} {node next : String}
    {c : Column} {fk : ForeignKey}
    (hft : findTable S node = some t)
    (hc : c ∈ t.columns) (hfk : c.fk = some fk)
    (hnext : fk.referencedTable = next)
    (hne : next ≠ node)
    (hpres : (findTable S next).isNone = false) :
    edgeRel S next node := by
  have hsome : (findTable S next).isSome := by
    cases hfind : findTable S next with
    | none => rw [hfind] at hpres; cases hpres
    | some tt => rfl
  rcases findTable_some hft with ⟨htm, htn⟩
  exact mem_edgeList.mpr ⟨t, htm, htn, c, hc, fk, hfk, hnext, hne,
    hnext ▸ hsome⟩

/-- The contract of one `dfs(node)` call at the given fuel. -/
def VisitOk (S : List Table) (fuel : Nat) : Prop :=
  ∀ (node : String) (st : DfsSt) (g : List String),
    (∀ u, st.color u = gray ↔ u ∈ g) →
    (g ++ [node]).Nodup →
    (∀ u ∈ g ++ [node], u ∈ S.map (fun t => t.name)) →
    List.Chain' (fun a b => st.parent b = a ∧ edgeRel S b a) (g ++ [node]) →
    st.color node = white →
    ValidCol st →
    BlackOk S st →
    S.length ≤ fuel + g.length →
    ((dfsVisit S fuel node st).1 = true →
      CycleOk S (dfsVisit S fuel node st).2.cyclePath) ∧
    ((dfsVisit S fuel node st).1 = false →
      StRel st (dfsVisit S fuel node st).2 ∧
      (dfsVisit S fuel node st).2.color node = black ∧
      ValidCol (dfsVisit S fuel node st).2 ∧
      BlackOk S (dfsVisit S fuel node st).2)

/-- The contract of the column scan inside `dfs(node)` at the given
fuel. -/
def ColsOk (S : List Table) (fuel : Nat) : Prop :=
  ∀ (node : String) (cols : List Column) (st : DfsSt) (g : List String)
    (t : Table),
    (∀ u, st.color u = gray ↔ u ∈ g ++ [node]) →
    (g ++ [node]).Nodup →
    (∀ u ∈ g ++ [node], u ∈ S.map (fun x => x.name)) →
    List.Chain' (fun a b => st.parent b = a ∧ edgeRel S b a) (g ++ [node]) →
    findTable S node = some t →
    (∀ c ∈ cols, c ∈ t.columns) →
    ValidCol st →
    BlackOk S st →
    S.length ≤ fuel + g.length + 1 →
    ((dfsCols S fuel node cols st).1 = true →
      CycleOk S (dfsCols S fuel node cols st).2.cyclePath) ∧
    ((dfsCols S fuel node cols st).1 = false →
      StRel st (dfsCols S fuel node cols st).2 ∧
      ValidCol (dfsCols S fuel node cols st).2 ∧
      BlackOk S (dfsCols S fuel node cols st).2 ∧
      ∀ c ∈ cols, ∀ fk, c.fk = some fk → fk.referencedTable ≠ node →
        (findTable S fk.referencedTable).isNone = false →
        (dfsCols S fuel node cols st).2.color fk.referencedTable = black)

theorem dfsCols_nil (S : List Table) (fuel : Nat) (node : String) (st : DfsSt) :
    dfsCols S fuel node [] st = (false, st) := by
  rw [dfsCols]

theorem dfsCols_cons (S : List Table) (fuel : Nat) (node : String)
    (c : Column) (cs : List Column) (st : DfsSt) :
    dfsCols S fuel node (c :: cs) st =
      match c.fk with
      | none => dfsCols S fuel node cs st
      | some fk =>
          let next := fk.referencedTable
          if next = node then dfsCols S fuel node cs st
          else if (findTable S next).isNone then dfsCols S fuel node cs st
          else if st.color next = gray then
            (true, { st with
              cyclePath := reconstructCycle st.parent (S.length + 1) node next })
          else if st.color next = white then
            let st' : DfsSt := { st with parent := setFun st.parent next node }
            let r := dfsVisit S fuel next st'
            if r.1 then r else dfsCols S fuel node cs r.2
          else dfsCols S fuel node cs st := by
  rw [dfsCols]

theorem dfsVisit_zero (S : List Table) (node : String) (st : DfsSt) :
    dfsVisit S 0 node st = (false, st) := by
  rw [dfsVisit]

theorem dfsVisit_succ (S : List Table) (fuel : Nat) (node : String)
    (st : DfsSt) :
    dfsVisit S (fuel + 1) node st =
      (let st₁ : DfsSt := { st with color := setFun st.color node gray }
      let t := (findTable S node).getD { name := node, columns := [] }
      let r := dfsCols S fuel node t.columns st₁
      if r.1 then r
      else (false, { r.2 with color := setFun r.2.color node black })) := by
  rw [dfsVisit]

theorem dfsCols_ok (S : List Table) (fuel : Nat) (hv : VisitOk S fuel) :
    ColsOk S fuel := by
  intro node cols
  induction cols with
  | nil =>
    intro st g t hgray hnd hmem hchain hft hcols hvc hbo hfuel
    rw [dfsCols_nil]
    exact ⟨fun h => by simp at h,
      fun _ => ⟨StRel_refl st, hvc, hbo, fun c hc => by cases hc⟩⟩
  | cons c cs ih =>
    intro st g t hgray hnd hmem hchain hft hcols hvc hbo hfuel
    rw [dfsCols_cons]
    cases hfk : c.fk with
    | none =>
      dsimp only
      have hrec := ih st g t hgray hnd hmem hchain hft
        (fun c' hc' => hcols c' (List.mem_cons_of_mem _ hc')) hvc hbo hfuel
      refine ⟨hrec.1, fun hfalse => ?_⟩
      obtain ⟨hsr, hvc', hbo', htg⟩ := hrec.2 hfalse
      refine ⟨hsr, hvc', hbo', ?_⟩
      intro c' hc' fk' hcfk' hne' hpres'
      rcases List.mem_cons.mp hc' with h | h
      · subst h
        rw [hfk] at hcfk'
        cases hcfk'
      · exact htg c' h fk' hcfk' hne' hpres'
    | some fk =>
      dsimp only
      by_cases hself : fk.referencedTable = node
      · rw [if_pos hself]
        have hrec := ih st g t hgray hnd hmem hchain hft
          (fun c' hc' => hcols c' (List.mem_cons_of_mem _ hc')) hvc hbo hfuel
        refine ⟨hrec.1, fun hfalse => ?_⟩
        obtain ⟨hsr, hvc', hbo', htg⟩ := hrec.2 hfalse
        refine ⟨hsr, hvc', hbo', ?_⟩
        intro c' hc' fk' hcfk' hne' hpres'
        rcases List.mem_cons.mp hc' with h | h
        · subst h
          rw [hfk] at hcfk'
          injection hcfk' with hfe
          subst hfe
          exact absurd hself hne'
        · exact htg c' h fk' hcfk' hne' hpres'
      · rw [if_neg hself]
        by_cases hmiss : (findTable S fk.referencedTable).isNone
        · rw [if_pos hmiss]
          have hrec := ih st g t hgray hnd hmem hchain hft
            (fun c' hc' => hcols c' (List.mem_cons_of_mem _ hc')) hvc hbo hfuel
          refine ⟨hrec.1, fun hfalse => ?_⟩
          obtain ⟨hsr, hvc', hbo', htg⟩ := hrec.2 hfalse
          refine ⟨hsr, hvc', hbo', ?_⟩
          intro c' hc' fk' hcfk' hne' hpres'
          rcases List.mem_cons.mp hc' with h | h
          · subst h
            rw [hfk] at hcfk'
            injection hcfk' with hfe
            subst hfe
            rw [hmiss] at hpres'
            cases hpres'
          · exact htg c' h fk' hcfk' hne' hpres'
        · rw [if_neg hmiss]
          have hmiss' : (findTable S fk.referencedTable).isNone = false := by
            cases hbb : (findTable S fk.referencedTable).isNone with
            | true => exact absurd hbb hmiss
            | false => rfl
          by_cases hgr : st.color fk.referencedTable = gray
          · rw [if_pos hgr]
            refine ⟨fun _ => ?_, fun hfalse => by simp at hfalse⟩
            exact grayHit_cycleOk hgray hnd hmem hchain hft
              (hcols c (List.mem_cons_self _ _)) hfk rfl hself hmiss' hgr
          · rw [if_neg hgr]
            by_cases hwh : st.color fk.referencedTable = white
            · rw [if_pos hwh]
              have hsomeT : (findTable S fk.referencedTable).isSome := by
                cases hfind : findTable S fk.referencedTable with
                | none => rw [hfind] at hmiss'; cases hmiss'
                | some tt => rfl
              have hnextS : fk.referencedTable ∈ S.map (fun x => x.name) :=
                (findTable_isSome_iff _ _).mp hsomeT
              have hnotin : fk.referencedTable ∉ g ++ [node] := fun hmem' =>
                hgr ((hgray _).mpr hmem')
              have hedge := edgeRel_of_col hft (hcols c (List.mem_cons_self _ _))
                hfk rfl hself hmiss'
              have hchain' : List.Chain'
                  (fun a b => ({ st with
                    parent := setFun st.parent fk.referencedTable node } :
                      DfsSt).parent b = a ∧ edgeRel S b a) (g ++ [node]) := by
                refine chain'_imp_mem _ (fun a _ b hb h => ?_) hchain
                refine ⟨?_, h.2⟩
                show (if b = fk.referencedTable then node else st.parent b) = a
                rw [if_neg (show ¬ b = fk.referencedTable from
                  fun he => hnotin (by rw [← he]; exact hb))]
                exact h.1
              have hchain'' : List.Chain'
                  (fun a b => ({ st with
                    parent := setFun st.parent fk.referencedTable node } :
                      DfsSt).parent b = a ∧ edgeRel S b a)
                  ((g ++ [node]) ++ [fk.referencedTable]) := by
                rw [List.chain'_append]
                refine ⟨hchain', List.chain'_singleton _, ?_⟩
                intro x hx y hy
                rw [List.getLast?_concat, Option.mem_def] at hx
                rw [show ([fk.referencedTable] : List String).head? =
                  some fk.referencedTable from rfl, Option.mem_def] at hy
                injection hx with hx
                injection hy with hy
                subst hx
                subst hy
                constructor
                · show (if fk.referencedTable = fk.referencedTable then node
                    else st.parent fk.referencedTable) = node
                  rw [if_pos rfl]
                · exact hedge
              have hpre := hv fk.referencedTable
                { st with parent := setFun st.parent fk.referencedTable node }
                (g ++ [node]) hgray
                (by
                  rw [List.nodup_append]
                  exact ⟨hnd, List.nodup_singleton _,
                    fun a ha hb => hnotin ((List.mem_singleton.mp hb) ▸ ha)⟩)
                (by
                  intro u hu
                  rcases List.mem_append.mp hu with h | h
                  · exact hmem u h
                  · rw [List.mem_singleton] at h
                    exact h ▸ hnextS)
                hchain'' hwh hvc hbo
                (by
                  rw [List.length_append, List.length_singleton]
                  omega)
              by_cases hr1 : (dfsVisit S fuel fk.referencedTable
                  { st with parent := setFun st.parent fk.referencedTable node }).1 = true
              · rw [if_pos hr1]
                exact ⟨fun _ => hpre.1 hr1, fun hc => by rw [hr1] at hc; cases hc⟩
              · have hr1' : (dfsVisit S fuel fk.referencedTable
                    { st with
                      parent := setFun st.parent fk.referencedTable node }).1 =
                    false := by
                  cases hbb : (dfsVisit S fuel fk.referencedTable
                      { st with
                        parent := setFun st.parent fk.referencedTable node }).1 with
                  | true => exact absurd hbb hr1
                  | false => rfl
                rw [if_neg hr1]
                obtain ⟨hsr1, hblack1, hvc1, hbo1⟩ := hpre.2 hr1'
                have hgray2 : ∀ u, (dfsVisit S fuel fk.referencedTable
                    { st with
                      parent := setFun st.parent fk.referencedTable node }).2.color
                      u = gray ↔ u ∈ g ++ [node] :=
                  fun u => (hsr1.1 u).trans (hgray u)
                have hchain2 : List.Chain'
                    (fun a b => (dfsVisit S fuel fk.referencedTable
                      { st with
                        parent := setFun st.parent fk.referencedTable
                          node }).2.parent b = a ∧ edgeRel S b a)
                    (g ++ [node]) := by
                  refine chain'_imp_mem _ (fun a _ b hb h => ?_) hchain'
                  refine ⟨?_, h.2⟩
                  rw [hsr1.2.1 b (by
                    have : ({ st with
                        parent := setFun st.parent fk.referencedTable node } :
                        DfsSt).color b = gray := (hgray b).mpr hb
                    rw [this]
                    decide)]
                  exact h.1
                have hrec := ih _ g t hgray2 hnd hmem hchain2 hft
                  (fun c' hc' => hcols c' (List.mem_cons_of_mem _ hc'))
                  hvc1 hbo1 hfuel
                refine ⟨hrec.1, fun hfalse => ?_⟩
                obtain ⟨hsr2, hvc2, hbo2, htg2⟩ := hrec.2 hfalse
                have hsr0 : StRel st { st with
                    parent := setFun st.parent fk.referencedTable node } := by
                  refine ⟨fun u => Iff.rfl, fun u hu => ?_, fun u hu => hu,
                    fun u hu => hu⟩
                  show (if u = fk.referencedTable then node else st.parent u) =
                    st.parent u
                  rw [if_neg (show ¬ u = fk.referencedTable from
                    fun he => hu (by rw [he]; exact hwh))]
                refine ⟨StRel_trans (StRel_trans hsr0 hsr1) hsr2, hvc2, hbo2, ?_⟩
                intro c' hc' fk' hcfk' hne' hpres'
                rcases List.mem_cons.mp hc' with h | h
                · subst h
                  rw [hfk] at hcfk'
                  injection hcfk' with hfe
                  subst hfe
                  exact hsr2.2.2.2 _ hblack1
                · exact htg2 c' h fk' hcfk' hne' hpres'
            · rw [if_neg hwh]
              have hblackc : st.color fk.referencedTable = black := by
                rcases hvc fk.referencedTable with h | h | h
                · exact absurd h hwh
                · exact absurd h hgr
                · exact h
              have hrec := ih st g t hgray hnd hmem hchain hft
                (fun c' hc' => hcols c' (List.mem_cons_of_mem _ hc')) hvc hbo hfuel
              refine ⟨hrec.1, fun hfalse => ?_⟩
              obtain ⟨hsr, hvc', hbo', htg⟩ := hrec.2 hfalse
              refine ⟨hsr, hvc', hbo', ?_⟩
              intro c' hc' fk' hcfk' hne' hpres'
              rcases List.mem_cons.mp hc' with h | h
              · subst h
                rw [hfk] at hcfk'
                injection hcfk' with hfe
                subst hfe
                exact hsr.2.2.2 _ hblackc
              · exact htg c' h fk' hcfk' hne' hpres'

theorem dfsVisit_ok (S : List Table)
    (hS : (S.map (fun x => x.name)).Nodup) :
    ∀ fuel, VisitOk S fuel := by
  intro fuel
  induction fuel with
  | zero =>
    intro node st g hgray hnd hmem hchain hwh hvc hbo hfuel
    exfalso
    have := nodup_subset_length hnd hmem
    rw [List.length_map, List.length_append, List.length_singleton] at this
    omega
  | succ fuel ih =>
    intro node st g hgray hnd hmem hchain hwh hvc hbo hfuel
    rw [dfsVisit_succ]
    have hnodeS : node ∈ S.map (fun x => x.name) :=
      hmem node (List.mem_append_right _ (List.mem_singleton.mpr rfl))
    have hsome : (findTable S node).isSome :=
      (findTable_isSome_iff _ _).mpr hnodeS
    obtain ⟨t₀, hft⟩ := Option.isSome_iff_exists.mp hsome
    dsimp only
    rw [hft, Option.getD_some]
    have hnotg : node ∉ g := fun hg =>
      (by decide : white ≠ gray) (hwh.symm.trans ((hgray node).mpr hg))
    have hgray₁ : ∀ u, ({ st with color := setFun st.color node gray } :
        DfsSt).color u = gray ↔ u ∈ g ++ [node] := by
      intro u
      show (if u = node then gray else st.color u) = gray ↔ _
      by_cases hun : u = node
      · subst hun
        rw [if_pos rfl]
        simp
      · rw [if_neg hun, hgray u]
        constructor
        · exact fun h => List.mem_append_left _ h
        · intro h
          rcases List.mem_append.mp h with h | h
          · exact h
          · rw [List.mem_singleton] at h
            exact absurd h hun
    have hvc₁ : ValidCol { st with color := setFun st.color node gray } := by
      intro u
      by_cases hun : u = node
      · exact Or.inr (Or.inl (if_pos hun))
      · rcases hvc u with h | h | h
        · exact Or.inl ((if_neg hun).trans h)
        · exact Or.inr (Or.inl ((if_neg hun).trans h))
        · exact Or.inr (Or.inr ((if_neg hun).trans h))
    have hbo₁ : BlackOk S { st with color := setFun st.color node gray } := by
      obtain ⟨f, hf⟩ := hbo
      refine ⟨f, fun u hu v hv => ?_⟩
      have hun : ¬ u = node := by
        intro he
        rw [show ({ st with color := setFun st.color node gray } :
          DfsSt).color u = (if u = node then gray else st.color u) from rfl,
          if_pos he] at hu
        exact (by decide : gray ≠ black) hu
      rw [show ({ st with color := setFun st.color node gray } :
        DfsSt).color u = (if u = node then gray else st.color u) from rfl,
        if_neg hun] at hu
      obtain ⟨hvb, hlt⟩ := hf u hu v hv
      have hvn : ¬ v = node := by
        intro he
        rw [he, hwh] at hvb
        exact (by decide : white ≠ black) hvb
      refine ⟨?_, hlt⟩
      show (if v = node then gray else st.color v) = black
      rw [if_neg hvn]
      exact hvb
    have hcolsok := dfsCols_ok S fuel ih node t₀.columns
      { st with color := setFun st.color node gray } g t₀
      hgray₁ hnd hmem hchain hft (fun _ hc => hc) hvc₁ hbo₁ (by omega)
    by_cases hr1 : (dfsCols S fuel node t₀.columns
        { st with color := setFun st.color node gray }).1 = true
    · rw [if_pos hr1]
      exact ⟨fun _ => hcolsok.1 hr1, fun hc => by rw [hr1] at hc; cases hc⟩
    · have hr1' : (dfsCols S fuel node t₀.columns
          { st with color := setFun st.color node gray }).1 = false := by
        cases hbb : (dfsCols S fuel node t₀.columns
            { st with color := setFun st.color node gray }).1 with
        | true => exact absurd hbb hr1
        | false => rfl
      rw [if_neg hr1]
      obtain ⟨hsr, hvc2, hbo2, htg⟩ := hcolsok.2 hr1'
      have hnodegray : (dfsCols S fuel node t₀.columns
          { st with color := setFun st.color node gray }).2.color node = gray :=
        (hsr.1 node).mpr (by
          show (if node = node then gray else st.color node) = gray
          rw [if_pos rfl])
      refine ⟨fun hc => by simp at hc, fun _ => ⟨?_, ?_, ?_, ?_⟩⟩
      · refine ⟨?_, ?_, ?_, ?_⟩
        · intro u
          show (if u = node then black else _) = gray ↔ st.color u = gray
          by_cases hun : u = node
          · subst hun
            rw [if_pos rfl, hwh]
            constructor
            · intro h; exact absurd h (by decide)
            · intro h; exact absurd h (by decide)
          · rw [if_neg hun]
            refine (hsr.1 u).trans ?_
            show (if u = node then gray else st.color u) = gray ↔ _
            rw [if_neg hun]
        · intro u hu
          have hun : ¬ u = node := fun he => hu (he ▸ hwh)
          show (dfsCols S fuel node t₀.columns
            { st with color := setFun st.color node gray }).2.parent u =
              st.parent u
          rw [hsr.2.1 u (by
            show ¬ (if u = node then gray else st.color u) = white
            rw [if_neg hun]
            exact hu)]
        · intro u hu
          have hun : ¬ u = node := fun he => hu (he ▸ hwh)
          show ¬ (if u = node then black else _) = white
          rw [if_neg hun]
          exact hsr.2.2.1 u (by
            show ¬ (if u = node then gray else st.color u) = white
            rw [if_neg hun]
            exact hu)
        · intro u hu
          have hun : ¬ u = node := fun he =>
            (by decide : white ≠ black) (hwh.symm.trans (he ▸ hu))
          have h1 : ({ st with color := setFun st.color node gray } :
              DfsSt).color u = black :=
            Eq.trans (if_neg hun) hu
          exact Eq.trans (if_neg hun) (hsr.2.2.2 u h1)
      · show (if node = node then black else _) = black
        rw [if_pos rfl]
      · intro u
        by_cases hun : u = node
        · exact Or.inr (Or.inr (if_pos hun))
        · rcases hvc2 u with h | h | h
          · exact Or.inl ((if_neg hun).trans h)
          · exact Or.inr (Or.inl ((if_neg hun).trans h))
          · exact Or.inr (Or.inr ((if_neg hun).trans h))
      · obtain ⟨f, hf2⟩ := hbo2
        refine ⟨fun u => if u = node then
            (S.map (fun x => x.name)).foldr (fun n acc => max (f n) acc) 0 + 1
          else f u, ?_⟩
        intro u hu v hv
        by_cases hun : u = node
        · rw [hun] at hv
          rcases mem_edgeList.mp hv with
            ⟨t', ht', htn', col, hcol, fk, hfk, hrt, hne, hps⟩
          have ht0 : t' = t₀ := by
            have hself := findTable_mem_self hS ht'
            rw [htn', hft] at hself
            injection hself with h
            exact h.symm
          subst ht0
          have hpres' : (findTable S fk.referencedTable).isNone = false := by
            rw [hrt]
            cases hfind : findTable S v with
            | none => rw [hfind] at hps; cases hps
            | some tt => rfl
          have hvblack := htg col hcol fk hfk
            (by rw [hrt]; exact hne) hpres'
          rw [hrt] at hvblack
          refine ⟨(if_neg hne).trans hvblack, ?_⟩
          show (if v = node then _ else f v) < (if u = node then _ else f u)
          rw [if_neg hne, if_pos hun]
          exact Nat.lt_succ_of_le
            (le_foldr_max f _ v (edgeList_endpoints hv).1)
        · have hu' : (dfsCols S fuel node t₀.columns
              { st with color := setFun st.color node gray }).2.color u =
              black := Eq.trans (if_neg hun).symm hu
          obtain ⟨hvb, hlt⟩ := hf2 u hu' v hv
          have hvne : ¬ v = node := by
            intro he
            rw [he, hnodegray] at hvb
            exact (by decide : gray ≠ black) hvb
          refine ⟨(if_neg hvne).trans hvb, ?_⟩
          show (if v = node then _ else f v) < (if u = node then _ else f u)
          rw [if_neg hvne, if_neg hun]
          exact hlt

/-- Once a cycle is found, the sweep carries it through unchanged. -/
theorem sweep_keeps (S : List Table) :
    ∀ (scan : List Table) (st : DfsSt),
      scan.foldl
        (fun (acc : Bool × DfsSt) t =>
          if acc.1 then acc
          else if acc.2.color t.name = white then
            dfsVisit S (S.length + 1) t.name acc.2
          else acc)
        (true, st) = (true, st) := by
  intro scan
  induction scan with
  | nil => intro st; rfl
  | cons t rest ih =>
    intro st
    rw [List.foldl_cons]
    rw [show (if ((true, st) : Bool × DfsSt).1 = true then
        ((true, st) : Bool × DfsSt)
      else if ((true, st) : Bool × DfsSt).2.color t.name = white then
        dfsVisit S (S.length + 1) t.name ((true, st) : Bool × DfsSt).2
      else ((true, st) : Bool × DfsSt)) = (true, st) from if_pos rfl]
    exact ih st

/-- The full `detectCycle` sweep: either a genuine cycle was recorded, or
every scanned table finished black. -/
theorem sweep_run (S : List Table)
    (hS : (S.map (fun x => x.name)).Nodup) :
    ∀ (scan : List Table) (st : DfsSt),
      (∀ u, ¬ st.color u = gray) →
      ValidCol st → BlackOk S st →
      (∀ t ∈ scan, t ∈ S) →
      ((scan.foldl
          (fun (acc : Bool × DfsSt) t =>
            if acc.1 then acc
            else if acc.2.color t.name = white then
              dfsVisit S (S.length + 1) t.name acc.2
            else acc)
          (false, st)).1 = true →
        CycleOk S (scan.foldl
          (fun (acc : Bool × DfsSt) t =>
            if acc.1 then acc
            else if acc.2.color t.name = white then
              dfsVisit S (S.length + 1) t.name acc.2
            else acc)
          (false, st)).2.cyclePath) ∧
      ((scan.foldl
          (fun (acc : Bool × DfsSt) t =>
            if acc.1 then acc
            else if acc.2.color t.name = white then
              dfsVisit S (S.length + 1) t.name acc.2
            else acc)
          (false, st)).1 = false →
        (∀ t ∈ scan, (scan.foldl
          (fun (acc : Bool × DfsSt) t =>
            if acc.1 then acc
            else if acc.2.color t.name = white then
              dfsVisit S (S.length + 1) t.name acc.2
            else acc)
          (false, st)).2.color t.name = black) ∧
        BlackOk S (scan.foldl
          (fun (acc : Bool × DfsSt) t =>
            if acc.1 then acc
            else if acc.2.color t.name = white then
              dfsVisit S (S.length + 1) t.name acc.2
            else acc)
          (false, st)).2 ∧
        (∀ u, st.color u = black → (scan.foldl
          (fun (acc : Bool × DfsSt) t =>
            if acc.1 then acc
            else if acc.2.color t.name = white then
              dfsVisit S (S.length + 1) t.name acc.2
            else acc)
          (false, st)).2.color u = black)) := by
  intro scan
  induction scan with
  | nil =>
    intro st hgr hvc hbo _
    exact ⟨fun h => by simp at h,
      fun _ => ⟨fun t ht => absurd ht (List.not_mem_nil t), hbo,
        fun u hu => hu⟩⟩
  | cons t rest ih =>
    intro st hgr hvc hbo hscan
    rw [List.foldl_cons]
    rw [show (if ((false, st) : Bool × DfsSt).1 = true then
        ((false, st) : Bool × DfsSt)
      else if ((false, st) : Bool × DfsSt).2.color t.name = white then
        dfsVisit S (S.length + 1) t.name ((false, st) : Bool × DfsSt).2
      else ((false, st) : Bool × DfsSt)) =
      (if st.color t.name = white then
        dfsVisit S (S.length + 1) t.name st
      else (false, st)) from if_neg (by simp)]
    by_cases hw : st.color t.name = white
    · rw [if_pos hw]
      have hvis := dfsVisit_ok S hS (S.length + 1) t.name st []
        (fun u => ⟨fun h => absurd h (hgr u), fun h => by cases h⟩)
        (by simp)
        (by
          intro u hu
          rw [List.nil_append, List.mem_singleton] at hu
          exact hu ▸ List.mem_map.mpr ⟨t, hscan t (List.mem_cons_self _ _), rfl⟩)
        (by rw [List.nil_append]; exact List.chain'_singleton _)
        hw hvc hbo (by simp)
      by_cases hr1 : (dfsVisit S (S.length + 1) t.name st).1 = true
      · have hr0eq : dfsVisit S (S.length + 1) t.name st =
            (true, (dfsVisit S (S.length + 1) t.name st).2) := by
          rw [← hr1]
        rw [hr0eq, sweep_keeps]
        exact ⟨fun _ => hvis.1 hr1, fun h => by simp at h⟩
      · have hr1' : (dfsVisit S (S.length + 1) t.name st).1 = false := by
          cases hbb : (dfsVisit S (S.length + 1) t.name st).1 with
          | true => exact absurd hbb hr1
          | false => rfl
        obtain ⟨hsr, hblack, hvc1, hbo1⟩ := hvis.2 hr1'
        have hr0eq : dfsVisit S (S.length + 1) t.name st =
            (false, (dfsVisit S (S.length + 1) t.name st).2) := by
          rw [← hr1']
        rw [hr0eq]
        have hrec := ih (dfsVisit S (S.length + 1) t.name st).2
          (fun u h => hgr u ((hsr.1 u).mp h))
          hvc1 hbo1
          (fun t' ht' => hscan t' (List.mem_cons_of_mem _ ht'))
        refine ⟨hrec.1, fun hfalse => ?_⟩
        obtain ⟨hall, hbo2, hmono⟩ := hrec.2 hfalse
        refine ⟨?_, hbo2, fun u hu => hmono u (hsr.2.2.2 u hu)⟩
        intro t' ht'
        rcases List.mem_cons.mp ht' with h | h
        · subst h
          exact hmono t'.name hblack
        · exact hall t' h
    · rw [if_neg hw]
      have hblackt : st.color t.name = black := by
        rcases hvc t.name with h | h | h
        · exact absurd h hw
        · exact absurd h (hgr t.name)
        · exact h
      have hrec := ih st hgr hvc hbo
        (fun t' ht' => hscan t' (List.mem_cons_of_mem _ ht'))
      refine ⟨hrec.1, fun hfalse => ?_⟩
      obtain ⟨hall, hbo2, hmono⟩ := hrec.2 hfalse
      refine ⟨?_, hbo2, hmono⟩
      intro t' ht'
      rcases List.mem_cons.mp ht' with h | h
      · subst h
        exact hmono t'.name hblackt
      · exact hall t' h

/-- On a cyclic closed set, `detectCycle` reports a genuine cycle. -/
theorem detectCycle_correct (S : List Table)
    (hS : (S.map (fun x => x.name)).Nodup)
    (hcyc : ∃ n, Relation.TransGen (edgeRel S) n n) :
    CycleOk S (detectCycle S) := by
  rw [detectCycle]
  have hrun := sweep_run S hS S ⟨fun _ => white, fun _ => "", []⟩
    (fun u h => (by decide : white ≠ gray) h)
    (fun u => Or.inl rfl)
    ⟨fun _ => 0, fun u hu => by simp [white, black] at hu⟩
    (fun t ht => ht)
  by_cases hr1 : (S.foldl
      (fun (acc : Bool × DfsSt) t =>
        if acc.1 then acc
        else if acc.2.color t.name = white then
          dfsVisit S (S.length + 1) t.name acc.2
        else acc)
      (false, ⟨fun _ => white, fun _ => "", []⟩)).1 = true
  · rw [if_pos hr1]
    exact hrun.1 hr1
  · exfalso
    have hr1' : (S.foldl
        (fun (acc : Bool × DfsSt) t =>
          if acc.1 then acc
          else if acc.2.color t.name = white then
            dfsVisit S (S.length + 1) t.name acc.2
          else acc)
        (false, ⟨fun _ => white, fun _ => "", []⟩)).1 = false := by
      cases hbb : (S.foldl
          (fun (acc : Bool × DfsSt) t =>
            if acc.1 then acc
            else if acc.2.color t.name = white then
              dfsVisit S (S.length + 1) t.name acc.2
            else acc)
          (false, ⟨fun _ => white, fun _ => "", []⟩)).1 with
      | true => exact absurd hbb hr1
      | false => rfl
    obtain ⟨hall, hbo2, _⟩ := hrun.2 hr1'
    obtain ⟨n, hn⟩ := hcyc
    refine blackOk_no_cycle hbo2 ?_ n hn
    intro u hu
    rcases List.mem_map.mp hu with ⟨t, ht, htn⟩
    exact htn ▸ hall t ht

/-- C7: a cyclic closed FK graph makes `Resolve` fail, and the reported
path is itself a cycle: closed at both ends and linked by FK parent-child
edges. -/
theorem Resolve_cycle_error (requested all : List Table)
    (hreqnd : (requested.map (fun x => x.name)).Nodup)
    (hreqsub : ∀ t ∈ requested, findTable all t.name = some t)
    (hcyc : ∃ n,
      Relation.TransGen (edgeRel (closedTables requested all)) n n) :
    Resolve requested all =
      .error (detectCycle (closedTables requested all)) ∧
    2 ≤ (detectCycle (closedTables requested all)).length ∧
    (detectCycle (closedTables requested all)).head? =
      (detectCycle (closedTables requested all)).getLast? ∧
    List.Chain' (fun a b => edgeRel (closedTables requested all) b a)
      (detectCycle (closedTables requested all)) := by
  obtain ⟨_, hS, _, _⟩ := closedTables_inv hreqnd hreqsub
  obtain ⟨hnd, hmemb, htopo, _⟩ := kahnOrder_run (closedTables requested all) hS
  have hlenne : ¬ (kahnOrder (closedTables requested all)).length =
      (closedTables requested all).length := by
    intro hlen
    have hall : ∀ x ∈ (closedTables requested all).map (fun t => t.name),
        x ∈ kahnOrder (closedTables requested all) := by
      intro x hx
      by_contra hno
      have hsub : kahnOrder (closedTables requested all) ⊆
          ((closedTables requested all).map (fun t => t.name)).erase x := by
        intro y hy
        have hyn := hmemb y hy
        have hxy : y ≠ x := fun he => hno (he ▸ hy)
        exact (List.mem_erase_of_ne hxy).mpr hyn
      have h1 := nodup_subset_length hnd hsub
      rw [List.length_erase_of_mem hx, List.length_map] at h1
      have h2 : 1 ≤ ((closedTables requested all).map (fun t => t.name)).length :=
        List.length_pos.mpr (fun he => by rw [he] at hx; cases hx)
      rw [List.length_map] at h2
      omega
    obtain ⟨n, hn⟩ := hcyc
    exact topo_no_cycle htopo hall n hn
  obtain ⟨hl, hhead, hch⟩ := detectCycle_correct (closedTables requested all)
    hS hcyc
  refine ⟨?_, hl, hhead, hch⟩
  rw [Resolve, if_neg hlenne]

/-- C7 witness schema: `a.bId → b.id` and `b.aId → a.id` — a two-table
cycle. -/
def c7A : Table :=
  { name := "a",
    columns := [
      { name := "bId",
        fk := some { referencedTable := "b", referencedColumn := "id" } }] }

def c7B : Table :=
  { name := "b",
    columns := [
      { name := "aId",
        fk := some { referencedTable := "a", referencedColumn := "id" } }] }

/-- C7 witness: the mutual reference forces the error branch with a closed
edge-linked path. -/
theorem c7_resolve_witness :
    Resolve [c7A, c7B] [c7A, c7B] =
      .error (detectCycle (closedTables [c7A, c7B] [c7A, c7B])) ∧
    2 ≤ (detectCycle (closedTables [c7A, c7B] [c7A, c7B])).length ∧
    (detectCycle (closedTables [c7A, c7B] [c7A, c7B])).head? =
      (detectCycle (closedTables [c7A, c7B] [c7A, c7B])).getLast? ∧
    List.Chain' (fun a b => edgeRel (closedTables [c7A, c7B] [c7A, c7B]) b a)
      (detectCycle (closedTables [c7A, c7B] [c7A, c7B])) :=
  Resolve_cycle_error [c7A, c7B] [c7A, c7B] (by decide)
    (by
      intro t ht
      rcases List.mem_cons.mp ht with h | h
      · subst h; rfl
      · rw [List.mem_singleton] at h; subst h; rfl)
    ⟨"a", Relation.TransGen.tail
      (Relation.TransGen.single
        (show ("a", "b") ∈ edgeList (closedTables [c7A, c7B] [c7A, c7B])
          by decide))
      (show ("b", "a") ∈ edgeList (closedTables [c7A, c7B] [c7A, c7B])
        by decide)⟩

end GoTestMyDb
